import Mathlib

/-!
# sortc::sorted_list — a bucketed sorted multiset with an order-statistics index

Shallow embedding of `src/sorted_list.hpp`.

Modelling conventions
* `std::vector<T>` is `List T`; `len_t` / `index_t` (unsigned 64-bit) is `Nat`.
  The only place where wrap-around can be observed is an unsigned subtraction,
  which is modelled by `len_sub`.  Shifts by one are written `* 2` and `/ 2`,
  `x & 1` is written `x % 2`; `_bit_trick` keeps the bit operations.
* `std::lower_bound` / `std::upper_bound` are library functions; they are
  modelled by their contract on a partitioned range (the first position whose
  element is not less than / is greater than the key).
* The object is passed explicitly: a member function that mutates returns the
  new object, a member function that also returns a value returns a pair.
* A `throw err(...)` is an `Except.error`; the object returned next to it is the
  object as it is at the moment of the throw.
* Reading a vector past its end is undefined behaviour in C++.  Where the value
  read is what the public function hands back to its caller (`pop`, `remove_at`,
  `operator[]`) the model reports `err.out_of_bounds_read`; internal reads use a
  default value (`[]` for a bucket, `0` for a count) and internal writes past
  the end are dropped.  All theorems are stated on states where every access
  is in bounds.
-/

namespace sortc

/-- The messages of `sorted_list::err`, plus a marker for a read past the end of a vector. -/
inductive err where
  /-- Thrown as `err("Element not found")`. -/
  | element_not_found
  /-- Thrown as `err("List is empty")`. -/
  | list_is_empty
  /-- Thrown as `err("Index out of range")`. -/
  | index_out_of_range
  /-- Not an exception: the code reads a vector element that does not exist. -/
  | out_of_bounds_read
deriving DecidableEq

/-- The constant `LOAD_FACTOR` of the class. -/
def LOAD_FACTOR : Nat := 100

/-- The data members of `sorted_list<T>`. -/
structure sorted_list (α : Type) where
  _len : Nat
  _load : Nat
  _list : List (List α)
  _max : List α
  _index : List Nat
  _off : Nat
deriving DecidableEq

/-- Unsigned subtraction on `len_t`: exact when `b ≤ a`, wrapping modulo `2^64` otherwise. -/
def len_sub (a b : Nat) : Nat := if b ≤ a then a - b else a + 2 ^ 64 - b

/-- Contract of `std::lower_bound`: index of the first element that is not less than `el`. -/
def lower_bound {α : Type} [LinearOrder α] : List α → α → Nat
  | [], _ => 0
  | x :: xs, el => if x < el then lower_bound xs el + 1 else 0

/-- Contract of `std::upper_bound`: index of the first element that is greater than `el`. -/
def upper_bound {α : Type} [LinearOrder α] : List α → α → Nat
  | [], _ => 0
  | x :: xs, el => if el < x then 0 else upper_bound xs el + 1

/-- The assignment `_max[i] = b.back()`. -/
def set_back {α : Type} (mx : List α) (i : Nat) (b : List α) : List α :=
  match b.getLast? with
  | some x => mx.set i x
  | none => mx

/-- The call `v.resize(k)` on a vector of counts: truncate, or pad with zeros. -/
def resize (v : List Nat) (k : Nat) : List Nat :=
  v.take k ++ List.replicate (k - v.length) 0

/-- The function `_bit_trick`: smear the highest set bit of `sz - 1` to the right. -/
def _bit_trick (sz : Nat) : Nat :=
  let sz := len_sub sz 1
  let sz := sz ||| (sz >>> 1)
  let sz := sz ||| (sz >>> 2)
  let sz := sz ||| (sz >>> 4)
  let sz := sz ||| (sz >>> 8)
  let sz := sz ||| (sz >>> 16)
  let sz := sz ||| (sz >>> 32)
  sz

/-- The body `_index[i] = _index[(i << 1) + 1] + _index[(i << 1) + 2]`. -/
def sum_children (ix : List Nat) (i : Nat) : List Nat :=
  ix.set i (ix.getD (i * 2 + 1) 0 + ix.getD (i * 2 + 2) 0)

/-- The function `_build_index`. -/
def _build_index {α : Type} (s : sorted_list α) : sorted_list α :=
  if s._list.length = 1 then
    { s with _index := s._index ++ [(s._list.getD 0 []).length], _off := 0 }
  else
    let index_sz := _bit_trick s._list.length
    let aux_sz := index_sz / 2
    let ix := resize s._index (index_sz + s._list.length)
    -- for (i = index_sz; i < _index.size(); ++i)
    let ix := (List.range' index_sz (ix.length - index_sz)).foldl
      (fun ix i => ix.set i (s._list.getD (i - index_sz) []).length) ix
    let stop := aux_sz + s._list.length / 2
    -- for (i = aux_sz; i < end; ++i)
    let ix := (List.range' aux_sz (stop - aux_sz)).foldl sum_children ix
    let ix := if s._list.length % 2 = 1 then
        ix.set stop (s._list.getLast?.getD []).length
      else ix
    -- for (i = aux_sz; i-- > 0;)
    let ix := (List.range aux_sz).reverse.foldl sum_children ix
    { s with _index := ix, _off := index_sz }

/-- The loop `while (child) { f(_index[child]); child = (child - 1) >> 1; }` of `_expand`
(with `f` the increment) and of `_delete` (with `f` the decrement).  The first argument
bounds the number of iterations; `child` iterations are always enough. -/
def walk_up (f : Nat → Nat) : Nat → Nat → List Nat → List Nat
  | 0, _, ix => ix
  | fuel + 1, child, ix =>
    if child = 0 then ix
    else walk_up f fuel ((child - 1) / 2) (ix.set child (f (ix.getD child 0)))

/-- The index update of `_expand` and `_delete`: the loop followed by `f(_index[0])`. -/
def update_path (f : Nat → Nat) (child : Nat) (ix : List Nat) : List Nat :=
  let ix := walk_up f child child ix
  ix.set 0 (f (ix.getD 0 0))

/-- The function `_expand`. -/
def _expand {α : Type} (i : Nat) (s : sorted_list α) : sorted_list α :=
  let b := s._list.getD i []
  if b.length > s._load * 2 then
    match b.getLast? with
    | none => s
    | some last =>
      let mx := s._max.insertIdx (i + 1) last
      let lst := s._list.insertIdx (i + 1) (b.drop s._load)
      let lst := lst.set i (b.take s._load)
      let mx := set_back mx i (b.take s._load)
      { s with _list := lst, _max := mx, _index := [] }
  else if s._index.length ≠ 0 then
    { s with _index := update_path (fun c => c + 1) (s._off + i) s._index }
  else s

/-- The function `_delete`. -/
def _delete {α : Type} (i j : Nat) (s : sorted_list α) : sorted_list α :=
  let b := (s._list.getD i []).eraseIdx j
  let lst := s._list.set i b
  let len := len_sub s._len 1
  let llen := b.length
  if llen > s._load / 2 then
    let mx := set_back s._max i b
    let ix := if s._index.length ≠ 0 then
        update_path (fun c => len_sub c 1) (s._off + i) s._index
      else s._index
    { s with _len := len, _list := lst, _max := mx, _index := ix }
  else if lst.length > 1 then
    let i := if i = 0 then i + 1 else i
    let prev := i - 1
    let merged := lst.getD prev [] ++ lst.getD i []
    let lst := lst.set prev merged
    let mx := set_back s._max prev merged
    let lst := lst.eraseIdx i
    let mx := mx.eraseIdx i
    _expand prev { s with _len := len, _list := lst, _max := mx, _index := [] }
  else if llen = 0 then
    { s with _len := len, _list := lst.eraseIdx i, _max := s._max.eraseIdx i, _index := [] }
  else
    { s with _len := len, _list := lst, _max := set_back s._max i b }

/-- The loop of `_locate`: climb from node `i` to the root, adding the left sibling of
every right child.  The first argument bounds the number of iterations. -/
def locate_loop (ix : List Nat) : Nat → Nat → Nat → Nat
  | 0, _, total => total
  | fuel + 1, i, total =>
    if i = 0 then total
    else
      let total := if i % 2 = 0 then total + ix.getD (i - 1) 0 else total
      locate_loop ix fuel ((i - 1) / 2) total

/-- The function `_locate`: from a pair (bucket, offset) to a rank. -/
def _locate {α : Type} (i j : Nat) (s : sorted_list α) : Nat × sorted_list α :=
  if i = 0 then (j, s)
  else
    let s := if s._index.length = 0 then _build_index s else s
    (locate_loop s._index (i + s._off) (i + s._off) 0 + j, s)

/-- The loop of `_place`: descend from the root while the left child `child` of `pos`
is inside the array.  The first argument bounds the number of iterations. -/
def place_loop (ix : List Nat) : Nat → Nat → Nat → Nat → Nat × Nat
  | 0, pos, _, i => (pos, i)
  | fuel + 1, pos, child, i =>
    if child < ix.length then
      if i < ix.getD child 0 then
        place_loop ix fuel child (child * 2 + 1) i
      else
        place_loop ix fuel (child + 1) ((child + 1) * 2 + 1) (i - ix.getD child 0)
    else (pos, i)

/-- The function `_place`: from a rank to a pair (bucket, offset).  The guard is `i > _len`
as in the source.  On an empty `_list` the read of `_list[0].size()` has no bucket to look
at, which is reported as `out_of_bounds_read`. -/
def _place {α : Type} (i : Nat) (s : sorted_list α) :
    Except err (Nat × Nat) × sorted_list α :=
  if i > s._len then (.error .index_out_of_range, s)
  else
    match s._list.head? with
    | none => (.error .out_of_bounds_read, s)
    | some b0 =>
      if i < b0.length then (.ok (0, i), s)
      else
        let s := if s._index.length = 0 then _build_index s else s
        let r := place_loop s._index s._index.length 0 1 i
        (.ok (len_sub r.1 s._off, r.2), s)

/-- The constructor `sorted_list()`, with the load factor as a parameter. -/
def with_load (α : Type) (load : Nat) : sorted_list α :=
  { _len := 0, _load := load, _list := [], _max := [], _index := [], _off := 0 }

/-- The constructor `sorted_list()` as written: `_load` is `LOAD_FACTOR`. -/
def new (α : Type) : sorted_list α := with_load α LOAD_FACTOR

/-- The function `clear`. -/
def clear {α : Type} (s : sorted_list α) : sorted_list α :=
  { s with _len := 0, _list := [], _max := [], _index := [], _off := 0 }

/-- The function `add` (both overloads). -/
def add {α : Type} [LinearOrder α] (el : α) (s : sorted_list α) : sorted_list α :=
  if s._max.length = 0 then
    let lst := s._list ++ [[]]
    { s with _list := lst.set 0 (lst.getD 0 [] ++ [el]), _max := s._max ++ [el],
             _len := s._len + 1 }
  else
    let i := upper_bound s._max el
    if i = s._max.length then
      let i := i - 1
      let s := _expand i { s with _list := s._list.set i (s._list.getD i [] ++ [el]),
                                  _max := s._max.set i el }
      { s with _len := s._len + 1 }
    else
      let b := s._list.getD i []
      let s := _expand i { s with _list := s._list.set i (b.insertIdx (upper_bound b el) el) }
      { s with _len := s._len + 1 }

/-- The function `contains`.  The final `*it == el` is the comparison of the element at the
offset found with `el`; an offset past the end of the bucket compares as unequal. -/
def contains {α : Type} [LinearOrder α] (el : α) (s : sorted_list α) : Bool :=
  if s._max.length = 0 then false
  else
    let i := lower_bound s._max el
    if i = s._max.length then false
    else
      let b := s._list.getD i []
      decide (b.get? (lower_bound b el) = some el)

/-- The function `find`.  Every `throw` comes before the call of `_locate`, the only
place where the object is written. -/
def find {α : Type} [LinearOrder α] (el : α) (s : sorted_list α) :
    Except err Nat × sorted_list α :=
  if s._len = 0 then (.error .element_not_found, s)
  else
    let i := lower_bound s._max el
    if i = s._max.length then (.error .element_not_found, s)
    else
      let b := s._list.getD i []
      let j := lower_bound b el
      if b.get? j ≠ some el then (.error .element_not_found, s)
      else
        let r := _locate i j s
        (.ok r.1, r.2)

/-- The function `count`.  In `_locate(j, right) - _locate(i, left)` the left operand is
evaluated first; both calls leave the same index behind whatever the order. -/
def count {α : Type} [LinearOrder α] (el : α) (s : sorted_list α) : Nat × sorted_list α :=
  if s._max.length = 0 then (0, s)
  else
    let i := lower_bound s._max el
    if i = s._max.length then (0, s)
    else
      let left := lower_bound (s._list.getD i []) el
      let j := upper_bound s._max el
      if j = s._max.length then
        let r := _locate i left s
        (len_sub r.2._len r.1, r.2)
      else
        let right := upper_bound (s._list.getD j []) el
        if i = j then (len_sub right left, s)
        else
          let a := _locate j right s
          let b := _locate i left a.2
          (len_sub a.1 b.1, b.2)

/-- The function `pop`. -/
def pop {α : Type} (s : sorted_list α) : Except err α × sorted_list α :=
  if s._len = 0 then (.error .list_is_empty, s)
  else
    let i := len_sub s._list.length 1
    let j := len_sub (s._list.getD i []).length 1
    match (s._list.getD i []).get? j with
    | none => (.error .out_of_bounds_read, s)
    | some tmp => (.ok tmp, _delete i j s)

/-- The function `remove`. -/
def remove {α : Type} [LinearOrder α] (el : α) (s : sorted_list α) : Bool × sorted_list α :=
  if s._max.length = 0 then (false, s)
  else
    let i := lower_bound s._max el
    if i = s._max.length then (false, s)
    else
      let b := s._list.getD i []
      let j := lower_bound b el
      if b.get? j ≠ some el then (false, s)
      else (true, _delete i j s)

/-- The function `remove_at`.  It has no bounds check of its own on a non-empty
container: a rank outside bucket 0 is handed to `_place`. -/
def remove_at {α : Type} (i : Nat) (s : sorted_list α) : Except err α × sorted_list α :=
  if s._len = 0 then (.error .index_out_of_range, s)
  else if i < (s._list.getD 0 []).length then
    match (s._list.getD 0 []).get? i with
    | none => (.error .out_of_bounds_read, s)
    | some tmp => (.ok tmp, _delete 0 i s)
  else
    match _place i s with
    | (.error e, s) => (.error e, s)
    | (.ok (j, k), s) =>
      match (s._list.getD j []).get? k with
      | none => (.error .out_of_bounds_read, s)
      | some tmp => (.ok tmp, _delete j k s)

/-- The function `operator[]`. -/
def operator_at {α : Type} (i : Nat) (s : sorted_list α) : Except err α × sorted_list α :=
  match _place i s with
  | (.error e, s) => (.error e, s)
  | (.ok (j, k), s) =>
    match (s._list.getD j []).get? k with
    | none => (.error .out_of_bounds_read, s)
    | some tmp => (.ok tmp, s)

/-- The function `get_view`: the buckets joined in order. -/
def get_view {α : Type} (s : sorted_list α) : List α := s._list.flatten

/-- The function `size`. -/
def size {α : Type} (s : sorted_list α) : Nat := s._len

/-- Calls `add` on each element of `xs` in order. -/
def add_all {α : Type} [LinearOrder α] (xs : List α) (s : sorted_list α) : sorted_list α :=
  xs.foldl (fun s x => add x s) s

/-! ## Specification vocabulary -/

/-- The last element of every bucket, in bucket order. -/
def maxes {α : Type} (l : List (List α)) : List α := l.filterMap List.getLast?

/-- The bucket sizes, in bucket order. -/
def sizes {α : Type} (l : List (List α)) : List Nat := l.map List.length

/-- The number of elements in the first `k` buckets. -/
def psum (sz : List Nat) (k : Nat) : Nat := (sz.take k).sum

/-- Invariants 1 and 2 of the data model, with the side conditions they rest on:
a positive load factor and no empty bucket. -/
structure BucketsOK {α : Type} [LinearOrder α] (s : sorted_list α) : Prop where
  load_pos : 0 < s._load
  nonempty : ∀ b ∈ s._list, b ≠ []
  sorted : s._list.flatten.Pairwise (· ≤ ·)
  max_eq : s._max = maxes s._list

/-- The list `new` is `old` with `el` put after every element that is not greater. -/
def InsertedAt {α : Type} [LinearOrder α] (el : α) (old new : List α) : Prop :=
  ∃ P Q, old = P ++ Q ∧ new = P ++ el :: Q ∧ (∀ x ∈ P, x ≤ el) ∧ (∀ x ∈ Q, el < x)

/-- The state `add` hands to `_expand` when the container is not empty. -/
def add_pre {α : Type} (s : sorted_list α) (L R : List (List α)) (b' : List α) :
    sorted_list α :=
  { s with _list := L ++ b' :: R, _max := maxes (L ++ b' :: R) }

/-- Bits above `h` are clear and the `w` bits from `h` downwards are set. -/
def Smeared (h w y : Nat) : Prop :=
  (∀ i, h < i → y.testBit i = false) ∧ (∀ i, i ≤ h → h < i + w → y.testBit i = true)

/-- The count a node should hold: a leaf holds the size of its bucket, an internal node
the sum of its two children (a child outside the array counts as 0). -/
def expected (sz ix : List Nat) (off t : Nat) : Nat :=
  if t < off then ix.getD (t * 2 + 1) 0 + ix.getD (t * 2 + 2) 0 else sz.getD (t - off) 0

/-- The index array `ix` with leaf offset `off` reflects the bucket sizes `sz`. -/
def TreeOK (sz ix : List Nat) (off : Nat) : Prop :=
  ix.length = off + sz.length ∧ ∀ t, t < ix.length → ix.getD t 0 = expected sz ix off t

/-- The state of the leaf-to-root walk: every node but `c` holds its expected count with
respect to the new sizes, and `c` will after `f` is applied to it. -/
def Pending (f : Nat → Nat) (P : Nat → Prop) (sz ix : List Nat) (off c : Nat) : Prop :=
  ix.length = off + sz.length ∧ c < ix.length ∧ c ≤ off * 2 ∧ P (ix.getD c 0) ∧
  f (ix.getD c 0) = expected sz ix off c ∧
  ∀ t, t < ix.length → t ≠ c → ix.getD t 0 = expected sz ix off t

/-- Invariant 4 of the data model: the index is absent, or it belongs to at least two
buckets, its leaf offset is the one `_build_index` computes and, as long as the bucket
count fits the 64-bit arithmetic of `_bit_trick`, it reflects the bucket sizes. -/
def IndexOK {α : Type} (s : sorted_list α) : Prop :=
  s._index ≠ [] → 2 ≤ s._list.length ∧ s._off = _bit_trick s._list.length ∧
    (s._list.length ≤ 2 ^ 63 → TreeOK (sizes s._list) s._index s._off)

/-- The invariants of the data model that hold after every public operation. -/
structure Inv {α : Type} [LinearOrder α] (s : sorted_list α) : Prop where
  buckets : BucketsOK s
  len_eq : s._len = s._list.flatten.length
  index : IndexOK s

/-- Invariant 3 of the data model, lower half: as soon as there are two buckets, every
bucket holds more than `_load / 2` elements. -/
def Balanced {α : Type} (s : sorted_list α) : Prop :=
  2 ≤ s._list.length → ∀ b ∈ s._list, s._load / 2 < b.length

/-- The invariants of a container built with load factor `load`, together with the bound
a 64-bit `len_t` puts on the total length. -/
structure Sound {α : Type} [LinearOrder α] (load : Nat) (s : sorted_list α) : Prop where
  inv : Inv s
  balanced : Balanced s
  load_eq : s._load = load
  cap : s._len < 2 ^ 64

/-- The states a container built with load factor `load` can be in after any sequence of
public operations that stay inside their contract: `operator[]` and `remove_at` are called
with a rank below `size()`, and `add` is called while the new total length still fits the
64-bit counter `_len`. -/
inductive Reachable {α : Type} [LinearOrder α] (load : Nat) : sorted_list α → Prop
  | init : Reachable load (with_load α load)
  | add (el : α) {s : sorted_list α} :
      Reachable load s → size s + 1 < 2 ^ 64 → Reachable load (add el s)
  | remove (el : α) {s : sorted_list α} : Reachable load s → Reachable load (remove el s).2
  | remove_at (i : Nat) {s : sorted_list α} :
      Reachable load s → i < size s → Reachable load (remove_at i s).2
  | pop {s : sorted_list α} : Reachable load s → Reachable load (pop s).2
  | clear {s : sorted_list α} : Reachable load s → Reachable load (clear s)
  | find (el : α) {s : sorted_list α} : Reachable load s → Reachable load (find el s).2
  | count (el : α) {s : sorted_list α} : Reachable load s → Reachable load (count el s).2
  | operator_at (i : Nat) {s : sorted_list α} :
      Reachable load s → i < size s → Reachable load (operator_at i s).2

/-- A container with load factor 2 after adding 4, 9, 2, 7, 7, 1, 8, 3, 7, 5, 6, 10:
several buckets, with the run of 7s spread over more than one of them. -/
def scenario_split : sorted_list Nat :=
  add_all [4, 9, 2, 7, 7, 1, 8, 3, 7, 5, 6, 10] (with_load Nat 2)

/-- A container with load factor 2 that holds eight 7s after 1, 2, 3: the run of equal
values spans several buckets and reaches the end of the last one. -/
def scenario_run : sorted_list Nat :=
  add_all [7, 7, 1, 7, 7, 2, 7, 7, 7, 3, 7] (with_load Nat 2)

/-- The object with its index dropped and built again by `_build_index`. -/
def rebuild {α : Type} (s : sorted_list α) : sorted_list α :=
  _build_index { s with _index := [] }

/-- The index is absent, or it is the array a full rebuild would produce from the current
buckets, with the same leaf offset. -/
def Consistent {α : Type} (s : sorted_list α) : Prop :=
  s._index = [] ∨ (s._index = (rebuild s)._index ∧ s._off = (rebuild s)._off)

/-- A well-formed state as far as `_locate` and `_place` are concerned: no empty bucket,
`_len` is the total number of elements and the index is absent or consistent. -/
structure WellFormed {α : Type} (s : sorted_list α) : Prop where
  nonempty : ∀ b ∈ s._list, b ≠ []
  len_eq : s._len = s._list.flatten.length
  index : Consistent s

/-- Invariant 3 of the data model, upper half: no bucket holds more than `2 * _load`
elements. -/
def Bounded {α : Type} (s : sorted_list α) : Prop :=
  ∀ b ∈ s._list, b.length ≤ s._load * 2

/-- A call of a public member function. -/
inductive op (α : Type) where
  | add (el : α)
  | remove (el : α)
  | remove_at (i : Nat)
  | pop
  | clear
  | find (el : α)
  | count (el : α)
  | contains (el : α)
  | operator_at (i : Nat)
  | get_view
  | size
deriving DecidableEq

/-- The object after the call. -/
def op.apply {α : Type} [LinearOrder α] : op α → sorted_list α → sorted_list α
  | .add el, s => sortc.add el s
  | .remove el, s => (sortc.remove el s).2
  | .remove_at i, s => (sortc.remove_at i s).2
  | .pop, s => (sortc.pop s).2
  | .clear, s => sortc.clear s
  | .find el, s => (sortc.find el s).2
  | .count el, s => (sortc.count el s).2
  | .contains _, s => s
  | .operator_at i, s => (sortc.operator_at i s).2
  | .get_view, s => s
  | .size, s => s

/-- The call stays inside the defined behaviour of the code: `add` is called while the new
total length fits the 64-bit `_len`, and a rank handed to `remove_at` or `operator[]` is
either below `size()` or above it (where the call throws); the rank `size()` itself is
excluded, except for `remove_at` on an empty container, which throws.  At the rank
`size()` of a non-empty container the guard `i > _len` of `_place` does not throw and both
functions read past the end of a bucket. -/
def op.in_contract {α : Type} : op α → sorted_list α → Prop
  | .add _, s => sortc.size s + 1 < 2 ^ 64
  | .remove_at i, s => sortc.size s = 0 ∨ i ≠ sortc.size s
  | .operator_at i, s => i ≠ sortc.size s
  | _, _ => True

/-- Every call of the sequence is made inside its contract. -/
def InContract {α : Type} [LinearOrder α] : List (op α) → sorted_list α → Prop
  | [], _ => True
  | o :: os, s => o.in_contract s ∧ InContract os (o.apply s)

/-- A container with load factor 2 after adding 1, 2, 3, 4, 5. -/
def scenario_five : sorted_list Nat := add_all [1, 2, 3, 4, 5] (with_load Nat 2)

/-- The contract of a call can be checked. -/
instance op.in_contract_decidable {α : Type} :
    (o : op α) → (s : sorted_list α) → Decidable (o.in_contract s)
  | .add _, s => inferInstanceAs (Decidable (sortc.size s + 1 < 2 ^ 64))
  | .remove _, _ => inferInstanceAs (Decidable True)
  | .remove_at i, s => inferInstanceAs (Decidable (sortc.size s = 0 ∨ i ≠ sortc.size s))
  | .pop, _ => inferInstanceAs (Decidable True)
  | .clear, _ => inferInstanceAs (Decidable True)
  | .find _, _ => inferInstanceAs (Decidable True)
  | .count _, _ => inferInstanceAs (Decidable True)
  | .contains _, _ => inferInstanceAs (Decidable True)
  | .operator_at i, s => inferInstanceAs (Decidable (i ≠ sortc.size s))
  | .get_view, _ => inferInstanceAs (Decidable True)
  | .size, _ => inferInstanceAs (Decidable True)

/-- The contract of a sequence of calls can be checked. -/
instance InContract.decidable {α : Type} [LinearOrder α] :
    (ops : List (op α)) → (s : sorted_list α) → Decidable (InContract ops s)
  | [], _ => inferInstanceAs (Decidable True)
  | o :: os, s =>
    @instDecidableAnd _ _ (op.in_contract_decidable o s) (InContract.decidable os (o.apply s))

end sortc


namespace sortc

/-! ## Lists: access at a split point -/

section lists
variable {β : Type}

theorem getD_split (L : List β) (b : β) (R : List β) (d : β) :
    (L ++ b :: R).getD L.length d = b := by
  rw [List.getD_eq_getElem?_getD, List.getElem?_append_right (le_refl _)]
  simp

theorem set_split (L : List β) (b c : β) (R : List β) :
    (L ++ b :: R).set L.length c = L ++ c :: R := by
  simp [List.set_append]

theorem eraseIdx_split (L : List β) (b : β) (R : List β) :
    (L ++ b :: R).eraseIdx L.length = L ++ R := by
  rw [List.eraseIdx_append_of_length_le (le_refl _)]
  simp

theorem insertIdx_split (L : List β) (c : β) (R : List β) :
    (L ++ R).insertIdx L.length c = L ++ c :: R := by
  induction L with
  | nil => simp [List.insertIdx]
  | cons x L ih => simp [List.insertIdx_succ_cons, ih]

theorem split_at (l : List β) (i : Nat) (h : i < l.length) :
    ∃ L b R, l = L ++ b :: R ∧ L.length = i := by
  refine ⟨l.take i, l[i], l.drop (i + 1), ?_, ?_⟩
  · rw [List.getElem_cons_drop, List.take_append_drop]
  · simp [List.length_take]; omega

end lists

/-! ## The contract of the two binary searches -/

section bounds
variable {α : Type} [LinearOrder α]

theorem upper_bound_le (xs : List α) (el : α) : upper_bound xs el ≤ xs.length := by
  induction xs with
  | nil => simp [upper_bound]
  | cons x xs ih =>
    simp only [upper_bound]
    split
    · simp
    · simp only [List.length_cons]; omega

theorem lower_bound_le (xs : List α) (el : α) : lower_bound xs el ≤ xs.length := by
  induction xs with
  | nil => simp [lower_bound]
  | cons x xs ih =>
    simp only [lower_bound]
    split
    · simp only [List.length_cons]; omega
    · simp

theorem upper_bound_take (xs : List α) (el : α) :
    ∀ x ∈ xs.take (upper_bound xs el), x ≤ el := by
  induction xs with
  | nil => simp
  | cons y ys ih =>
    simp only [upper_bound]
    split
    · simp
    · rename_i h
      intro x hx
      simp only [List.take_succ_cons, List.mem_cons] at hx
      rcases hx with rfl | hx
      · exact not_lt.mp h
      · exact ih x hx

theorem upper_bound_drop (xs : List α) (el : α) (hs : xs.Pairwise (· ≤ ·)) :
    ∀ x ∈ xs.drop (upper_bound xs el), el < x := by
  induction xs with
  | nil => simp
  | cons y ys ih =>
    simp only [upper_bound]
    rw [List.pairwise_cons] at hs
    split
    · rename_i h
      intro x hx
      simp only [List.drop_zero, List.mem_cons] at hx
      rcases hx with rfl | hx
      · exact h
      · exact lt_of_lt_of_le h (hs.1 x hx)
    · intro x hx
      simp only [List.drop_succ_cons] at hx
      exact ih hs.2 x hx

theorem lower_bound_take (xs : List α) (el : α) :
    ∀ x ∈ xs.take (lower_bound xs el), x < el := by
  induction xs with
  | nil => simp
  | cons y ys ih =>
    simp only [lower_bound]
    split
    · rename_i h
      intro x hx
      simp only [List.take_succ_cons, List.mem_cons] at hx
      rcases hx with rfl | hx
      · exact h
      · exact ih x hx
    · simp

theorem lower_bound_drop (xs : List α) (el : α) (hs : xs.Pairwise (· ≤ ·)) :
    ∀ x ∈ xs.drop (lower_bound xs el), el ≤ x := by
  induction xs with
  | nil => simp
  | cons y ys ih =>
    simp only [lower_bound]
    rw [List.pairwise_cons] at hs
    split
    · intro x hx
      simp only [List.drop_succ_cons] at hx
      exact ih hs.2 x hx
    · rename_i h
      intro x hx
      simp only [List.drop_zero, List.mem_cons] at hx
      rcases hx with rfl | hx
      · exact not_lt.mp h
      · exact le_trans (not_lt.mp h) (hs.1 x hx)

/-- A position is the upper bound as soon as it separates `≤ el` from `> el`. -/
theorem upper_bound_eq (P Q : List α) (el : α) (hP : ∀ x ∈ P, x ≤ el) (hQ : ∀ x ∈ Q, el < x) :
    upper_bound (P ++ Q) el = P.length := by
  induction P with
  | nil =>
    cases Q with
    | nil => simp [upper_bound]
    | cons q Q => simp [upper_bound, hQ q (by simp)]
  | cons p P ih =>
    have h1 : ¬ el < p := not_lt.mpr (hP p (by simp))
    have h2 := ih (fun x hx => hP x (by simp [hx]))
    rw [List.cons_append]
    simp only [upper_bound, h1, if_false, List.length_cons, h2]

/-- A position is the lower bound as soon as it separates `< el` from `≥ el`. -/
theorem lower_bound_eq (P Q : List α) (el : α) (hP : ∀ x ∈ P, x < el) (hQ : ∀ x ∈ Q, el ≤ x) :
    lower_bound (P ++ Q) el = P.length := by
  induction P with
  | nil =>
    cases Q with
    | nil => simp [lower_bound]
    | cons q Q => simp [lower_bound, not_lt.mpr (hQ q (by simp))]
  | cons p P ih =>
    have h2 := ih (fun x hx => hP x (by simp [hx]))
    rw [List.cons_append]
    simp only [lower_bound, hP p (by simp), if_true, List.length_cons, h2]

end bounds

end sortc


namespace sortc

/-! ## The bucket store: invariants 1 and 2 of the data model -/

section buckets
variable {α : Type}



theorem maxes_nil : maxes ([] : List (List α)) = [] := rfl

theorem maxes_append (l r : List (List α)) : maxes (l ++ r) = maxes l ++ maxes r := by
  simp [maxes, List.filterMap_append]

theorem maxes_cons (b : List α) (m : α) (r : List (List α)) (h : b.getLast? = some m) :
    maxes (b :: r) = m :: maxes r := by
  simp [maxes, List.filterMap_cons, h]

theorem maxes_length (l : List (List α)) (h : ∀ b ∈ l, b ≠ []) :
    (maxes l).length = l.length := by
  induction l with
  | nil => rfl
  | cons b l ih =>
    have hb : b ≠ [] := h b (by simp)
    obtain ⟨m, hm⟩ := Option.isSome_iff_exists.mp (List.getLast?_isSome.mpr hb)
    rw [maxes_cons b m l hm]
    simp [ih (fun c hc => h c (by simp [hc]))]

theorem maxes_sublist (l : List (List α)) : (maxes l).Sublist l.flatten := by
  induction l with
  | nil => simp [maxes]
  | cons b l ih =>
    cases hb : b.getLast? with
    | none =>
      have : maxes (b :: l) = maxes l := by simp [maxes, List.filterMap_cons, hb]
      rw [this, List.flatten_cons]
      exact ih.trans (List.sublist_append_right _ _)
    | some m =>
      rw [maxes_cons b m l hb, List.flatten_cons]
      obtain ⟨ys, rfl⟩ := List.getLast?_eq_some_iff.mp hb
      have h1 : (m :: maxes l) = [m] ++ maxes l := rfl
      rw [h1]
      exact List.Sublist.append ((List.sublist_append_right ys [m])) ih

theorem last_some_of_ne_nil (b : List α) (h : b ≠ []) : ∃ m, b.getLast? = some m :=
  Option.isSome_iff_exists.mp (List.getLast?_isSome.mpr h)

variable [LinearOrder α]

theorem le_last (b : List α) (m : α) (hs : b.Pairwise (· ≤ ·)) (hm : b.getLast? = some m) :
    ∀ x ∈ b, x ≤ m := by
  obtain ⟨ys, rfl⟩ := List.getLast?_eq_some_iff.mp hm
  rw [List.pairwise_append] at hs
  intro x hx
  rcases List.mem_append.mp hx with h | h
  · exact hs.2.2 x h m (by simp)
  · simp at h; exact le_of_eq h

theorem bucket_sorted (l : List (List α)) (hs : l.flatten.Pairwise (· ≤ ·)) :
    ∀ b ∈ l, b.Pairwise (· ≤ ·) := by
  intro b hb
  exact List.Pairwise.sublist (List.sublist_flatten_of_mem hb) hs

/-- Every element of the buckets is bounded by a bound on the maxima. -/
theorem flatten_le_of_maxes_le (l : List (List α)) (el : α)
    (hs : l.flatten.Pairwise (· ≤ ·)) (hm : ∀ m ∈ maxes l, m ≤ el) :
    ∀ x ∈ l.flatten, x ≤ el := by
  intro x hx
  obtain ⟨b, hb, hxb⟩ := List.mem_flatten.mp hx
  have hne : b ≠ [] := List.ne_nil_of_mem hxb
  obtain ⟨m, hbm⟩ := last_some_of_ne_nil b hne
  have h1 : x ≤ m := le_last b m (bucket_sorted l hs b hb) hbm x hxb
  have h2 : m ∈ maxes l := by
    simp only [maxes, List.mem_filterMap]
    exact ⟨b, hb, hbm⟩
  exact le_trans h1 (hm m h2)

/-- Every element of the buckets is strictly below a strict bound on the maxima. -/
theorem flatten_lt_of_maxes_lt (l : List (List α)) (el : α)
    (hs : l.flatten.Pairwise (· ≤ ·)) (hm : ∀ m ∈ maxes l, m < el) :
    ∀ x ∈ l.flatten, x < el := by
  intro x hx
  obtain ⟨b, hb, hxb⟩ := List.mem_flatten.mp hx
  have hne : b ≠ [] := List.ne_nil_of_mem hxb
  obtain ⟨m, hbm⟩ := last_some_of_ne_nil b hne
  have h1 : x ≤ m := le_last b m (bucket_sorted l hs b hb) hbm x hxb
  have h2 : m ∈ maxes l := by
    simp only [maxes, List.mem_filterMap]
    exact ⟨b, hb, hbm⟩
  exact lt_of_le_of_lt h1 (hm m h2)



end buckets

end sortc


namespace sortc

section expand
variable {α : Type}

theorem insertIdx_succ_split {β : Type} (L : List β) (b c : β) (R : List β) :
    (L ++ b :: R).insertIdx (L.length + 1) c = L ++ b :: c :: R := by
  have h := insertIdx_split (L ++ [b]) c R
  simpa using h

/-- What `_expand` does on a bucket store that satisfies the invariants: a split of the
bucket at `i` when it is longer than twice the load, an index update otherwise. -/
theorem expand_eq [LinearOrder α] (s : sorted_list α) (L R : List (List α)) (b : List α)
    (hl : s._list = L ++ b :: R) (hL : ∀ c ∈ L, c ≠ []) (hm : s._max = maxes s._list)
    (hb : b ≠ []) (hp : 0 < s._load) :
    _expand L.length s =
      if b.length > s._load * 2 then
        { s with _list := L ++ b.take s._load :: b.drop s._load :: R,
                 _max := maxes (L ++ b.take s._load :: b.drop s._load :: R),
                 _index := [] }
      else if s._index.length ≠ 0 then
        { s with _index := update_path (fun c => c + 1) (s._off + L.length) s._index }
      else s := by
  obtain ⟨len, load, list, mx, ix, off⟩ := s
  simp only at hl hm hp
  subst hl
  subst hm
  unfold _expand
  simp only [getD_split]
  by_cases hbig : b.length > load * 2
  · simp only [hbig, if_true]
    obtain ⟨last, hlast⟩ := last_some_of_ne_nil b hb
    have htake : b.take load ≠ [] := by
      intro h
      have h0 : (b.take load).length = 0 := by rw [h]; rfl
      rw [List.length_take] at h0
      omega
    obtain ⟨t, ht⟩ := last_some_of_ne_nil _ htake
    have hdrop : (b.drop load).getLast? = some last := by
      rw [List.getLast?_drop, if_neg (by omega), hlast]
    have hlen : (maxes L).length = L.length := maxes_length L hL
    simp only [hlast, insertIdx_succ_split, set_split]
    congr 1
    rw [maxes_append, maxes_cons b last R hlast, maxes_append, maxes_cons _ t _ ht,
      maxes_cons _ last _ hdrop]
    rw [← hlen, insertIdx_succ_split]
    simp only [set_back, ht, set_split]
  · simp only [hbig, if_false]

end expand

end sortc


namespace sortc

section add
variable {α : Type} [LinearOrder α]

theorem expand_buckets (s : sorted_list α) (L R : List (List α)) (b : List α)
    (hl : s._list = L ++ b :: R) (h : BucketsOK s) :
    BucketsOK (_expand L.length s) ∧ (_expand L.length s)._list.flatten = s._list.flatten ∧
      (_expand L.length s)._len = s._len ∧ (_expand L.length s)._load = s._load := by
  have hL : ∀ c ∈ L, c ≠ [] := fun c hc => h.nonempty c (by rw [hl]; simp [hc])
  have hb : b ≠ [] := h.nonempty b (by rw [hl]; simp)
  rw [expand_eq s L R b hl hL h.max_eq hb h.load_pos]
  by_cases hbig : b.length > s._load * 2
  · rw [if_pos hbig]
    have hfl : (L ++ b.take s._load :: b.drop s._load :: R).flatten = s._list.flatten := by
      rw [hl]
      simp only [List.flatten_append, List.flatten_cons]
      rw [← List.append_assoc (b.take s._load), List.take_append_drop]
    refine ⟨⟨h.load_pos, ?_, ?_, rfl⟩, hfl, rfl, rfl⟩
    · intro c hc
      simp only [List.mem_append, List.mem_cons] at hc
      rcases hc with hc | rfl | rfl | hc
      · exact hL c hc
      · intro h0
        have h1 : (b.take s._load).length = 0 := by rw [h0]; rfl
        rw [List.length_take] at h1
        have := h.load_pos
        omega
      · intro h0
        have h1 : (b.drop s._load).length = 0 := by rw [h0]; rfl
        rw [List.length_drop] at h1
        omega
      · exact h.nonempty c (by rw [hl]; simp [hc])
    · show (L ++ b.take s._load :: b.drop s._load :: R).flatten.Pairwise (· ≤ ·)
      rw [hfl]; exact h.sorted
  · rw [if_neg hbig]
    split
    · exact ⟨⟨h.load_pos, h.nonempty, h.sorted, h.max_eq⟩, rfl, rfl, rfl⟩
    · exact ⟨h, rfl, rfl, rfl⟩



/-- A split, or no change of the buckets at all, keeps the buckets balanced. -/
theorem expand_balanced (s : sorted_list α) (L R : List (List α)) (b : List α)
    (hl : s._list = L ++ b :: R) (h : BucketsOK s) (hbal : Balanced s) :
    Balanced (_expand L.length s) := by
  have hL : ∀ c ∈ L, c ≠ [] := fun c hc => h.nonempty c (by rw [hl]; simp [hc])
  have hb : b ≠ [] := h.nonempty b (by rw [hl]; simp)
  have hp := h.load_pos
  rw [expand_eq s L R b hl hL h.max_eq hb h.load_pos]
  by_cases hbig : b.length > s._load * 2
  · rw [if_pos hbig]
    intro _ c hc
    show s._load / 2 < c.length
    have hc' : c ∈ L ++ b.take s._load :: b.drop s._load :: R := hc
    simp only [List.mem_append, List.mem_cons] at hc'
    have hrest : ∀ d, d ∈ L ∨ d ∈ R → s._load / 2 < d.length := by
      intro d hd
      have h2 : 2 ≤ s._list.length := by
        rw [hl]
        rcases hd with hd | hd
        · have := List.length_pos_of_mem hd
          simp only [List.length_append, List.length_cons]
          omega
        · have := List.length_pos_of_mem hd
          simp only [List.length_append, List.length_cons]
          omega
      exact hbal h2 d (by rw [hl]; rcases hd with hd | hd <;> simp [hd])
    rcases hc' with hc' | rfl | rfl | hc'
    · exact hrest c (Or.inl hc')
    · rw [List.length_take]; omega
    · rw [List.length_drop]; omega
    · exact hrest c (Or.inr hc')
  · rw [if_neg hbig]
    split
    · exact hbal
    · exact hbal

theorem InsertedAt.perm {el : α} {old new : List α} (h : InsertedAt el old new) :
    new.Perm (el :: old) := by
  obtain ⟨P, Q, rfl, rfl, -, -⟩ := h
  exact List.perm_middle

theorem InsertedAt.sorted {el : α} {old new : List α} (h : InsertedAt el old new)
    (hs : old.Pairwise (· ≤ ·)) : new.Pairwise (· ≤ ·) := by
  obtain ⟨P, Q, rfl, rfl, hP, hQ⟩ := h
  rw [List.pairwise_append] at hs ⊢
  refine ⟨hs.1, ?_, ?_⟩
  · rw [List.pairwise_cons]
    exact ⟨fun x hx => le_of_lt (hQ x hx), hs.2.1⟩
  · intro a ha c hc
    rcases List.mem_cons.mp hc with rfl | hc
    · exact hP a ha
    · exact hs.2.2 a ha c hc

theorem InsertedAt.length {el : α} {old new : List α} (h : InsertedAt el old new) :
    new.length = old.length + 1 := by
  obtain ⟨P, Q, rfl, rfl, -, -⟩ := h
  simp; omega

end add

end sortc


namespace sortc

section add
variable {α : Type} [LinearOrder α]

theorem maxes_sorted (l : List (List α)) (hs : l.flatten.Pairwise (· ≤ ·)) :
    (maxes l).Pairwise (· ≤ ·) :=
  List.Pairwise.sublist (maxes_sublist l) hs

omit [LinearOrder α] in
theorem list_nil_of_maxes_nil (l : List (List α)) (h : ∀ b ∈ l, b ≠ [])
    (hm : (maxes l).length = 0) : l = [] := by
  rw [maxes_length l h] at hm
  exact List.length_eq_zero.mp hm



/-- What `add` does on a bucket store that satisfies the invariants. -/
theorem add_cases (s : sorted_list α) (h : BucketsOK s) (el : α) :
    (s._list = [] ∧
      add el s = { s with _list := [[el]], _max := [el], _len := s._len + 1 }) ∨
    (∃ L b R b', s._list = L ++ b :: R ∧ InsertedAt el b b' ∧
      BucketsOK (add_pre s L R b') ∧
      InsertedAt el s._list.flatten (add_pre s L R b')._list.flatten ∧
      add el s = { _expand L.length (add_pre s L R b') with
                   _len := (_expand L.length (add_pre s L R b'))._len + 1 }) := by
  obtain ⟨hp, hne, hs, hm⟩ := h
  obtain ⟨len, load, list, mx, ix, off⟩ := s
  simp only at hp hne hs hm
  subst hm
  by_cases h0 : (maxes list).length = 0
  · left
    have hl := list_nil_of_maxes_nil list hne h0
    subst hl
    refine ⟨rfl, ?_⟩
    simp [add, maxes]
  · right
    have hmlen := maxes_length list hne
    have hmsort := maxes_sorted list hs
    by_cases hi : upper_bound (maxes list) el = (maxes list).length
    · -- the new maximum: append to the last bucket
      have hpos : list.length - 1 < list.length := by omega
      obtain ⟨L, b, R, hl, hLlen⟩ := split_at list (list.length - 1) hpos
      have hR : R = [] := by
        have := congrArg List.length hl
        simp at this
        exact List.length_eq_zero.mp (by omega)
      subst hR
      subst hl
      have hall : ∀ m ∈ maxes (L ++ [b]), m ≤ el := by
        have := upper_bound_take (maxes (L ++ [b])) el
        rw [hi, List.take_length] at this
        exact this
      have hflat : ∀ x ∈ (L ++ [b]).flatten, x ≤ el :=
        flatten_le_of_maxes_le _ el hs hall
      have hb_le : ∀ x ∈ b, x ≤ el := fun x hx => hflat x (by simp [hx])
      have hins : InsertedAt el b (b ++ [el]) :=
        ⟨b, [], by simp, rfl, hb_le, by simp⟩
      have hinsf : InsertedAt el (L ++ [b]).flatten (L ++ [b ++ [el]]).flatten :=
        ⟨(L ++ [b]).flatten, [], by simp, by simp, hflat, by simp⟩
      have hLne : ∀ c ∈ L, c ≠ [] := fun c hc => hne c (by simp [hc])
      refine ⟨L, b, [], b ++ [el], rfl, hins, ⟨hp, ?_, hinsf.sorted hs, rfl⟩, hinsf, ?_⟩
      · intro c hc
        simp only [add_pre, List.mem_append, List.mem_singleton] at hc
        rcases hc with hc | rfl
        · exact hLne c hc
        · simp
      · have hmx : (maxes (L ++ [b])).set (maxes (L ++ [b])).length.pred el
            = maxes (L ++ [b ++ [el]]) := by
          obtain ⟨m, hbm⟩ := last_some_of_ne_nil b (hne b (by simp))
          rw [maxes_append, maxes_append, maxes_cons b m [] hbm,
            maxes_cons (b ++ [el]) el [] (by simp)]
          simp only [maxes_nil, List.length_append, List.length_singleton, Nat.pred_eq_sub_one,
            Nat.add_sub_cancel]
          exact set_split (maxes L) m el []
        have hidx : (maxes (L ++ [b])).length - 1 = L.length := by
          rw [hmlen]; simp
        simp only [add, h0, if_false, hi, if_true, hidx, getD_split, set_split, add_pre]
        simp only [Nat.pred_eq_sub_one, hidx] at hmx
        rw [hmx]
    · -- insertion inside the bucket found by the search over the maxima
      have hlt : upper_bound (maxes list) el < list.length := by
        have := upper_bound_le (maxes list) el
        omega
      obtain ⟨L, b, R, hl, hLlen⟩ := split_at list _ hlt
      subst hl
      have hLne : ∀ c ∈ L, c ≠ [] := fun c hc => hne c (by simp [hc])
      have hbne : b ≠ [] := hne b (by simp)
      obtain ⟨m, hbm⟩ := last_some_of_ne_nil b hbne
      have hmL : (maxes L).length = L.length := maxes_length L hLne
      have hmx : maxes (L ++ b :: R) = maxes L ++ m :: maxes R := by
        rw [maxes_append, maxes_cons b m R hbm]
      have htake : (maxes (L ++ b :: R)).take (upper_bound (maxes (L ++ b :: R)) el)
          = maxes L := by
        rw [← hLlen, hmx, ← hmL, List.take_left]
      have hdrop : (maxes (L ++ b :: R)).drop (upper_bound (maxes (L ++ b :: R)) el)
          = m :: maxes R := by
        rw [← hLlen, hmx, ← hmL, List.drop_left]
      have hLle : ∀ x ∈ maxes L, x ≤ el := by
        have := upper_bound_take (maxes (L ++ b :: R)) el
        rwa [htake] at this
      have hmgt : el < m := by
        have := upper_bound_drop (maxes (L ++ b :: R)) el hmsort
        rw [hdrop] at this
        exact this m (by simp)
      have hs' := hs
      simp only [List.flatten_append, List.flatten_cons] at hs'
      rw [List.pairwise_append] at hs'
      obtain ⟨hsL, hsbR, hLbR⟩ := hs'
      rw [List.pairwise_append] at hsbR
      obtain ⟨hsb, hsR, hbR⟩ := hsbR
      have hmb : m ∈ b := by
        obtain ⟨ys, rfl⟩ := List.getLast?_eq_some_iff.mp hbm
        simp
      -- the split of the bucket
      have hP := upper_bound_take b el
      have hQ := upper_bound_drop b el hsb
      have hjle := upper_bound_le b el
      have hPlen : (b.take (upper_bound b el)).length = upper_bound b el := by
        rw [List.length_take]; omega
      have hb' : b.insertIdx (upper_bound b el) el
          = b.take (upper_bound b el) ++ el :: b.drop (upper_bound b el) := by
        have := insertIdx_split (b.take (upper_bound b el)) el (b.drop (upper_bound b el))
        rw [List.take_append_drop, hPlen] at this
        exact this
      have hQne : b.drop (upper_bound b el) ≠ [] := by
        intro hnil
        have hmP : m ∈ b.take (upper_bound b el) := by
          have : m ∈ b.take (upper_bound b el) ++ b.drop (upper_bound b el) := by
            rw [List.take_append_drop]; exact hmb
          rw [hnil, List.append_nil] at this
          exact this
        exact absurd (hP m hmP) (not_le.mpr hmgt)
      have hlast' : (b.take (upper_bound b el) ++ el :: b.drop (upper_bound b el)).getLast?
          = some m := by
        have h1 : (b.drop (upper_bound b el)).getLast? = some m := by
          rw [List.getLast?_drop, hbm]
          have : ¬ b.length ≤ upper_bound b el := by
            intro hle
            exact hQne (List.drop_eq_nil_of_le hle)
          rw [if_neg this]
        obtain ⟨ys, hys⟩ := List.getLast?_eq_some_iff.mp h1
        rw [hys]
        rw [List.getLast?_eq_some_iff]
        exact ⟨b.take (upper_bound b el) ++ el :: ys, by simp⟩
      have hins : InsertedAt el b
          (b.take (upper_bound b el) ++ el :: b.drop (upper_bound b el)) :=
        ⟨_, _, (List.take_append_drop _ b).symm, rfl, hP, hQ⟩
      have hLflat : ∀ x ∈ L.flatten, x ≤ el := flatten_le_of_maxes_le L el hsL hLle
      have hRflat : ∀ x ∈ R.flatten, el < x :=
        fun x hx => lt_of_lt_of_le hmgt (hbR m hmb x hx)
      have hinsf : InsertedAt el (L ++ b :: R).flatten
          (L ++ (b.take (upper_bound b el) ++ el :: b.drop (upper_bound b el)) :: R).flatten := by
        refine ⟨L.flatten ++ b.take (upper_bound b el),
          b.drop (upper_bound b el) ++ R.flatten, ?_, ?_, ?_, ?_⟩
        · simp only [List.flatten_append, List.flatten_cons, List.append_assoc]
          rw [← List.append_assoc (b.take _), List.take_append_drop]
        · simp [List.flatten_append, List.flatten_cons, List.append_assoc]
        · intro x hx
          rcases List.mem_append.mp hx with hx | hx
          · exact hLflat x hx
          · exact hP x hx
        · intro x hx
          rcases List.mem_append.mp hx with hx | hx
          · exact hQ x hx
          · exact hRflat x hx
      refine ⟨L, b, R, _, rfl, hins, ⟨hp, ?_, hinsf.sorted hs, rfl⟩, hinsf, ?_⟩
      · intro c hc
        simp only [add_pre, List.mem_append, List.mem_cons] at hc
        rcases hc with hc | rfl | hc
        · exact hLne c hc
        · simp
        · exact hne c (by simp [hc])
      · have hmeq : maxes (L ++ (b.take (upper_bound b el) ++ el :: b.drop (upper_bound b el)) :: R)
            = maxes (L ++ b :: R) := by
          rw [maxes_append, maxes_cons _ m R hlast', hmx]
        have hi' : ¬ L.length = (maxes (L ++ b :: R)).length := by rw [hLlen]; exact hi
        simp only [add, h0, if_false, ← hLlen, hi', getD_split, set_split, add_pre, hb', hmeq]

end add

end sortc


namespace sortc

section add
variable {α : Type} [LinearOrder α]

theorem add_view (s : sorted_list α) (h : BucketsOK s) (el : α) :
    InsertedAt el (get_view s) (get_view (add el s)) := by
  rcases add_cases s h el with ⟨hnil, heq⟩ | ⟨L, b, R, b', hl, -, hpre, hins, heq⟩
  · rw [heq]
    simp only [get_view, hnil]
    exact ⟨[], [], rfl, by simp, by simp, by simp⟩
  · have hx := expand_buckets (add_pre s L R b') L R b' rfl hpre
    rw [heq]
    simp only [get_view]
    rw [hx.2.1]
    exact hins

theorem add_buckets (s : sorted_list α) (h : BucketsOK s) (el : α) : BucketsOK (add el s) := by
  rcases add_cases s h el with ⟨hnil, heq⟩ | ⟨L, b, R, b', hl, -, hpre, hins, heq⟩
  · rw [heq]
    exact ⟨h.load_pos, by simp, by simp, by simp [maxes]⟩
  · have hx := expand_buckets (add_pre s L R b') L R b' rfl hpre
    rw [heq]
    exact ⟨hx.1.load_pos, hx.1.nonempty, hx.1.sorted, hx.1.max_eq⟩

theorem add_len (s : sorted_list α) (h : BucketsOK s) (el : α) :
    (add el s)._len = s._len + 1 := by
  rcases add_cases s h el with ⟨hnil, heq⟩ | ⟨L, b, R, b', hl, -, hpre, hins, heq⟩
  · rw [heq]
  · have hx := expand_buckets (add_pre s L R b') L R b' rfl hpre
    rw [heq]
    show (_expand L.length (add_pre s L R b'))._len + 1 = s._len + 1
    rw [hx.2.2.1]
    rfl

theorem add_load (s : sorted_list α) (h : BucketsOK s) (el : α) :
    (add el s)._load = s._load := by
  rcases add_cases s h el with ⟨hnil, heq⟩ | ⟨L, b, R, b', hl, -, hpre, hins, heq⟩
  · rw [heq]
  · have hx := expand_buckets (add_pre s L R b') L R b' rfl hpre
    rw [heq]
    show (_expand L.length (add_pre s L R b'))._load = s._load
    rw [hx.2.2.2]
    rfl

theorem with_load_buckets (load : Nat) (h : 0 < load) : BucketsOK (with_load α load) :=
  ⟨h, by simp [with_load], by simp [with_load], by simp [with_load, maxes]⟩

theorem add_all_buckets (xs : List α) (s : sorted_list α) (h : BucketsOK s) :
    BucketsOK (add_all xs s) ∧ (get_view (add_all xs s)).Perm (xs ++ get_view s) := by
  induction xs generalizing s with
  | nil => exact ⟨h, by simp [add_all]⟩
  | cons x xs ih =>
    have h1 := add_buckets s h x
    have h2 := (add_view s h x).perm
    obtain ⟨h3, h4⟩ := ih (add x s) h1
    refine ⟨h3, ?_⟩
    show (get_view (add_all xs (add x s))).Perm (x :: xs ++ get_view s)
    refine h4.trans ?_
    refine (List.Perm.append_left xs h2).trans ?_
    simp only [List.cons_append]
    exact List.perm_middle

end add

/-- C1: adding the elements of any finite sequence `xs` one by one to the empty container
leaves a flattened view that is non-decreasing and a permutation of `xs`, hence equal to
`xs` sorted; adding 5, 3, 8, 1, 9, 3 gives [1, 3, 3, 5, 8, 9]. -/
theorem add_all_sorted_perm {α : Type} [LinearOrder α] (xs : List α) :
    List.Sorted (· ≤ ·) (get_view (add_all xs (new α))) ∧
    (get_view (add_all xs (new α))).Perm xs ∧
    get_view (add_all xs (new α)) = xs.insertionSort (· ≤ ·) ∧
    get_view (add_all [5, 3, 8, 1, 9, 3] (new Nat)) = [1, 3, 3, 5, 8, 9] := by
  have h0 : BucketsOK (new α) := with_load_buckets LOAD_FACTOR (by decide)
  obtain ⟨h1, h2⟩ := add_all_buckets xs (new α) h0
  have h3 : (get_view (add_all xs (new α))).Perm xs := by
    have : get_view (new α) = [] := rfl
    rw [this, List.append_nil] at h2
    exact h2
  have h4 : List.Sorted (· ≤ ·) (get_view (add_all xs (new α))) := h1.sorted
  refine ⟨h4, h3, ?_, by decide⟩
  exact List.eq_of_perm_of_sorted (h3.trans (List.perm_insertionSort _ xs).symm) h4
    (List.sorted_insertionSort _ xs)

end sortc


namespace sortc

/-! ## `_bit_trick`: the result is one less than a power of two -/

section bits



theorem smear_step (h w y : Nat) (hy : Smeared h w y) : Smeared h (w + w) (y ||| (y >>> w)) := by
  obtain ⟨h1, h2⟩ := hy
  constructor
  · intro i hi
    rw [Nat.testBit_or, Nat.testBit_shiftRight, h1 i hi, h1 (w + i) (by omega)]
    rfl
  · intro i hi hw
    rw [Nat.testBit_or, Nat.testBit_shiftRight]
    by_cases hc : h < i + w
    · rw [h2 i hi hc]; rfl
    · rw [h2 (w + i) (by omega) (by omega)]
      simp

theorem smeared_eq (h w y : Nat) (hy : Smeared h w y) (hw : h < w) : y = 2 ^ (h + 1) - 1 := by
  apply Nat.eq_of_testBit_eq
  intro i
  rw [Nat.testBit_two_pow_sub_one]
  by_cases hi : i ≤ h
  · rw [hy.2 i hi (by omega)]
    simp; omega
  · rw [hy.1 i (by omega)]
    simp; omega

/-- For a bucket count between 2 and `2^63`, `_bit_trick` returns `2^D - 1` with
`n ≤ 2^D < 2 * n`. -/
theorem bit_trick_pow (n : Nat) (h2 : 2 ≤ n) (hn : n ≤ 2 ^ 63) :
    ∃ D, 1 ≤ D ∧ _bit_trick n + 1 = 2 ^ D ∧ n ≤ 2 ^ D ∧ 2 ^ D < 2 * n := by
  have hx : n - 1 ≠ 0 := by omega
  obtain ⟨h, hh, hhi⟩ := Nat.exists_most_significant_bit hx
  have hge : 2 ^ h ≤ n - 1 := Nat.testBit_implies_ge hh
  have hlt : h < 64 := by
    by_contra hc
    have : 2 ^ 64 ≤ 2 ^ h := Nat.pow_le_pow_right (by decide) (by omega)
    omega
  have s1 : Smeared h 1 (n - 1) := by
    constructor
    · exact hhi
    · intro i hi hw
      have : i = h := by omega
      rw [this]; exact hh
  have s2 := smear_step h 1 _ s1
  have s4 := smear_step h 2 _ s2
  have s8 := smear_step h 4 _ s4
  have s16 := smear_step h 8 _ s8
  have s32 := smear_step h 16 _ s16
  have s64 := smear_step h 32 _ s32
  have hval : _bit_trick n = 2 ^ (h + 1) - 1 := by
    have hsub : len_sub n 1 = n - 1 := by
      unfold len_sub
      rw [if_pos (by omega)]
    unfold _bit_trick
    simp only [hsub]
    exact smeared_eq h 64 _ s64 hlt
  have hpos : 0 < 2 ^ (h + 1) := Nat.two_pow_pos _
  have hup : n - 1 < 2 ^ (h + 1) := by
    apply Nat.lt_pow_two_of_testBit
    intro i hi
    exact hhi i (by omega)
  refine ⟨h + 1, by omega, by omega, by omega, ?_⟩
  rw [pow_succ]
  omega

end bits

end sortc


namespace sortc

/-! ## The order-statistics index as an array-backed tree -/

section tree

theorem getD_set_eq (l : List Nat) (i a : Nat) (h : i < l.length) :
    (l.set i a).getD i 0 = a := by
  rw [List.getD_eq_getElem?_getD, List.getElem?_set_self h]; rfl

theorem getD_set_ne (l : List Nat) (i j a : Nat) (h : i ≠ j) :
    (l.set i a).getD j 0 = l.getD j 0 := by
  rw [List.getD_eq_getElem?_getD, List.getD_eq_getElem?_getD, List.getElem?_set_ne h]

theorem getD_beyond (l : List Nat) (j : Nat) (h : l.length ≤ j) : l.getD j 0 = 0 := by
  rw [List.getD_eq_getElem?_getD, List.getElem?_eq_none h]; rfl

theorem ext_getD (l l' : List Nat) (hl : l.length = l'.length)
    (h : ∀ j, j < l.length → l.getD j 0 = l'.getD j 0) : l = l' := by
  apply List.ext_getElem hl
  intro j h1 h2
  have := h j h1
  rw [List.getD_eq_getElem l 0 h1, List.getD_eq_getElem l' 0 h2] at this
  exact this





/-- A consistent index is determined by the bucket sizes and the leaf offset. -/
theorem TreeOK.unique {sz ix ix' : List Nat} {off : Nat} (h : TreeOK sz ix off)
    (h' : TreeOK sz ix' off) : ix = ix' := by
  have hlen : ix.length = ix'.length := by rw [h.1, h'.1]
  have key : ∀ k j, off ≤ j + k → ix.getD j 0 = ix'.getD j 0 := by
    intro k
    induction k with
    | zero =>
      intro j hj
      by_cases hin : j < ix.length
      · rw [h.2 j hin, h'.2 j (by omega)]
        simp only [expected]
        rw [if_neg (by omega), if_neg (by omega)]
      · rw [getD_beyond ix j (by omega), getD_beyond ix' j (by omega)]
    | succ k ih =>
      intro j hj
      by_cases hin : j < ix.length
      · rw [h.2 j hin, h'.2 j (by omega)]
        simp only [expected]
        by_cases hjo : j < off
        · rw [if_pos hjo, if_pos hjo, ih (j * 2 + 1) (by omega), ih (j * 2 + 2) (by omega)]
        · rw [if_neg hjo, if_neg hjo]
      · rw [getD_beyond ix j (by omega), getD_beyond ix' j (by omega)]
  exact ext_getD ix ix' hlen (fun j _ => key off j (by omega))



theorem walk_up_ok (f : Nat → Nat) (P : Nat → Prop)
    (hf : ∀ x y, P x → f (x + y) = f x + y ∧ f (y + x) = y + f x ∧ P (x + y) ∧ P (y + x))
    (sz : List Nat) (off : Nat) :
    ∀ fuel c ix, c ≤ fuel → Pending f P sz ix off c →
      TreeOK sz (let r := walk_up f fuel c ix; r.set 0 (f (r.getD 0 0))) off := by
  intro fuel
  induction fuel with
  | zero =>
    intro c ix hc hp
    have hc0 : c = 0 := by omega
    subst hc0
    obtain ⟨hlen, hin, -, -, hfc, hrest⟩ := hp
    simp only [walk_up]
    refine ⟨by rw [List.length_set]; exact hlen, ?_⟩
    intro t ht
    rw [List.length_set] at ht
    by_cases ht0 : t = 0
    · subst ht0
      rw [getD_set_eq _ _ _ hin, hfc]
      simp only [expected]
      rw [getD_set_ne _ _ _ _ (by omega), getD_set_ne _ _ _ _ (by omega)]
    · rw [getD_set_ne _ _ _ _ (by omega), hrest t ht ht0]
      simp only [expected]
      rw [getD_set_ne _ _ _ _ (by omega), getD_set_ne _ _ _ _ (by omega)]
  | succ fuel ih =>
    intro c ix hc hp
    obtain ⟨hlen, hin, hc2, hP, hfc, hrest⟩ := hp
    by_cases hc0 : c = 0
    · subst hc0
      simp only [walk_up, if_true]
      refine ⟨by rw [List.length_set]; exact hlen, ?_⟩
      intro t ht
      rw [List.length_set] at ht
      by_cases ht0 : t = 0
      · subst ht0
        rw [getD_set_eq _ _ _ hin, hfc]
        simp only [expected]
        rw [getD_set_ne _ _ _ _ (by omega), getD_set_ne _ _ _ _ (by omega)]
      · rw [getD_set_ne _ _ _ _ (by omega), hrest t ht ht0]
        simp only [expected]
        rw [getD_set_ne _ _ _ _ (by omega), getD_set_ne _ _ _ _ (by omega)]
    · simp only [walk_up, hc0, if_false]
      apply ih ((c - 1) / 2) (ix.set c (f (ix.getD c 0))) (by omega)
      have hpar : (c - 1) / 2 < off := by omega
      have hparc : (c - 1) / 2 ≠ c := by omega
      have hplen : (c - 1) / 2 < ix.length := by omega
      have hpe := hrest ((c - 1) / 2) hplen hparc
      simp only [expected, if_pos hpar] at hpe
      refine ⟨by rw [List.length_set]; exact hlen, by rw [List.length_set]; exact hplen,
        by omega, ?_, ?_, ?_⟩
      · rw [getD_set_ne _ _ _ _ (Ne.symm hparc), hpe]
        rcases Nat.even_or_odd c with ⟨k, hk⟩ | ⟨k, hk⟩
        · have e1 : (c - 1) / 2 * 2 + 2 = c := by omega
          rw [e1]
          exact (hf _ _ hP).2.2.2
        · have e1 : (c - 1) / 2 * 2 + 1 = c := by omega
          rw [e1]
          exact (hf _ _ hP).2.2.1
      · rw [getD_set_ne _ _ _ _ (Ne.symm hparc), hpe]
        simp only [expected, if_pos hpar]
        rcases Nat.even_or_odd c with ⟨k, hk⟩ | ⟨k, hk⟩
        · have e1 : (c - 1) / 2 * 2 + 2 = c := by omega
          rw [e1, getD_set_eq _ _ _ hin, getD_set_ne _ _ _ _ (by omega)]
          exact (hf _ _ hP).2.1
        · have e1 : (c - 1) / 2 * 2 + 1 = c := by omega
          rw [e1, getD_set_eq _ _ _ hin, getD_set_ne _ _ _ _ (by omega)]
          exact (hf _ _ hP).1
      · intro t ht htp
        rw [List.length_set] at ht
        by_cases htc : t = c
        · subst htc
          rw [getD_set_eq _ _ _ hin, hfc]
          simp only [expected]
          rw [getD_set_ne _ _ _ _ (by omega), getD_set_ne _ _ _ _ (by omega)]
        · rw [getD_set_ne _ _ _ _ (Ne.symm htc), hrest t ht htc]
          simp only [expected]
          rw [getD_set_ne _ _ _ _ (by omega), getD_set_ne _ _ _ _ (by omega)]

end tree

end sortc


namespace sortc

section build

theorem update_path_ok (f : Nat → Nat) (P : Nat → Prop)
    (hf : ∀ x y, P x → f (x + y) = f x + y ∧ f (y + x) = y + f x ∧ P (x + y) ∧ P (y + x))
    (sz sz' ix : List Nat) (off i : Nat) (h : TreeOK sz ix off) (hi : i < sz.length)
    (hn : sz.length ≤ off + 1) (hlen : sz'.length = sz.length) (hP : P (sz.getD i 0))
    (hi' : sz'.getD i 0 = f (sz.getD i 0)) (hrest : ∀ p, p ≠ i → sz'.getD p 0 = sz.getD p 0) :
    TreeOK sz' (update_path f (off + i) ix) off := by
  unfold update_path
  apply walk_up_ok f P hf sz' off (off + i) (off + i) ix (le_refl _)
  obtain ⟨h1, h2⟩ := h
  have hc : off + i < ix.length := by omega
  have hci := h2 (off + i) hc
  simp only [expected, if_neg (show ¬ off + i < off by omega), Nat.add_sub_cancel_left] at hci
  refine ⟨by omega, hc, by omega, by rw [hci]; exact hP, ?_, ?_⟩
  · rw [hci]
    simp only [expected, if_neg (show ¬ off + i < off by omega), Nat.add_sub_cancel_left, hi']
  · intro t ht htc
    rw [h2 t ht]
    simp only [expected]
    by_cases hto : t < off
    · rw [if_pos hto, if_pos hto]
    · rw [if_neg hto, if_neg hto, hrest (t - off) (by omega)]

theorem foldl_set_getD (g : Nat → Nat) (a : Nat) :
    ∀ k (ix : List Nat),
      ((List.range' a k).foldl (fun ix i => ix.set i (g i)) ix).length = ix.length ∧
      ∀ j, ((List.range' a k).foldl (fun ix i => ix.set i (g i)) ix).getD j 0 =
        if a ≤ j ∧ j < a + k ∧ j < ix.length then g j else ix.getD j 0 := by
  intro k
  induction k with
  | zero =>
    intro ix
    refine ⟨rfl, fun j => ?_⟩
    rw [if_neg (by omega)]
    rfl
  | succ k ih =>
    intro ix
    obtain ⟨h1, h2⟩ := ih ix
    rw [List.range'_concat, List.foldl_append]
    simp only [List.foldl_cons, List.foldl_nil, one_mul]
    refine ⟨by rw [List.length_set]; exact h1, fun j => ?_⟩
    by_cases hj : a + k = j
    · subst hj
      by_cases hin : a + k < ix.length
      · rw [getD_set_eq _ _ _ (by omega), if_pos (by omega)]
      · rw [getD_beyond _ _ (by rw [List.length_set]; omega), if_neg (by omega),
          getD_beyond _ _ (by omega)]
    · rw [getD_set_ne _ _ _ _ hj, h2 j]
      by_cases hc : a ≤ j ∧ j < a + k ∧ j < ix.length
      · rw [if_pos hc, if_pos (by omega)]
      · rw [if_neg hc, if_neg (by omega)]

theorem foldl_row_getD (a : Nat) :
    ∀ k (ix : List Nat), a + k ≤ a * 2 + 1 →
      ((List.range' a k).foldl sum_children ix).length = ix.length ∧
      ∀ j, ((List.range' a k).foldl sum_children ix).getD j 0 =
        if a ≤ j ∧ j < a + k ∧ j < ix.length
        then ix.getD (j * 2 + 1) 0 + ix.getD (j * 2 + 2) 0 else ix.getD j 0 := by
  intro k
  induction k with
  | zero =>
    intro ix _
    refine ⟨rfl, fun j => ?_⟩
    rw [if_neg (by omega)]
    rfl
  | succ k ih =>
    intro ix hk
    obtain ⟨h1, h2⟩ := ih ix (by omega)
    rw [List.range'_concat, List.foldl_append]
    simp only [List.foldl_cons, List.foldl_nil, one_mul]
    generalize List.foldl sum_children ix (List.range' a k) = r at h1 h2 ⊢
    unfold sum_children
    refine ⟨by rw [List.length_set]; exact h1, fun j => ?_⟩
    by_cases hj : a + k = j
    · subst hj
      by_cases hin : a + k < ix.length
      · rw [getD_set_eq _ _ _ (by omega), if_pos (by omega), h2, h2, if_neg (by omega),
          if_neg (by omega)]
      · rw [getD_beyond _ _ (by rw [List.length_set]; omega), if_neg (by omega),
          getD_beyond _ _ (by omega)]
    · rw [getD_set_ne _ _ _ _ hj, h2 j]
      by_cases hc : a ≤ j ∧ j < a + k ∧ j < ix.length
      · rw [if_pos hc, if_pos (by omega)]
      · rw [if_neg hc, if_neg (by omega)]

/-- The downward loop: once the nodes from `k` on hold their expected counts, one pass
from `k - 1` down to the root makes the whole array consistent. -/
theorem foldl_down_ok (sz : List Nat) (off : Nat) :
    ∀ k (ix : List Nat), k ≤ off → ix.length = off + sz.length →
      (∀ t, k ≤ t → t < ix.length → ix.getD t 0 = expected sz ix off t) →
      TreeOK sz ((List.range k).reverse.foldl sum_children ix) off := by
  intro k
  induction k with
  | zero =>
    intro ix _ hlen h
    exact ⟨hlen, fun t ht => h t (by omega) ht⟩
  | succ k ih =>
    intro ix hk hlen h
    rw [List.range_succ, List.reverse_append]
    simp only [List.reverse_cons, List.reverse_nil, List.nil_append, List.cons_append,
      List.foldl_cons]
    apply ih (sum_children ix k) (by omega)
    · unfold sum_children; rw [List.length_set]; exact hlen
    · intro t hkt ht
      unfold sum_children at ht ⊢
      rw [List.length_set] at ht
      by_cases htk : t = k
      · subst htk
        rw [getD_set_eq _ _ _ ht]
        simp only [expected, if_pos (show t < off by omega)]
        rw [getD_set_ne _ _ _ _ (by omega), getD_set_ne _ _ _ _ (by omega)]
      · rw [getD_set_ne _ _ _ _ (Ne.symm htk), h t (by omega) ht]
        simp only [expected]
        rw [getD_set_ne _ _ _ _ (by omega), getD_set_ne _ _ _ _ (by omega)]

end build

end sortc


namespace sortc

section build
variable {α : Type}



theorem sizes_getD (l : List (List α)) (k : Nat) :
    (l.getD k []).length = (sizes l).getD k 0 := by
  simp only [sizes, List.getD_eq_getElem?_getD, List.getElem?_map]
  cases l[k]? <;> rfl

theorem sizes_last (l : List (List α)) :
    (l.getLast?.getD []).length = (sizes l).getD (l.length - 1) 0 := by
  rw [List.getLast?_eq_getElem?, ← sizes_getD, List.getD_eq_getElem?_getD]

theorem sizes_length (l : List (List α)) : (sizes l).length = l.length := by
  simp [sizes]

theorem resize_nil_length (k : Nat) : (resize [] k).length = k := by
  simp [resize]

theorem resize_nil_getD (k j : Nat) : (resize [] k).getD j 0 = 0 := by
  simp only [resize, List.take_nil, List.nil_append, List.length_nil, Nat.sub_zero]
  rw [List.getD_eq_getElem?_getD, List.getElem?_replicate]
  split <;> rfl

theorem build_index_tree (s : sorted_list α) (hix : s._index = []) (off aux : Nat)
    (hoff : _bit_trick s._list.length = off) (hodd : off = aux * 2 + 1)
    (hn : s._list.length ≤ off + 1) (h1 : s._list.length ≠ 1) :
    TreeOK (sizes s._list) (_build_index s)._index off ∧ (_build_index s)._off = off := by
  unfold _build_index
  rw [if_neg h1]
  simp only [hix, hoff]
  have haux : off / 2 = aux := by omega
  rw [haux]
  refine ⟨?_, trivial⟩
  have hlen0 := resize_nil_length (off + s._list.length)
  have hszl := sizes_length s._list
  obtain ⟨l1, g1⟩ := foldl_set_getD (fun i => (s._list.getD (i - off) []).length) off
    ((resize [] (off + s._list.length)).length - off) (resize [] (off + s._list.length))
  generalize (List.foldl (fun ix i => ix.set i (s._list.getD (i - off) []).length)
    (resize [] (off + s._list.length))
    (List.range' off ((resize [] (off + s._list.length)).length - off))) = r1 at l1 g1 ⊢
  rw [hlen0] at l1
  have g1' : ∀ j, r1.getD j 0 = if j < off then 0 else (sizes s._list).getD (j - off) 0 := by
    intro j
    rw [g1 j, hlen0]
    by_cases hj : j < off
    · rw [if_neg (by omega), if_pos hj, resize_nil_getD]
    · rw [if_neg hj]
      by_cases hj2 : j < off + s._list.length
      · rw [if_pos (by omega), sizes_getD]
      · rw [if_neg (by omega), resize_nil_getD, getD_beyond _ _ (by omega)]
  obtain ⟨l2, g2⟩ := foldl_row_getD aux (aux + s._list.length / 2 - aux) r1 (by omega)
  generalize (List.foldl sum_children r1
    (List.range' aux (aux + s._list.length / 2 - aux))) = r2 at l2 g2 ⊢
  have g2' : ∀ j, r2.getD j 0 =
      if aux ≤ j ∧ j < aux + s._list.length / 2
      then (sizes s._list).getD (j * 2 + 1 - off) 0 + (sizes s._list).getD (j * 2 + 2 - off) 0
      else r1.getD j 0 := by
    intro j
    rw [g2 j]
    by_cases hj : aux ≤ j ∧ j < aux + s._list.length / 2
    · rw [if_pos (by omega), if_pos hj, g1', g1', if_neg (by omega), if_neg (by omega)]
    · rw [if_neg (by omega), if_neg hj]
  by_cases hpar : s._list.length % 2 = 1
  · rw [if_pos hpar]
    apply foldl_down_ok (sizes s._list) off aux _ (by omega)
      (by rw [List.length_set]; omega)
    intro t hkt ht
    rw [List.length_set] at ht
    have hch : ∀ c, off ≤ c →
        (r2.set (aux + s._list.length / 2) (s._list.getLast?.getD []).length).getD c 0
          = (sizes s._list).getD (c - off) 0 := by
      intro c hc
      rw [getD_set_ne _ _ _ _ (by omega), g2', if_neg (by omega), g1', if_neg (by omega)]
    by_cases hto : t < off
    · simp only [expected, if_pos hto]
      rw [hch (t * 2 + 1) (by omega), hch (t * 2 + 2) (by omega)]
      by_cases hts : t = aux + s._list.length / 2
      · subst hts
        rw [getD_set_eq _ _ _ (by omega), sizes_last,
          getD_beyond (sizes s._list) ((aux + s._list.length / 2) * 2 + 2 - off) (by omega)]
        have e : (aux + s._list.length / 2) * 2 + 1 - off = s._list.length - 1 := by omega
        rw [e, Nat.add_zero]
      · rw [getD_set_ne _ _ _ _ (Ne.symm hts), g2']
        by_cases hlow : t < aux + s._list.length / 2
        · rw [if_pos (by omega)]
        · rw [if_neg (by omega), g1', if_pos hto,
            getD_beyond (sizes s._list) (t * 2 + 1 - off) (by omega),
            getD_beyond (sizes s._list) (t * 2 + 2 - off) (by omega)]
    · simp only [expected, if_neg hto]
      exact hch t (by omega)
  · rw [if_neg hpar]
    apply foldl_down_ok (sizes s._list) off aux _ (by omega) (by omega)
    intro t hkt ht
    have hch : ∀ c, off ≤ c → r2.getD c 0 = (sizes s._list).getD (c - off) 0 := by
      intro c hc
      rw [g2', if_neg (by omega), g1', if_neg (by omega)]
    by_cases hto : t < off
    · simp only [expected, if_pos hto]
      rw [hch (t * 2 + 1) (by omega), hch (t * 2 + 2) (by omega), g2']
      by_cases hlow : t < aux + s._list.length / 2
      · rw [if_pos (by omega)]
      · rw [if_neg (by omega), g1', if_pos hto,
          getD_beyond (sizes s._list) (t * 2 + 1 - off) (by omega),
          getD_beyond (sizes s._list) (t * 2 + 2 - off) (by omega)]
    · simp only [expected, if_neg hto]
      exact hch t (by omega)

end build

end sortc


namespace sortc

section ranks



theorem psum_zero (sz : List Nat) : psum sz 0 = 0 := by simp [psum]

theorem psum_succ (sz : List Nat) (k : Nat) : psum sz (k + 1) = psum sz k + sz.getD k 0 := by
  unfold psum
  by_cases h : k < sz.length
  · rw [List.sum_take_succ sz k h, List.getD_eq_getElem sz 0 h]
  · rw [List.take_of_length_le (by omega), List.take_of_length_le (by omega),
      List.getD_eq_getElem?_getD, List.getElem?_eq_none (by omega)]
    rfl

theorem psum_mono (sz : List Nat) (a b : Nat) (h : a ≤ b) : psum sz a ≤ psum sz b := by
  induction b with
  | zero =>
    have : a = 0 := by omega
    rw [this]
  | succ b ih =>
    by_cases hab : a = b + 1
    · rw [hab]
    · have := ih (by omega)
      rw [psum_succ]
      omega

theorem psum_beyond (sz : List Nat) (a b : Nat) (h : sz.length ≤ a) (hab : a ≤ b) :
    psum sz b = psum sz a := by
  unfold psum
  rw [List.take_of_length_le (by omega), List.take_of_length_le (by omega)]

theorem TreeOK.all {sz ix : List Nat} {off : Nat} (h : TreeOK sz ix off) (t : Nat) :
    ix.getD t 0 = expected sz ix off t := by
  by_cases ht : t < ix.length
  · exact h.2 t ht
  · rw [getD_beyond ix t (by omega)]
    have := h.1
    simp only [expected, if_neg (show ¬ t < off by omega)]
    rw [List.getD_eq_getElem?_getD, List.getElem?_eq_none (by omega)]
    rfl

/-- The node at position `p` of depth `l` holds the total size of the `2^j` buckets from
`2^j * p` on, where `j` is the height of the node. -/
theorem tree_range (sz ix : List Nat) (off D : Nat) (h : TreeOK sz ix off)
    (hD : off + 1 = 2 ^ D) :
    ∀ j l, j + l = D → ∀ p, p < 2 ^ l →
      ix.getD (2 ^ l - 1 + p) 0 + psum sz (2 ^ j * p) = psum sz (2 ^ j * p + 2 ^ j) := by
  intro j
  induction j with
  | zero =>
    intro l hl p _
    have : l = D := by omega
    subst this
    have e : 2 ^ l - 1 + p = off + p := by omega
    rw [e, h.all]
    simp only [expected, if_neg (show ¬ off + p < off by omega), Nat.add_sub_cancel_left,
      pow_zero, one_mul]
    rw [psum_succ]
    omega
  | succ j ih =>
    intro l hl p hp
    have hA : 2 ^ (l + 1) = 2 * 2 ^ l := by rw [pow_succ]; omega
    have hApos : 0 < 2 ^ l := Nat.two_pow_pos l
    have hle : 2 ^ (l + 1) ≤ 2 ^ D := Nat.pow_le_pow_right (by decide) (by omega)
    have hint : 2 ^ l - 1 + p < off := by omega
    have i1 := ih (l + 1) (by omega) (2 * p) (by omega)
    have i2 := ih (l + 1) (by omega) (2 * p + 1) (by omega)
    have e1 : 2 ^ (l + 1) - 1 + 2 * p = (2 ^ l - 1 + p) * 2 + 1 := by omega
    have e2 : 2 ^ (l + 1) - 1 + (2 * p + 1) = (2 ^ l - 1 + p) * 2 + 2 := by omega
    have e3 : 2 ^ j * (2 * p) = 2 * (2 ^ j * p) := by ring
    have e4 : 2 ^ j * (2 * p + 1) = 2 * (2 ^ j * p) + 2 ^ j := by ring
    have e5 : 2 ^ (j + 1) * p = 2 * (2 ^ j * p) := by rw [pow_succ]; ring
    have e6 : 2 ^ (j + 1) = 2 ^ j + 2 ^ j := by rw [pow_succ]; omega
    rw [e1, e3] at i1
    rw [e2, e4] at i2
    rw [h.all, e5, e6]
    simp only [expected, if_pos hint]
    have e7 : 2 * (2 ^ j * p) + (2 ^ j + 2 ^ j) = 2 * (2 ^ j * p) + 2 ^ j + 2 ^ j := by omega
    rw [e7]
    omega

/-- The climb of `_locate` from a node adds the sizes of all buckets to the left of it. -/
theorem locate_loop_ok (sz ix : List Nat) (off D : Nat) (h : TreeOK sz ix off)
    (hD : off + 1 = 2 ^ D) :
    ∀ l j, j + l = D → ∀ p, p < 2 ^ l → ∀ fuel, 2 ^ l - 1 + p ≤ fuel → ∀ total,
      locate_loop ix fuel (2 ^ l - 1 + p) total = total + psum sz (2 ^ j * p) := by
  intro l
  induction l with
  | zero =>
    intro j _ p hp fuel _ total
    have hp0 : p = 0 := by simpa using hp
    subst hp0
    simp only [pow_zero, Nat.sub_self, Nat.add_zero, Nat.mul_zero, psum_zero]
    cases fuel <;> simp [locate_loop]
  | succ l ih =>
    intro j hj p hp fuel hfuel total
    have hA : 2 ^ (l + 1) = 2 * 2 ^ l := by rw [pow_succ]; omega
    have hApos : 0 < 2 ^ l := Nat.two_pow_pos l
    cases fuel with
    | zero => omega
    | succ fuel =>
      have hk : ¬ (2 ^ (l + 1) - 1 + p = 0) := by omega
      simp only [locate_loop, hk, if_false]
      have epar : (2 ^ (l + 1) - 1 + p - 1) / 2 = 2 ^ l - 1 + p / 2 := by omega
      rw [epar, ih (j + 1) (by omega) (p / 2) (by omega) fuel (by omega)]
      have e5 : 2 ^ (j + 1) * (p / 2) = 2 * (2 ^ j * (p / 2)) := by rw [pow_succ]; ring
      rw [e5]
      rcases Nat.even_or_odd p with ⟨q, hq⟩ | ⟨q, hq⟩
      · have hq2 : p / 2 = q := by omega
        have hodd : ¬ ((2 ^ (l + 1) - 1 + p) % 2 = 0) := by omega
        rw [if_neg hodd, hq2]
        have : 2 ^ j * p = 2 * (2 ^ j * q) := by rw [hq]; ring
        rw [this]
      · have hq2 : p / 2 = q := by omega
        have hev : (2 ^ (l + 1) - 1 + p) % 2 = 0 := by omega
        rw [if_pos hev, hq2]
        have r1 := tree_range sz ix off D h hD j (l + 1) (by omega) (2 * q) (by omega)
        have e1 : 2 ^ (l + 1) - 1 + p - 1 = 2 ^ (l + 1) - 1 + 2 * q := by omega
        have e3 : 2 ^ j * (2 * q) = 2 * (2 ^ j * q) := by ring
        have e4 : 2 ^ j * p = 2 * (2 ^ j * q) + 2 ^ j := by rw [hq]; ring
        rw [e1, e4]
        rw [e3] at r1
        omega

end ranks

end sortc


namespace sortc

section ranks

/-- The descent of `_place` from a node whose buckets contain the rank ends on the leaf
of the bucket that holds it, with the offset inside that bucket. -/
theorem place_loop_ok (sz ix : List Nat) (off D : Nat) (h : TreeOK sz ix off)
    (hD : off + 1 = 2 ^ D) (hn : sz.length ≤ 2 ^ D) :
    ∀ j l, j + l = D → ∀ p, p < 2 ^ l → ∀ i fuel, j ≤ fuel →
      psum sz (2 ^ j * p) + i < psum sz (2 ^ j * p + 2 ^ j) →
      ∃ b o, place_loop ix fuel (2 ^ l - 1 + p) ((2 ^ l - 1 + p) * 2 + 1) i = (off + b, o) ∧
        psum sz b + o = psum sz (2 ^ j * p) + i ∧ o < sz.getD b 0 := by
  intro j
  induction j with
  | zero =>
    intro l hl p _ i fuel _ hi
    have : l = D := by omega
    subst this
    simp only [pow_zero, one_mul] at hi
    rw [psum_succ] at hi
    have e : 2 ^ l - 1 + p = off + p := by omega
    have hlt : p < sz.length := by
      by_contra hc
      rw [List.getD_eq_getElem?_getD, List.getElem?_eq_none (by omega)] at hi
      simp at hi
    refine ⟨p, i, ?_, by simp, by omega⟩
    rw [e]
    cases fuel with
    | zero => rfl
    | succ fuel =>
      have := h.1
      simp only [place_loop, if_neg (show ¬ (off + p) * 2 + 1 < ix.length by omega)]
  | succ j ih =>
    intro l hl p hp i fuel hfuel hi
    have hA : 2 ^ (l + 1) = 2 * 2 ^ l := by rw [pow_succ]; omega
    have hApos : 0 < 2 ^ l := Nat.two_pow_pos l
    have hWpos : 0 < 2 ^ j := Nat.two_pow_pos j
    have hle : 2 ^ (l + 1) ≤ 2 ^ D := Nat.pow_le_pow_right (by decide) (by omega)
    have e3 : 2 ^ j * (2 * p) = 2 * (2 ^ j * p) := by ring
    have e4 : 2 ^ j * (2 * p + 1) = 2 * (2 ^ j * p) + 2 ^ j := by ring
    have e5 : 2 ^ (j + 1) * p = 2 * (2 ^ j * p) := by rw [pow_succ]; ring
    have e6 : 2 ^ (j + 1) = 2 ^ j + 2 ^ j := by rw [pow_succ]; omega
    have e7 : 2 * (2 ^ j * p) + (2 ^ j + 2 ^ j) = 2 * (2 ^ j * p) + 2 ^ j + 2 ^ j := by omega
    rw [e5, e6, e7] at hi
    have r1 := tree_range sz ix off D h hD j (l + 1) (by omega) (2 * p) (by omega)
    have e1 : 2 ^ (l + 1) - 1 + 2 * p = (2 ^ l - 1 + p) * 2 + 1 := by omega
    rw [e1, e3] at r1
    have hmono := psum_mono sz (2 * (2 ^ j * p) + 2 ^ j) (2 * (2 ^ j * p) + 2 ^ j + 2 ^ j)
      (by omega)
    -- the left child is inside the array
    have hstart : 2 * (2 ^ j * p) < sz.length := by
      by_contra hc
      have := psum_beyond sz (2 * (2 ^ j * p)) (2 * (2 ^ j * p) + 2 ^ j + 2 ^ j)
        (by omega) (by omega)
      omega
    have hchild : (2 ^ l - 1 + p) * 2 + 1 < ix.length := by
      have hlen := h.1
      cases j with
      | zero =>
        have : l + 1 = D := by omega
        subst this
        simp only [pow_zero, one_mul] at hstart
        omega
      | succ j' =>
        have hle2 : 2 ^ (l + 2) ≤ 2 ^ D := Nat.pow_le_pow_right (by decide) (by omega)
        have hA2 : 2 ^ (l + 2) = 4 * 2 ^ l := by rw [pow_succ, pow_succ]; omega
        omega
    cases fuel with
    | zero => omega
    | succ fuel =>
      simp only [place_loop, if_pos hchild]
      by_cases hlt : i < ix.getD ((2 ^ l - 1 + p) * 2 + 1) 0
      · rw [if_pos hlt]
        obtain ⟨b, o, hb1, hb2, hb3⟩ := ih (l + 1) (by omega) (2 * p) (by omega) i fuel
          (by omega) (by rw [e3]; omega)
        rw [e1] at hb1
        rw [e3] at hb2
        exact ⟨b, o, hb1, by rw [e5]; exact hb2, hb3⟩
      · rw [if_neg hlt]
        obtain ⟨b, o, hb1, hb2, hb3⟩ := ih (l + 1) (by omega) (2 * p + 1) (by omega)
          (i - ix.getD ((2 ^ l - 1 + p) * 2 + 1) 0) fuel (by omega) (by rw [e4]; omega)
        have e2 : 2 ^ (l + 1) - 1 + (2 * p + 1) = (2 ^ l - 1 + p) * 2 + 1 + 1 := by omega
        rw [e2] at hb1
        rw [e4] at hb2
        exact ⟨b, o, hb1, by rw [e5]; omega, hb3⟩

end ranks

end sortc


namespace sortc

section index_state
variable {α : Type}

theorem build_index_data (s : sorted_list α) :
    (_build_index s)._list = s._list ∧ (_build_index s)._max = s._max ∧
      (_build_index s)._len = s._len ∧ (_build_index s)._load = s._load := by
  unfold _build_index
  split <;> exact ⟨rfl, rfl, rfl, rfl⟩

theorem build_index_off (s : sorted_list α) (h1 : s._list.length ≠ 1) :
    (_build_index s)._off = _bit_trick s._list.length := by
  unfold _build_index
  rw [if_neg h1]

theorem index_nil_iff (ix : List Nat) : ix.length = 0 ↔ ix = [] := List.length_eq_zero

/-- The leaf offset for at least two and at most `2^63` buckets. -/
theorem bit_trick_shape (n : Nat) (h2 : 2 ≤ n) (hn : n ≤ 2 ^ 63) :
    ∃ D aux, _bit_trick n + 1 = 2 ^ D ∧ n ≤ 2 ^ D ∧ _bit_trick n = aux * 2 + 1 := by
  obtain ⟨D, hD1, hD, hle, -⟩ := bit_trick_pow n h2 hn
  obtain ⟨D', rfl⟩ : ∃ D', D = D' + 1 := ⟨D - 1, by omega⟩
  have hp : 0 < 2 ^ D' := Nat.two_pow_pos D'
  have e : 2 ^ (D' + 1) = 2 * 2 ^ D' := by rw [pow_succ]; omega
  exact ⟨D' + 1, 2 ^ D' - 1, hD, hle, by omega⟩

/-- After `if (!_index.size()) _build_index();` the index reflects the bucket sizes. -/
theorem ensure_tree (s : sorted_list α) (h : IndexOK s) (h2 : 2 ≤ s._list.length)
    (hn : s._list.length ≤ 2 ^ 63) :
    (if s._index.length = 0 then _build_index s else s)._list = s._list ∧
    (if s._index.length = 0 then _build_index s else s)._max = s._max ∧
    (if s._index.length = 0 then _build_index s else s)._len = s._len ∧
    (if s._index.length = 0 then _build_index s else s)._load = s._load ∧
    (if s._index.length = 0 then _build_index s else s)._off = _bit_trick s._list.length ∧
    TreeOK (sizes s._list) (if s._index.length = 0 then _build_index s else s)._index
      (_bit_trick s._list.length) := by
  by_cases h0 : s._index.length = 0
  · rw [if_pos h0]
    obtain ⟨d1, d2, d3, d4⟩ := build_index_data s
    obtain ⟨D, aux, hD, hle, hodd⟩ := bit_trick_shape _ h2 hn
    have ht := build_index_tree s ((index_nil_iff _).mp h0) _ aux rfl hodd (by omega) (by omega)
    exact ⟨d1, d2, d3, d4, ht.2, ht.1⟩
  · rw [if_neg h0]
    have hne : s._index ≠ [] := fun hc => h0 ((index_nil_iff _).mpr hc)
    obtain ⟨-, hoff, ht⟩ := h hne
    refine ⟨rfl, rfl, rfl, rfl, hoff, ?_⟩
    rw [← hoff]
    exact ht hn

theorem ensure_index (s : sorted_list α) (h : IndexOK s) (h2 : 2 ≤ s._list.length) :
    IndexOK (if s._index.length = 0 then _build_index s else s) := by
  by_cases h0 : s._index.length = 0
  · rw [if_pos h0]
    obtain ⟨d1, -, -, -⟩ := build_index_data s
    intro _
    rw [d1]
    refine ⟨h2, build_index_off s (by omega), fun hn => ?_⟩
    have := ensure_tree s h h2 hn
    rw [if_pos h0] at this
    rw [build_index_off s (by omega)]
    exact this.2.2.2.2.2
  · rw [if_neg h0]
    exact h

/-- The rank computed by `_locate` for bucket `i` and offset `j`. -/
theorem locate_spec (s : sorted_list α) (h : IndexOK s) (i j : Nat) (hi : i < s._list.length)
    (hn : s._list.length ≤ 2 ^ 63) :
    (_locate i j s).1 = psum (sizes s._list) i + j := by
  unfold _locate
  by_cases hi0 : i = 0
  · rw [if_pos hi0, hi0, psum_zero]
    simp
  · rw [if_neg hi0]
    have h2 : 2 ≤ s._list.length := by omega
    obtain ⟨-, -, -, -, hoff, ht⟩ := ensure_tree s h h2 hn
    obtain ⟨D, aux, hD, hle, -⟩ := bit_trick_shape _ h2 hn
    simp only [hoff]
    have key := locate_loop_ok (sizes s._list) _ _ D ht hD D 0 (by omega) i (by omega)
      (i + _bit_trick s._list.length) (by omega) 0
    have e : 2 ^ D - 1 + i = i + _bit_trick s._list.length := by omega
    rw [e] at key
    rw [key]
    simp

theorem locate_data (s : sorted_list α) (i j : Nat) :
    (_locate i j s).2._list = s._list ∧ (_locate i j s).2._max = s._max ∧
      (_locate i j s).2._len = s._len ∧ (_locate i j s).2._load = s._load := by
  unfold _locate
  split
  · exact ⟨rfl, rfl, rfl, rfl⟩
  · by_cases h0 : s._index.length = 0
    · rw [if_pos h0]
      exact build_index_data s
    · rw [if_neg h0]
      exact ⟨rfl, rfl, rfl, rfl⟩

theorem locate_index (s : sorted_list α) (h : IndexOK s) (i j : Nat)
    (hi : i < s._list.length) : IndexOK (_locate i j s).2 := by
  unfold _locate
  by_cases hi0 : i = 0
  · rw [if_pos hi0]; exact h
  · rw [if_neg hi0]
    exact ensure_index s h (by omega)

end index_state

end sortc


namespace sortc

section positions
variable {α : Type}

theorem psum_sizes_append (L R : List (List α)) :
    psum (sizes (L ++ R)) L.length = L.flatten.length := by
  unfold psum sizes
  rw [List.map_append, ← List.length_map L List.length, List.take_left, List.length_flatten]

theorem psum_sizes_total (l : List (List α)) (k : Nat) (hk : l.length ≤ k) :
    psum (sizes l) k = l.flatten.length := by
  unfold psum sizes
  rw [List.take_of_length_le (by simpa using hk), List.length_flatten]

theorem flatten_getElem?_split (L R : List (List α)) (b : List α) (o : Nat) (ho : o < b.length) :
    (L ++ b :: R).flatten[L.flatten.length + o]? = b[o]? := by
  simp only [List.flatten_append, List.flatten_cons]
  rw [List.getElem?_append_right (by omega), Nat.add_sub_cancel_left,
    List.getElem?_append_left ho]

/-- A pair (bucket, offset) inside the bucket store addresses the element of the flattened
view at the rank `psum b + o`. -/
theorem position_split (l : List (List α)) (b o : Nat) (ho : o < (sizes l).getD b 0) :
    ∃ L bk R, l = L ++ bk :: R ∧ L.length = b ∧ o < bk.length ∧
      psum (sizes l) b = L.flatten.length ∧ l.getD b [] = bk := by
  have hb : b < l.length := by
    by_contra hc
    rw [List.getD_eq_getElem?_getD, List.getElem?_eq_none (by rw [sizes_length]; omega)] at ho
    simp at ho
  obtain ⟨L, bk, R, hl, hL⟩ := split_at l b hb
  subst hl
  subst hL
  rw [← sizes_getD, getD_split] at ho
  exact ⟨L, bk, R, rfl, rfl, ho, psum_sizes_append L (bk :: R), getD_split L bk R []⟩

theorem len_sub_add (a b : Nat) : len_sub (a + b) a = b := by
  unfold len_sub
  rw [if_pos (by omega)]
  omega

/-- The pair computed by `_place` for a rank below the total length. -/
theorem place_spec (s : sorted_list α) (hlen : s._len = s._list.flatten.length)
    (hix : IndexOK s) (r : Nat) (hr : r < s._len) (hn : s._list.length ≤ 2 ^ 63) :
    ∃ b o, (_place r s).1 = .ok (b, o) ∧ psum (sizes s._list) b + o = r ∧
      o < (sizes s._list).getD b 0 := by
  unfold _place
  rw [if_neg (by omega)]
  cases hl : s._list with
  | nil =>
    rw [hl] at hlen
    simp at hlen
    omega
  | cons b0 rest =>
    simp only [List.head?_cons]
    by_cases hfast : r < b0.length
    · rw [if_pos hfast]
      refine ⟨0, r, rfl, by rw [psum_zero]; omega, ?_⟩
      simpa [sizes] using hfast
    · rw [if_neg hfast]
      have hflat : s._list.flatten.length = b0.length + rest.flatten.length := by
        rw [hl]; simp
      have h2 : 2 ≤ s._list.length := by
        cases rest with
        | nil =>
          simp only [List.flatten_nil, List.length_nil, Nat.add_zero] at hflat
          omega
        | cons c rest' => rw [hl]; simp
      have hn' : s._list.length ≤ 2 ^ 63 := hn
      obtain ⟨-, -, -, -, hoff, ht⟩ := ensure_tree s hix h2 hn'
      obtain ⟨D, aux, hD, hle, -⟩ := bit_trick_shape _ h2 hn'
      have hszlen := sizes_length s._list
      have htot : psum (sizes s._list) (2 ^ D) = s._list.flatten.length :=
        psum_sizes_total s._list (2 ^ D) hle
      have hfuel : D < 2 ^ D := Nat.lt_two_pow D
      obtain ⟨b, o, hb1, hb2, hb3⟩ := place_loop_ok (sizes s._list) _ _ D ht hD
        (by omega) D 0 (by omega) 0 (by simp) r
        (if s._index.length = 0 then _build_index s else s)._index.length
        (by have := ht.1; omega)
        (by simp only [Nat.mul_zero, psum_zero, Nat.zero_add]; rw [htot]; omega)
      simp only [pow_zero, Nat.sub_self, Nat.add_zero, Nat.zero_mul, Nat.zero_add,
        Nat.mul_zero, psum_zero] at hb1 hb2
      refine ⟨b, o, ?_, by rw [← hl]; exact hb2, by rw [← hl]; exact hb3⟩
      simp only [hb1, hoff, len_sub_add]

theorem place_data (s : sorted_list α) (r : Nat) :
    (_place r s).2._list = s._list ∧ (_place r s).2._max = s._max ∧
      (_place r s).2._len = s._len ∧ (_place r s).2._load = s._load := by
  unfold _place
  split
  · exact ⟨rfl, rfl, rfl, rfl⟩
  · split
    · exact ⟨rfl, rfl, rfl, rfl⟩
    · split
      · exact ⟨rfl, rfl, rfl, rfl⟩
      · by_cases h0 : s._index.length = 0
        · simp only [if_pos h0]
          exact build_index_data s
        · simp only [if_neg h0]
          exact ⟨trivial, trivial, trivial, trivial⟩

theorem place_index (s : sorted_list α) (hlen : s._len = s._list.flatten.length)
    (hix : IndexOK s) (r : Nat) (hr : r < s._len) : IndexOK (_place r s).2 := by
  unfold _place
  rw [if_neg (by omega)]
  cases hl : s._list with
  | nil =>
    rw [hl] at hlen
    simp at hlen
    omega
  | cons b0 rest =>
    simp only [List.head?_cons]
    by_cases hfast : r < b0.length
    · rw [if_pos hfast]; exact hix
    · rw [if_neg hfast]
      have hflat : s._list.flatten.length = b0.length + rest.flatten.length := by
        rw [hl]; simp
      have h2 : 2 ≤ s._list.length := by
        cases rest with
        | nil =>
          simp only [List.flatten_nil, List.length_nil, Nat.add_zero] at hflat
          omega
        | cons c rest' => rw [hl]; simp
      exact ensure_index s hix h2

end positions

end sortc


namespace sortc

section delete_lemmas
variable {α : Type}

theorem getD_split_succ {β : Type} (L : List β) (x y : β) (R : List β) (d : β) :
    (L ++ x :: y :: R).getD (L.length + 1) d = y := by
  have h := getD_split (L ++ [x]) y R d
  simpa using h

theorem merge_lists {β : Type} (L : List β) (x y z : β) (R : List β) :
    ((L ++ x :: y :: R).set L.length z).eraseIdx (L.length + 1) = L ++ z :: R := by
  rw [set_split]
  have h := eraseIdx_split (L ++ [z]) y R
  simpa using h

theorem merge_maxes (ML : List α) (u v m : α) (MR : List α) (merged : List α)
    (hm : merged.getLast? = some m) :
    (set_back (ML ++ u :: v :: MR) ML.length merged).eraseIdx (ML.length + 1)
      = ML ++ m :: MR := by
  simp only [set_back, hm]
  exact merge_lists ML u v m MR

theorem expand_index_nil (i : Nat) (s : sorted_list α) (h : s._index = []) :
    (_expand i s)._index = [] := by
  unfold _expand
  simp only
  split
  · split
    · exact h
    · rfl
  · split
    · rename_i h1
      rw [h] at h1
      simp at h1
    · exact h

theorem len_sub_one (a : Nat) (h : 1 ≤ a) : len_sub a 1 = a - 1 := by
  unfold len_sub
  rw [if_pos h]

theorem dec_additive :
    ∀ x y, 1 ≤ x → len_sub (x + y) 1 = len_sub x 1 + y ∧ len_sub (y + x) 1 = y + len_sub x 1 ∧
      1 ≤ x + y ∧ 1 ≤ y + x := by
  intro x y hx
  rw [len_sub_one (x + y) (by omega), len_sub_one (y + x) (by omega), len_sub_one x hx]
  omega

theorem inc_additive :
    ∀ x y, True → (x + y) + 1 = (x + 1) + y ∧ (y + x) + 1 = y + (x + 1) ∧ True ∧ True := by
  intro x y _
  exact ⟨by omega, by omega, trivial, trivial⟩

theorem sizes_split (L R : List (List α)) (b : List α) (p : Nat) :
    (sizes (L ++ b :: R)).getD p 0 =
      if p = L.length then b.length else (sizes (L ++ [] :: R)).getD p 0 := by
  rw [← sizes_getD, ← sizes_getD]
  by_cases hp : p = L.length
  · rw [if_pos hp, hp, getD_split]
  · rw [if_neg hp]
    rw [List.getD_eq_getElem?_getD, List.getD_eq_getElem?_getD]
    by_cases hlt : p < L.length
    · rw [List.getElem?_append_left hlt, List.getElem?_append_left hlt]
    · rw [List.getElem?_append_right (by omega), List.getElem?_append_right (by omega)]
      obtain ⟨q, hq⟩ : ∃ q, p - L.length = q + 1 := ⟨p - L.length - 1, by omega⟩
      rw [hq]
      simp

/-- An in-place update of the index after the size of bucket `L.length` changed from
`b.length` to `f b.length` keeps the index consistent. -/
theorem index_update_ok (f : Nat → Nat) (P : Nat → Prop)
    (hf : ∀ x y, P x → f (x + y) = f x + y ∧ f (y + x) = y + f x ∧ P (x + y) ∧ P (y + x))
    (L R : List (List α)) (b b' : List α) (ix : List Nat) (off : Nat)
    (hix : ix ≠ [] → 2 ≤ (L ++ b :: R).length ∧ off = _bit_trick (L ++ b :: R).length ∧
      ((L ++ b :: R).length ≤ 2 ^ 63 → TreeOK (sizes (L ++ b :: R)) ix off))
    (hP : P b.length) (hb' : b'.length = f b.length) (hne : ix ≠ []) :
    2 ≤ (L ++ b' :: R).length ∧ off = _bit_trick (L ++ b' :: R).length ∧
      ((L ++ b' :: R).length ≤ 2 ^ 63 →
        TreeOK (sizes (L ++ b' :: R)) (update_path f (off + L.length) ix) off) := by
  obtain ⟨h2, hoff, ht⟩ := hix hne
  have hlen : (L ++ b' :: R).length = (L ++ b :: R).length := by simp
  rw [hlen]
  refine ⟨h2, hoff, fun hn => ?_⟩
  obtain ⟨D, aux, hD, hle, -⟩ := bit_trick_shape _ h2 hn
  have hsz : (sizes (L ++ b :: R)).length = (L ++ b :: R).length := sizes_length _
  have hLlt : L.length < (L ++ b :: R).length := by simp
  apply update_path_ok f P hf (sizes (L ++ b :: R)) (sizes (L ++ b' :: R)) ix off L.length
    (ht hn) (by omega) (by omega) (by rw [sizes_length, sizes_length, hlen])
  · rw [sizes_split, if_pos rfl]; exact hP
  · rw [sizes_split, if_pos rfl, sizes_split L R b, if_pos rfl, hb']
  · intro p hp
    rw [sizes_split, if_neg hp, sizes_split L R b, if_neg hp]

end delete_lemmas

end sortc


namespace sortc

section delete
variable {α : Type} [LinearOrder α]

theorem merged_state_ok (len load off : Nat) (L2 R2 : List (List α)) (x y : List α)
    (hp : 0 < load) (hL : ∀ c ∈ L2, c ≠ []) (hR : ∀ c ∈ R2, c ≠ []) (hxy : x ++ y ≠ [])
    (hs : (L2.flatten ++ (x ++ y) ++ R2.flatten).Pairwise (· ≤ ·)) :
    BucketsOK (_expand L2.length
      { _len := len, _load := load, _list := L2 ++ (x ++ y) :: R2,
        _max := maxes (L2 ++ (x ++ y) :: R2), _index := [], _off := off }) ∧
    (_expand L2.length
      { _len := len, _load := load, _list := L2 ++ (x ++ y) :: R2,
        _max := maxes (L2 ++ (x ++ y) :: R2), _index := [], _off := off })._list.flatten
      = L2.flatten ++ (x ++ y) ++ R2.flatten ∧
    (_expand L2.length
      { _len := len, _load := load, _list := L2 ++ (x ++ y) :: R2,
        _max := maxes (L2 ++ (x ++ y) :: R2), _index := [], _off := off })._len = len ∧
    (_expand L2.length
      { _len := len, _load := load, _list := L2 ++ (x ++ y) :: R2,
        _max := maxes (L2 ++ (x ++ y) :: R2), _index := [], _off := off })._load = load ∧
    IndexOK (_expand L2.length
      { _len := len, _load := load, _list := L2 ++ (x ++ y) :: R2,
        _max := maxes (L2 ++ (x ++ y) :: R2), _index := [], _off := off }) ∧
    ((2 ≤ (L2 ++ (x ++ y) :: R2).length →
        ∀ c ∈ L2 ++ (x ++ y) :: R2, load / 2 < c.length) →
      Balanced (_expand L2.length
        { _len := len, _load := load, _list := L2 ++ (x ++ y) :: R2,
          _max := maxes (L2 ++ (x ++ y) :: R2), _index := [], _off := off })) := by
  have hok : BucketsOK
      ({ _len := len, _load := load, _list := L2 ++ (x ++ y) :: R2,
         _max := maxes (L2 ++ (x ++ y) :: R2), _index := [], _off := off } : sorted_list α) := by
    refine ⟨hp, ?_, ?_, rfl⟩
    · intro c hc
      simp only [List.mem_append, List.mem_cons] at hc
      rcases hc with hc | rfl | hc
      · exact hL c hc
      · exact hxy
      · exact hR c hc
    · simpa [List.flatten_append, List.flatten_cons] using hs
  obtain ⟨h1, h2, h3, h4⟩ := expand_buckets _ L2 R2 (x ++ y) rfl hok
  refine ⟨h1, ?_, h3, h4, ?_, fun hbal => expand_balanced _ L2 R2 (x ++ y) rfl hok hbal⟩
  · rw [h2]; simp [List.flatten_append, List.flatten_cons]
  · intro hne
    exact absurd (expand_index_nil _ _ rfl) hne

end delete

end sortc


namespace sortc

section delete
variable {α : Type} [LinearOrder α]

/-- What `_delete` does to a state that satisfies the invariants when asked to erase
offset `j` of the bucket at position `L.length`. -/
theorem delete_spec (s : sorted_list α) (L R : List (List α)) (b : List α) (j : Nat)
    (hl : s._list = L ++ b :: R) (hj : j < b.length) (h : Inv s) :
    BucketsOK (_delete L.length j s) ∧
    (_delete L.length j s)._list.flatten = L.flatten ++ b.eraseIdx j ++ R.flatten ∧
    (_delete L.length j s)._len = s._len - 1 ∧
    (_delete L.length j s)._load = s._load ∧
    IndexOK (_delete L.length j s) ∧
    (Balanced s → Balanced (_delete L.length j s)) := by
  obtain ⟨⟨hp, hne, hs, hm⟩, hlen, hix⟩ := h
  obtain ⟨len, load, list, mx, ix, off⟩ := s
  simp only at hl hp hne hs hm hlen
  unfold IndexOK at hix
  simp only at hix
  subst hl
  subst hm
  have hLne : ∀ c ∈ L, c ≠ [] := fun c hc => hne c (by simp [hc])
  have hRne : ∀ c ∈ R, c ≠ [] := fun c hc => hne c (by simp [hc])
  have hbne : b ≠ [] := hne b (by simp)
  obtain ⟨m, hbm⟩ := last_some_of_ne_nil b hbne
  have hmL : (maxes L).length = L.length := maxes_length L hLne
  have hmx : maxes (L ++ b :: R) = maxes L ++ m :: maxes R := by
    rw [maxes_append, maxes_cons b m R hbm]
  have hlen1 : 1 ≤ len := by
    rw [hlen]
    simp only [List.flatten_append, List.flatten_cons, List.length_append]
    omega
  have hsub : (L.flatten ++ b.eraseIdx j ++ R.flatten).Pairwise (· ≤ ·) := by
    refine List.Pairwise.sublist ?_ hs
    simp only [List.flatten_append, List.flatten_cons, List.append_assoc]
    exact List.Sublist.append (List.Sublist.refl _)
      (List.Sublist.append (List.eraseIdx_sublist b j) (List.Sublist.refl _))
  have hb'len : (b.eraseIdx j).length = b.length - 1 := List.length_eraseIdx_of_lt hj
  unfold _delete
  simp only [getD_split, set_split, len_sub_one len hlen1]
  by_cases hbig : (b.eraseIdx j).length > load / 2
  · -- the bucket stays large enough: refresh its maximum, update the index in place
    rw [if_pos hbig]
    have hb'ne : b.eraseIdx j ≠ [] := by
      intro hc
      rw [hc] at hbig
      simp at hbig
    obtain ⟨m', hbm'⟩ := last_some_of_ne_nil _ hb'ne
    have hmax : set_back (maxes (L ++ b :: R)) L.length (b.eraseIdx j)
        = maxes (L ++ b.eraseIdx j :: R) := by
      rw [hmx, maxes_append, maxes_cons _ m' R hbm']
      simp only [set_back, hbm']
      rw [← hmL, set_split]
    rw [hmax]
    refine ⟨⟨hp, ?_, ?_, rfl⟩, ?_, rfl, rfl, ?_, ?_⟩
    · intro c hc
      simp only [List.mem_append, List.mem_cons] at hc
      rcases hc with hc | rfl | hc
      · exact hLne c hc
      · exact hb'ne
      · exact hRne c hc
    · simpa [List.flatten_append, List.flatten_cons] using hsub
    · simp [List.flatten_append, List.flatten_cons]
    rotate_left
    · intro hbal h2 c hc
      have h2' : 2 ≤ (L ++ b :: R).length := by simpa using h2
      have hc' : c ∈ L ++ b.eraseIdx j :: R := hc
      simp only [List.mem_append, List.mem_cons] at hc'
      rcases hc' with hc' | rfl | hc'
      · exact hbal h2' c (by simp [hc'])
      · exact hbig
      · exact hbal h2' c (by simp [hc'])
    · unfold IndexOK
      simp only
      by_cases h0 : ix.length ≠ 0
      · rw [if_pos h0]
        intro _
        have hne0 : ix ≠ [] := fun hc => h0 (by rw [hc]; rfl)
        exact index_update_ok (fun c => len_sub c 1) (fun x => 1 ≤ x) dec_additive L R b
          (b.eraseIdx j) ix off hix (by omega)
          (by show (b.eraseIdx j).length = len_sub b.length 1
              rw [hb'len, len_sub_one _ (by omega)]) hne0
      · rw [if_neg h0]
        intro hc
        exact absurd (List.length_eq_zero.mp (not_not.mp h0)) hc
  · rw [if_neg hbig]
    by_cases hmulti : (L ++ b.eraseIdx j :: R).length > 1
    · -- merge with a neighbour, then re-check the size
      rw [if_pos hmulti]
      by_cases hL0 : L.length = 0
      · have hLnil : L = [] := List.length_eq_zero.mp hL0
        subst hLnil
        obtain ⟨c, R', rfl⟩ : ∃ c R', R = c :: R' := by
          cases R with
          | nil => simp at hmulti
          | cons c R' => exact ⟨c, R', rfl⟩
        have hcne : c ≠ [] := hRne c (by simp)
        obtain ⟨mc, hcm⟩ := last_some_of_ne_nil c hcne
        have hmerged : (b.eraseIdx j ++ c).getLast? = some mc := by
          obtain ⟨ys, hys⟩ := List.getLast?_eq_some_iff.mp hcm
          rw [List.getLast?_eq_some_iff]
          exact ⟨b.eraseIdx j ++ ys, by rw [hys]; simp⟩
        have hlist : (([] ++ b.eraseIdx j :: c :: R').set 0
            (([] ++ b.eraseIdx j :: c :: R').getD 0 [] ++ ([] ++ b.eraseIdx j :: c :: R').getD 1 [])).eraseIdx 1
            = [] ++ (b.eraseIdx j ++ c) :: R' := by
          simp
        have hmaxes : (set_back (maxes ([] ++ b :: c :: R')) 0
            (([] ++ b.eraseIdx j :: c :: R').getD 0 [] ++ ([] ++ b.eraseIdx j :: c :: R').getD 1 [])).eraseIdx 1
            = maxes ([] ++ (b.eraseIdx j ++ c) :: R') := by
          have e : ([] ++ b.eraseIdx j :: c :: R').getD 0 [] ++ ([] ++ b.eraseIdx j :: c :: R').getD 1 []
              = b.eraseIdx j ++ c := by simp
          rw [e, List.nil_append, List.nil_append, maxes_cons b m _ hbm, maxes_cons c mc _ hcm,
            maxes_cons _ mc _ hmerged]
          exact merge_maxes [] m mc mc (maxes R') _ hmerged
        simp only [List.length_nil, if_true, Nat.zero_add, Nat.add_sub_cancel]
        rw [hlist, hmaxes]
        have key := merged_state_ok (len - 1) load off [] R' (b.eraseIdx j) c hp (by simp)
          (fun d hd => hRne d (by simp [hd])) (by simp [hcne])
          (by simpa [List.flatten_cons, List.append_assoc] using hsub)
        simp only [List.length_nil] at key
        refine ⟨key.1, ?_, key.2.2.1, key.2.2.2.1, key.2.2.2.2.1, ?_⟩
        · rw [key.2.1]
          simp [List.flatten_cons, List.append_assoc]
        · intro hbal
          have hall : ∀ d ∈ ([] ++ b :: c :: R' : List (List α)), load / 2 < d.length :=
            hbal (by simp)
          apply key.2.2.2.2.2
          intro _ d hd
          simp only [List.nil_append, List.mem_cons] at hd
          rcases hd with rfl | hd
          · have := hall c (by simp)
            rw [List.length_append]
            omega
          · exact hall d (by simp [hd])
      · obtain ⟨L', a, rfl⟩ : ∃ L' a, L = L' ++ [a] := by
          rcases List.eq_nil_or_concat L with hnil | ⟨L', a, hLa⟩
          · rw [hnil] at hL0; simp at hL0
          · exact ⟨L', a, by rw [hLa, List.concat_eq_append]⟩
        have hane : a ≠ [] := hLne a (by simp)
        have hL'ne : ∀ c ∈ L', c ≠ [] := fun c hc => hLne c (by simp [hc])
        obtain ⟨ma, ham⟩ := last_some_of_ne_nil a hane
        have hmerged_ne : a ++ b.eraseIdx j ≠ [] := by simp [hane]
        obtain ⟨mm, hmm⟩ := last_some_of_ne_nil _ hmerged_ne
        have hmL' : (maxes L').length = L'.length := maxes_length L' hL'ne
        have hidx : (L' ++ [a]).length = L'.length + 1 := by simp
        have hlst : (L' ++ [a]) ++ b.eraseIdx j :: R = L' ++ a :: b.eraseIdx j :: R := by simp
        have hi' : (if L'.length + 1 = 0 then L'.length + 1 + 1 else L'.length + 1)
            = L'.length + 1 := by rw [if_neg (by omega)]
        rw [hidx, hlst, hi']
        simp only [Nat.add_sub_cancel, getD_split, getD_split_succ, merge_lists]
        have hmaxes : (set_back (maxes ((L' ++ [a]) ++ b :: R)) L'.length
            (a ++ b.eraseIdx j)).eraseIdx (L'.length + 1)
            = maxes (L' ++ (a ++ b.eraseIdx j) :: R) := by
          rw [maxes_append, maxes_append, maxes_cons a ma [] ham, maxes_cons b m R hbm,
            maxes_append, maxes_cons _ mm R hmm, maxes_nil]
          have := merge_maxes (maxes L') ma m mm (maxes R) _ hmm
          rw [hmL'] at this
          simpa using this
        rw [hmaxes]
        have key := merged_state_ok (len - 1) load off L' R a (b.eraseIdx j) hp hL'ne hRne
          hmerged_ne
          (by simpa [List.flatten_append, List.flatten_cons, List.append_assoc] using hsub)
        refine ⟨key.1, ?_, key.2.2.1, key.2.2.2.1, key.2.2.2.2.1, ?_⟩
        · rw [key.2.1]
          simp [List.flatten_append, List.flatten_cons, List.append_assoc]
        · intro hbal
          have hall : ∀ d ∈ ((L' ++ [a]) ++ b :: R : List (List α)), load / 2 < d.length :=
            hbal (by simp only [List.length_append, List.length_cons, List.length_nil]; omega)
          apply key.2.2.2.2.2
          intro _ d hd
          simp only [List.mem_append, List.mem_cons] at hd
          rcases hd with hd | rfl | hd
          · exact hall d (by simp [hd])
          · have := hall a (by simp)
            rw [List.length_append]
            omega
          · exact hall d (by simp [hd])
    · -- a single bucket is left
      rw [if_neg hmulti]
      have hLnil : L = [] := by
        cases L with
        | nil => rfl
        | cons c L' => simp at hmulti
      subst hLnil
      have hRnil : R = [] := by
        cases R with
        | nil => rfl
        | cons c R' => simp at hmulti
      subst hRnil
      have hixnil : ix = [] := by
        by_contra hc
        have := (hix hc).1
        simp at this
      subst hixnil
      by_cases hzero : (b.eraseIdx j).length = 0
      · rw [if_pos hzero]
        have hb'nil : b.eraseIdx j = [] := List.length_eq_zero.mp hzero
        simp only [List.nil_append, List.length_nil]
        rw [hb'nil, maxes_cons b m [] hbm]
        refine ⟨⟨hp, by simp, by simp, by simp [maxes]⟩, by simp, trivial, trivial, ?_, ?_⟩
        · intro hc
          exact absurd rfl hc
        · intro _ h2
          simp at h2
      · rw [if_neg hzero]
        have hb'ne : b.eraseIdx j ≠ [] := fun hc => hzero (by rw [hc]; rfl)
        obtain ⟨m', hbm'⟩ := last_some_of_ne_nil _ hb'ne
        have hmax : set_back (maxes ([] ++ [b])) 0 (b.eraseIdx j)
            = maxes ([] ++ [b.eraseIdx j]) := by
          rw [List.nil_append, List.nil_append, maxes_cons b m [] hbm,
            maxes_cons _ m' [] hbm']
          simp [set_back, hbm', maxes]
        simp only [List.length_nil]
        rw [hmax]
        refine ⟨⟨hp, by simpa using hb'ne, by simpa using hsub, rfl⟩, by simp, trivial,
          trivial, ?_, ?_⟩
        · intro hc
          exact absurd rfl hc
        · intro _ h2
          simp at h2

end delete

end sortc


namespace sortc

section inv_add
variable {α : Type} [LinearOrder α]

theorem add_index (s : sorted_list α) (h : Inv s) (el : α) : IndexOK (add el s) := by
  obtain ⟨hb, hlen, hix⟩ := h
  rcases add_cases s hb el with ⟨hnil, heq⟩ | ⟨L, b, R, b', hl, hins, hpre, -, heq⟩
  · rw [heq]
    intro hne
    have := (hix hne).1
    rw [hnil] at this
    simp at this
  · rw [heq]
    have hL : ∀ c ∈ L, c ≠ [] := fun c hc => hb.nonempty c (by rw [hl]; simp [hc])
    have hb'ne : b' ≠ [] := hpre.nonempty b' (by simp [add_pre])
    have hex := expand_eq (add_pre s L R b') L R b' rfl hL rfl hb'ne hpre.load_pos
    show IndexOK { _expand L.length (add_pre s L R b') with
      _len := (_expand L.length (add_pre s L R b'))._len + 1 }
    unfold IndexOK
    simp only
    rw [hex]
    by_cases hbig : b'.length > (add_pre s L R b')._load * 2
    · rw [if_pos hbig]
      intro hne
      exact absurd rfl hne
    · rw [if_neg hbig]
      by_cases h0 : (add_pre s L R b')._index.length ≠ 0
      · rw [if_pos h0]
        have hne0 : s._index ≠ [] := fun hc => h0 (by simp [add_pre, hc])
        intro _
        have hix' : s._index ≠ [] → 2 ≤ (L ++ b :: R).length ∧
            s._off = _bit_trick (L ++ b :: R).length ∧
            ((L ++ b :: R).length ≤ 2 ^ 63 → TreeOK (sizes (L ++ b :: R)) s._index s._off) := by
          rw [← hl]; exact hix
        exact index_update_ok (fun c => c + 1) (fun _ => True) inc_additive L R b b'
          s._index s._off hix' trivial hins.length hne0
      · rw [if_neg h0]
        intro hne
        exact absurd (List.length_eq_zero.mp (not_not.mp h0)) hne

theorem add_inv (s : sorted_list α) (h : Inv s) (el : α) : Inv (add el s) := by
  refine ⟨add_buckets s h.buckets el, ?_, add_index s h el⟩
  rw [add_len s h.buckets el, h.len_eq]
  exact ((add_view s h.buckets el).length).symm

theorem add_balanced (s : sorted_list α) (h : BucketsOK s) (hbal : Balanced s) (el : α) :
    Balanced (add el s) := by
  rcases add_cases s h el with ⟨hnil, heq⟩ | ⟨L, b, R, b', hl, hins, hpre, -, heq⟩
  · rw [heq]
    intro h2
    simp at h2
  · rw [heq]
    have hpb : Balanced (add_pre s L R b') := by
      intro h2 c hc
      have h2' : 2 ≤ s._list.length := by
        rw [hl]
        simpa [add_pre] using h2
      have hall := hbal h2'
      have hc' : c ∈ L ++ b' :: R := hc
      show s._load / 2 < c.length
      simp only [List.mem_append, List.mem_cons] at hc'
      rcases hc' with hc' | rfl | hc'
      · exact hall c (by rw [hl]; simp [hc'])
      · have := hall b (by rw [hl]; simp)
        rw [hins.length]
        omega
      · exact hall c (by rw [hl]; simp [hc'])
    exact expand_balanced (add_pre s L R b') L R b' rfl hpre hpb

theorem with_load_inv (load : Nat) (h : 0 < load) : Inv (with_load α load) :=
  ⟨with_load_buckets load h, rfl, fun hne => absurd rfl hne⟩

theorem clear_inv (s : sorted_list α) (h : Inv s) : Inv (clear s) :=
  ⟨⟨h.buckets.load_pos, by simp [clear], by simp [clear], by simp [clear, maxes]⟩, rfl,
    fun hne => absurd rfl hne⟩

end inv_add

section dispatch
variable {α : Type} [LinearOrder α]

/-- The bucket picked by the lower-bound search over the maxima, and the offset picked by
the lower-bound search inside it, split the flattened view into the elements below `el`
and the elements not below `el`. -/
theorem lower_dispatch (s : sorted_list α) (h : BucketsOK s) (el : α) :
    (lower_bound s._max el = s._max.length ∧ ∀ x ∈ s._list.flatten, x < el) ∨
    (lower_bound s._max el < s._max.length ∧ ∃ L b R, s._list = L ++ b :: R ∧
      L.length = lower_bound s._max el ∧ lower_bound b el < b.length ∧
      (∀ x ∈ L.flatten ++ b.take (lower_bound b el), x < el) ∧
      (∀ x ∈ b.drop (lower_bound b el) ++ R.flatten, el ≤ x)) := by
  obtain ⟨hp, hne, hs, hm⟩ := h
  have hmlen := maxes_length s._list hne
  have hmsort := maxes_sorted s._list hs
  rw [hm]
  by_cases hi : lower_bound (maxes s._list) el = (maxes s._list).length
  · left
    refine ⟨hi, ?_⟩
    have := lower_bound_take (maxes s._list) el
    rw [hi, List.take_length] at this
    exact flatten_lt_of_maxes_lt s._list el hs this
  · right
    have hlt : lower_bound (maxes s._list) el < (maxes s._list).length := by
      have := lower_bound_le (maxes s._list) el
      omega
    refine ⟨hlt, ?_⟩
    obtain ⟨L, b, R, hl, hLlen⟩ := split_at s._list _ (by rw [← hmlen]; exact hlt)
    rw [hl] at hne hs hmsort hLlen ⊢
    have hLne : ∀ c ∈ L, c ≠ [] := fun c hc => hne c (by simp [hc])
    have hbne : b ≠ [] := hne b (by simp)
    obtain ⟨m, hbm⟩ := last_some_of_ne_nil b hbne
    have hmL : (maxes L).length = L.length := maxes_length L hLne
    have hmx : maxes (L ++ b :: R) = maxes L ++ m :: maxes R := by
      rw [maxes_append, maxes_cons b m R hbm]
    have htake : (maxes (L ++ b :: R)).take (lower_bound (maxes (L ++ b :: R)) el)
        = maxes L := by
      rw [← hLlen, hmx, ← hmL, List.take_left]
    have hdrop : (maxes (L ++ b :: R)).drop (lower_bound (maxes (L ++ b :: R)) el)
        = m :: maxes R := by
      rw [← hLlen, hmx, ← hmL, List.drop_left]
    have hLlt : ∀ x ∈ maxes L, x < el := by
      have := lower_bound_take (maxes (L ++ b :: R)) el
      rwa [htake] at this
    have hmge : el ≤ m := by
      have := lower_bound_drop (maxes (L ++ b :: R)) el hmsort
      rw [hdrop] at this
      exact this m (by simp)
    have hs' := hs
    simp only [List.flatten_append, List.flatten_cons] at hs'
    rw [List.pairwise_append] at hs'
    obtain ⟨hsL, hsbR, -⟩ := hs'
    rw [List.pairwise_append] at hsbR
    obtain ⟨hsb, -, hbR⟩ := hsbR
    have hmb : m ∈ b := by
      obtain ⟨ys, rfl⟩ := List.getLast?_eq_some_iff.mp hbm
      simp
    have hP := lower_bound_take b el
    have hQ := lower_bound_drop b el hsb
    have hjlt : lower_bound b el < b.length := by
      by_contra hc
      have hfull : b.take (lower_bound b el) = b := List.take_of_length_le (by omega)
      rw [hfull] at hP
      exact absurd (hP m hmb) (not_lt.mpr hmge)
    refine ⟨L, b, R, rfl, hLlen, hjlt, ?_, ?_⟩
    · intro x hx
      rcases List.mem_append.mp hx with hx | hx
      · exact flatten_lt_of_maxes_lt L el hsL hLlt x hx
      · exact hP x hx
    · intro x hx
      rcases List.mem_append.mp hx with hx | hx
      · exact hQ x hx
      · exact le_trans hmge (hbR m hmb x hx)

/-- The bucket picked by the upper-bound search over the maxima, and the offset picked by
the upper-bound search inside it, split the flattened view into the elements not above
`el` and the elements above `el`. -/
theorem upper_dispatch (s : sorted_list α) (h : BucketsOK s) (el : α) :
    (upper_bound s._max el = s._max.length ∧ ∀ x ∈ s._list.flatten, x ≤ el) ∨
    (upper_bound s._max el < s._max.length ∧ ∃ L b R, s._list = L ++ b :: R ∧
      L.length = upper_bound s._max el ∧ upper_bound b el < b.length ∧
      (∀ x ∈ L.flatten ++ b.take (upper_bound b el), x ≤ el) ∧
      (∀ x ∈ b.drop (upper_bound b el) ++ R.flatten, el < x)) := by
  obtain ⟨hp, hne, hs, hm⟩ := h
  have hmlen := maxes_length s._list hne
  have hmsort := maxes_sorted s._list hs
  rw [hm]
  by_cases hi : upper_bound (maxes s._list) el = (maxes s._list).length
  · left
    refine ⟨hi, ?_⟩
    have := upper_bound_take (maxes s._list) el
    rw [hi, List.take_length] at this
    exact flatten_le_of_maxes_le s._list el hs this
  · right
    have hlt : upper_bound (maxes s._list) el < (maxes s._list).length := by
      have := upper_bound_le (maxes s._list) el
      omega
    refine ⟨hlt, ?_⟩
    obtain ⟨L, b, R, hl, hLlen⟩ := split_at s._list _ (by rw [← hmlen]; exact hlt)
    rw [hl] at hne hs hmsort hLlen ⊢
    have hLne : ∀ c ∈ L, c ≠ [] := fun c hc => hne c (by simp [hc])
    have hbne : b ≠ [] := hne b (by simp)
    obtain ⟨m, hbm⟩ := last_some_of_ne_nil b hbne
    have hmL : (maxes L).length = L.length := maxes_length L hLne
    have hmx : maxes (L ++ b :: R) = maxes L ++ m :: maxes R := by
      rw [maxes_append, maxes_cons b m R hbm]
    have htake : (maxes (L ++ b :: R)).take (upper_bound (maxes (L ++ b :: R)) el)
        = maxes L := by
      rw [← hLlen, hmx, ← hmL, List.take_left]
    have hdrop : (maxes (L ++ b :: R)).drop (upper_bound (maxes (L ++ b :: R)) el)
        = m :: maxes R := by
      rw [← hLlen, hmx, ← hmL, List.drop_left]
    have hLle : ∀ x ∈ maxes L, x ≤ el := by
      have := upper_bound_take (maxes (L ++ b :: R)) el
      rwa [htake] at this
    have hmgt : el < m := by
      have := upper_bound_drop (maxes (L ++ b :: R)) el hmsort
      rw [hdrop] at this
      exact this m (by simp)
    have hs' := hs
    simp only [List.flatten_append, List.flatten_cons] at hs'
    rw [List.pairwise_append] at hs'
    obtain ⟨hsL, hsbR, -⟩ := hs'
    rw [List.pairwise_append] at hsbR
    obtain ⟨hsb, -, hbR⟩ := hsbR
    have hmb : m ∈ b := by
      obtain ⟨ys, rfl⟩ := List.getLast?_eq_some_iff.mp hbm
      simp
    have hP := upper_bound_take b el
    have hQ := upper_bound_drop b el hsb
    have hjlt : upper_bound b el < b.length := by
      by_contra hc
      have hfull : b.take (upper_bound b el) = b := List.take_of_length_le (by omega)
      rw [hfull] at hP
      exact absurd (hP m hmb) (not_le.mpr hmgt)
    refine ⟨L, b, R, rfl, hLlen, hjlt, ?_, ?_⟩
    · intro x hx
      rcases List.mem_append.mp hx with hx | hx
      · exact flatten_le_of_maxes_le L el hsL hLle x hx
      · exact hP x hx
    · intro x hx
      rcases List.mem_append.mp hx with hx | hx
      · exact hQ x hx
      · exact lt_of_lt_of_le hmgt (hbR m hmb x hx)

end dispatch

end sortc


namespace sortc

section found
variable {α : Type} [LinearOrder α]

omit [LinearOrder α] in
theorem flatten_split_take (L R : List (List α)) (b : List α) (j : Nat) :
    (L ++ b :: R).flatten = (L.flatten ++ b.take j) ++ (b.drop j ++ R.flatten) := by
  simp only [List.flatten_append, List.flatten_cons, List.append_assoc]
  rw [← List.append_assoc (b.take j), List.take_append_drop]

/-- The candidate looked at by `contains`, `find` and `remove`: it is the first element of
the flattened view that is not below `el`, so it equals `el` exactly when `el` occurs. -/
theorem lower_found (s : sorted_list α) (h : BucketsOK s) (el : α)
    (hlt : lower_bound s._max el < s._max.length) :
    ∃ L b R q, s._list = L ++ b :: R ∧ L.length = lower_bound s._max el ∧
      lower_bound b el < b.length ∧ b.get? (lower_bound b el) = some q ∧
      b.drop (lower_bound b el) = q :: b.drop (lower_bound b el + 1) ∧
      (∀ x ∈ L.flatten ++ b.take (lower_bound b el), x < el) ∧
      (∀ x ∈ b.drop (lower_bound b el) ++ R.flatten, el ≤ x) ∧
      (q = el ↔ el ∈ s._list.flatten) := by
  rcases lower_dispatch s h el with ⟨heq, -⟩ | ⟨-, L, b, R, hl, hL, hj, hA, hB⟩
  · omega
  · have hdrop : b.drop (lower_bound b el) = b[lower_bound b el] :: b.drop (lower_bound b el + 1) :=
      List.drop_eq_getElem_cons hj
    have hget : b.get? (lower_bound b el) = some b[lower_bound b el] := by
      rw [List.get?_eq_getElem?, List.getElem?_eq_getElem hj]
    generalize b[lower_bound b el] = q at hdrop hget
    refine ⟨L, b, R, q, hl, hL, hj, hget, hdrop, hA, hB, ?_⟩
    have hs := h.sorted
    rw [hl, flatten_split_take L R b (lower_bound b el), List.pairwise_append] at hs
    obtain ⟨-, hsB, -⟩ := hs
    rw [hdrop, List.cons_append, List.pairwise_cons] at hsB
    constructor
    · intro hq
      rw [hl, flatten_split_take L R b (lower_bound b el), hdrop, hq]
      simp
    · intro hmem
      rw [hl, flatten_split_take L R b (lower_bound b el)] at hmem
      rcases List.mem_append.mp hmem with hm | hm
      · exact absurd (hA el hm) (lt_irrefl el)
      · have hge : el ≤ q := hB _ (by rw [hdrop]; simp)
        rw [hdrop, List.cons_append] at hm
        rcases List.mem_cons.mp hm with hm | hm
        · exact hm.symm
        · exact le_antisymm (hsB.1 el hm) hge

theorem max_length_zero_iff (s : sorted_list α) (h : BucketsOK s) :
    s._max.length = 0 ↔ s._list = [] := by
  rw [h.max_eq, maxes_length s._list h.nonempty]
  exact List.length_eq_zero

theorem contains_iff (s : sorted_list α) (h : BucketsOK s) (el : α) :
    contains el s = true ↔ el ∈ get_view s := by
  unfold contains get_view
  by_cases h0 : s._max.length = 0
  · rw [if_pos h0, (max_length_zero_iff s h).mp h0]
    simp
  · rw [if_neg h0]
    by_cases hi : lower_bound s._max el = s._max.length
    · simp only [hi, if_true]
      rcases lower_dispatch s h el with ⟨-, hall⟩ | ⟨hlt, -⟩
      · constructor
        · intro hc; exact absurd hc (by simp)
        · intro hmem; exact absurd (hall el hmem) (lt_irrefl el)
      · omega
    · simp only [hi, if_false]
      have hlt : lower_bound s._max el < s._max.length := by
        have := lower_bound_le s._max el
        omega
      obtain ⟨L, b, R, q, hl, hL, hj, hq, -, -, -, hiff⟩ := lower_found s h el hlt
      rw [← hL, hl, getD_split, hq, ← hl]
      simp only [decide_eq_true_eq, Option.some.injEq]
      exact hiff

end found

end sortc


namespace sortc

section removal
variable {α : Type} [LinearOrder α]

omit [LinearOrder α] in
theorem flatten_eraseIdx_split (L R : List (List α)) (b : List α) (j : Nat) (hj : j < b.length) :
    (L ++ b :: R).flatten.eraseIdx (L.flatten.length + j)
      = L.flatten ++ b.eraseIdx j ++ R.flatten := by
  simp only [List.flatten_append, List.flatten_cons]
  rw [List.eraseIdx_append_of_length_le (by omega), Nat.add_sub_cancel_left,
    List.eraseIdx_append_of_lt_length hj, List.append_assoc]

theorem view_nonempty_list (s : sorted_list α) (h : Inv s) (h0 : s._len ≠ 0) :
    s._list ≠ [] := by
  intro hc
  have := h.len_eq
  rw [hc] at this
  simp at this
  exact h0 this

theorem remove_absent (s : sorted_list α) (h : Inv s) (el : α) (hmem : el ∉ get_view s) :
    remove el s = (false, s) := by
  unfold remove
  by_cases h0 : s._max.length = 0
  · rw [if_pos h0]
  · rw [if_neg h0]
    by_cases hi : lower_bound s._max el = s._max.length
    · simp only [hi, if_true]
    · simp only [hi, if_false]
      have hlt : lower_bound s._max el < s._max.length := by
        have := lower_bound_le s._max el
        omega
      obtain ⟨L, b, R, q, hl, hL, hj, hq, -, -, -, hiff⟩ := lower_found s h.buckets el hlt
      have hne : q ≠ el := fun hc => hmem (hiff.mp hc)
      rw [← hL, hl, getD_split, hq]
      simp [hne]

/-- The effect of `remove` when the value occurs: exactly the first occurrence goes. -/
theorem remove_present (s : sorted_list α) (h : Inv s) (el : α) (hmem : el ∈ get_view s) :
    (remove el s).1 = true ∧ get_view (remove el s).2 = (get_view s).erase el ∧
      size (remove el s).2 = size s - 1 ∧ Inv (remove el s).2 := by
  unfold remove
  have hlne : s._list ≠ [] := by
    intro hc
    simp [get_view, hc] at hmem
  have h0 : ¬ s._max.length = 0 := fun hc => hlne ((max_length_zero_iff s h.buckets).mp hc)
  rw [if_neg h0]
  have hi : ¬ lower_bound s._max el = s._max.length := by
    intro hc
    rcases lower_dispatch s h.buckets el with ⟨-, hall⟩ | ⟨hlt, -⟩
    · exact absurd (hall el hmem) (lt_irrefl el)
    · omega
  simp only [hi, if_false]
  have hlt : lower_bound s._max el < s._max.length := by
    have := lower_bound_le s._max el
    omega
  obtain ⟨L, b, R, q, hl, hL, hj, hq, hdrop, hA, -, hiff⟩ := lower_found s h.buckets el hlt
  have hqe : q = el := hiff.mpr hmem
  subst hqe
  have hspec := delete_spec s L R b (lower_bound b q) hl hj h
  rw [← hL]
  simp only [hl, getD_split, hq, ne_eq, not_true_eq_false, if_false]
  obtain ⟨d1, d2, d3, d4, d5, -⟩ := hspec
  refine ⟨trivial, ?_, d3, ⟨d1, ?_, d5⟩⟩
  · simp only [get_view]
    rw [d2, hl, flatten_split_take L R b (lower_bound b q), hdrop,
      List.erase_append_right _ (fun hc => absurd (hA q hc) (lt_irrefl q)),
      List.cons_append, List.erase_cons_head, List.eraseIdx_eq_take_drop_succ]
    simp only [List.append_assoc]
  · rw [d3, d2, h.len_eq, hl]
    have := List.length_eraseIdx_of_lt hj
    simp only [List.flatten_append, List.flatten_cons, List.length_append, this]
    omega

theorem remove_inv (s : sorted_list α) (h : Inv s) (el : α) : Inv (remove el s).2 := by
  by_cases hmem : el ∈ get_view s
  · exact (remove_present s h el hmem).2.2.2
  · rw [remove_absent s h el hmem]
    exact h

/-- The effect of `pop` on a non-empty container. -/
theorem pop_nonempty (s : sorted_list α) (h : Inv s) (h0 : s._len ≠ 0) :
    ∃ x, (pop s).1 = .ok x ∧ (get_view s).getLast? = some x ∧
      get_view (pop s).2 = (get_view s).dropLast ∧ size (pop s).2 = size s - 1 ∧
      Inv (pop s).2 := by
  have hlne := view_nonempty_list s h h0
  obtain ⟨L, b, hl⟩ : ∃ L b, s._list = L ++ [b] := by
    rcases List.eq_nil_or_concat s._list with hnil | ⟨L, b, hLb⟩
    · exact absurd hnil hlne
    · exact ⟨L, b, by rw [hLb, List.concat_eq_append]⟩
  have hbne : b ≠ [] := h.buckets.nonempty b (by rw [hl]; simp)
  obtain ⟨m, hbm⟩ := last_some_of_ne_nil b hbne
  have hblen : 0 < b.length := List.length_pos.mpr hbne
  have hj : b.length - 1 < b.length := by omega
  have hspec := delete_spec s L [] b (b.length - 1) hl hj h
  have hi : len_sub s._list.length 1 = L.length := by
    rw [hl, len_sub_one _ (by simp)]
    simp
  have hget : b.get? (b.length - 1) = some m := by
    rw [List.get?_eq_getElem?, ← List.getLast?_eq_getElem?, hbm]
  unfold pop
  rw [if_neg h0]
  simp only [hi]
  have hgd : s._list.getD L.length [] = b := by rw [hl]; exact getD_split L b [] []
  simp only [hgd, len_sub_one _ hblen, hget]
  obtain ⟨d1, d2, d3, d4, d5, -⟩ := hspec
  refine ⟨m, rfl, ?_, ?_, d3, ⟨d1, ?_, d5⟩⟩
  · simp only [get_view, hl, List.flatten_append, List.flatten_cons, List.flatten_nil,
      List.append_nil]
    obtain ⟨ys, hys⟩ := List.getLast?_eq_some_iff.mp hbm
    rw [List.getLast?_eq_some_iff]
    exact ⟨L.flatten ++ ys, by rw [hys]; simp⟩
  · simp only [get_view]
    rw [d2, hl]
    simp only [List.flatten_append, List.flatten_cons, List.flatten_nil, List.append_nil]
    rw [List.dropLast_append_of_ne_nil _ hbne,
      List.dropLast_eq_eraseIdx (show b.length - 1 + 1 = b.length by omega)]
  · rw [d3, d2, h.len_eq, hl]
    have := List.length_eraseIdx_of_lt hj
    simp only [List.flatten_append, List.flatten_cons, List.flatten_nil, List.length_append,
      this, List.length_nil]
    omega

omit [LinearOrder α] in
theorem pop_empty (s : sorted_list α) (h0 : s._len = 0) :
    pop s = (.error .list_is_empty, s) := by
  unfold pop
  rw [if_pos h0]

theorem pop_inv (s : sorted_list α) (h : Inv s) : Inv (pop s).2 := by
  by_cases h0 : s._len = 0
  · rw [pop_empty s h0]; exact h
  · obtain ⟨x, -, -, -, -, hinv⟩ := pop_nonempty s h h0
    exact hinv

end removal

end sortc


namespace sortc

section ranks
variable {α : Type} [LinearOrder α]

theorem Inv.same_data {s s2 : sorted_list α} (h : Inv s) (hl : s2._list = s._list)
    (hm : s2._max = s._max) (hlen : s2._len = s._len) (hload : s2._load = s._load)
    (hix : IndexOK s2) : Inv s2 := by
  refine ⟨⟨?_, ?_, ?_, ?_⟩, ?_, hix⟩
  · rw [hload]; exact h.buckets.load_pos
  · rw [hl]; exact h.buckets.nonempty
  · rw [hl]; exact h.buckets.sorted
  · rw [hl, hm]; exact h.buckets.max_eq
  · rw [hl, hlen]; exact h.len_eq

theorem place_inv (s : sorted_list α) (h : Inv s) (r : Nat) (hr : r < s._len) :
    Inv (_place r s).2 := by
  obtain ⟨d1, d2, d3, d4⟩ := place_data s r
  exact h.same_data d1 d2 d3 d4 (place_index s h.len_eq h.index r hr)

omit [LinearOrder α] in
theorem valid_position (l : List (List α)) (j k : Nat) (x : α)
    (hx : (l.getD j []).get? k = some x) :
    ∃ L b R, l = L ++ b :: R ∧ L.length = j ∧ k < b.length ∧ b.get? k = some x := by
  have hj : j < l.length := by
    by_contra hc
    rw [List.getD_eq_getElem?_getD, List.getElem?_eq_none (by omega)] at hx
    simp at hx
  obtain ⟨L, b, R, hl, hL⟩ := split_at l j hj
  subst hl
  subst hL
  rw [getD_split] at hx
  refine ⟨L, b, R, rfl, rfl, ?_, hx⟩
  rw [List.get?_eq_getElem?] at hx
  exact (List.getElem?_eq_some.mp hx).1

omit [LinearOrder α] in
theorem operator_at_state (r : Nat) (s : sorted_list α) :
    (operator_at r s).2 = (_place r s).2 := by
  unfold operator_at
  rcases hP : _place r s with ⟨res, s2⟩
  cases res with
  | error e => rfl
  | ok p =>
    obtain ⟨j, k⟩ := p
    simp only
    split <;> rfl

theorem operator_at_inv (s : sorted_list α) (h : Inv s) (r : Nat) (hr : r < s._len) :
    Inv (operator_at r s).2 := by
  rw [operator_at_state]
  exact place_inv s h r hr

/-- The value read by `operator[]` at a rank below the size. -/
theorem operator_at_spec (s : sorted_list α) (h : Inv s) (r : Nat) (hr : r < s._len)
    (hn : s._list.length ≤ 2 ^ 63) :
    ∃ x, (operator_at r s).1 = .ok x ∧ (get_view s)[r]? = some x := by
  obtain ⟨b, o, hp1, hp2, hp3⟩ := place_spec s h.len_eq h.index r hr hn
  obtain ⟨d1, -, -, -⟩ := place_data s r
  obtain ⟨L, bk, R, hl, hL, ho, hps, hgd⟩ := position_split s._list b o hp3
  unfold operator_at
  rcases hP : _place r s with ⟨res, s2⟩
  rw [hP] at hp1 d1
  simp only at hp1 d1
  subst hp1
  simp only [d1, hgd]
  have hget : bk.get? o = some bk[o] := by
    rw [List.get?_eq_getElem?, List.getElem?_eq_getElem ho]
  simp only [hget]
  refine ⟨bk[o], rfl, ?_⟩
  simp only [get_view]
  rw [hl, ← hp2, hps, flatten_getElem?_split L R bk o ho, List.getElem?_eq_getElem ho]

theorem remove_at_inv (s : sorted_list α) (h : Inv s) (r : Nat) (hr : r < s._len) :
    Inv (remove_at r s).2 := by
  unfold remove_at
  rw [if_neg (by omega)]
  by_cases hfast : r < (s._list.getD 0 []).length
  · rw [if_pos hfast]
    cases hx : (s._list.getD 0 []).get? r with
    | none => exact h
    | some x =>
      obtain ⟨L, b, R, hl, hL, hk, -⟩ := valid_position s._list 0 r x hx
      have := delete_spec s L R b r hl hk h
      rw [hL] at this
      obtain ⟨d1, d2, d3, d4, d5, -⟩ := this
      refine ⟨d1, ?_, d5⟩
      rw [d3, d2, h.len_eq, hl]
      have := List.length_eraseIdx_of_lt hk
      simp only [List.flatten_append, List.flatten_cons, List.length_append, this]
      omega
  · rw [if_neg hfast]
    have hpi := place_inv s h r hr
    rcases hP : _place r s with ⟨res, s2⟩
    rw [hP] at hpi
    simp only at hpi
    cases res with
    | error e => exact hpi
    | ok p =>
      obtain ⟨j, k⟩ := p
      simp only
      cases hx : (s2._list.getD j []).get? k with
      | none => exact hpi
      | some x =>
        obtain ⟨L, b, R, hl, hL, hk, -⟩ := valid_position s2._list j k x hx
        have := delete_spec s2 L R b k hl hk hpi
        rw [hL] at this
        obtain ⟨d1, d2, d3, d4, d5, -⟩ := this
        refine ⟨d1, ?_, d5⟩
        rw [d3, d2, hpi.len_eq, hl]
        have := List.length_eraseIdx_of_lt hk
        simp only [List.flatten_append, List.flatten_cons, List.length_append, this]
        omega

/-- The effect of `remove_at` at a rank below the size. -/
theorem remove_at_spec (s : sorted_list α) (h : Inv s) (r : Nat) (hr : r < s._len)
    (hn : s._list.length ≤ 2 ^ 63) :
    ∃ x, (remove_at r s).1 = .ok x ∧ (get_view s)[r]? = some x ∧
      get_view (remove_at r s).2 = (get_view s).eraseIdx r ∧
      size (remove_at r s).2 = size s - 1 := by
  unfold remove_at
  rw [if_neg (by omega)]
  by_cases hfast : r < (s._list.getD 0 []).length
  · rw [if_pos hfast]
    obtain ⟨x, hget⟩ : ∃ x, (s._list.getD 0 []).get? r = some x :=
      ⟨_, by rw [List.get?_eq_getElem?, List.getElem?_eq_getElem hfast]⟩
    obtain ⟨L, b, R, hl, hL, hk, hbx⟩ := valid_position s._list 0 r x hget
    have hLnil : L = [] := List.length_eq_zero.mp hL
    subst hLnil
    have := delete_spec s [] R b r hl hk h
    obtain ⟨d1, d2, d3, d4, d5, -⟩ := this
    simp only [hget]
    refine ⟨x, rfl, ?_, ?_, d3⟩
    · simp only [get_view]
      rw [hl]
      have e := flatten_getElem?_split [] R b r hk
      simp only [List.flatten_nil, List.length_nil, Nat.zero_add] at e
      rw [e, ← List.get?_eq_getElem?, hbx]
    · simp only [get_view]
      show (_delete ([] : List (List α)).length r s)._list.flatten = _
      rw [d2, hl]
      have e := flatten_eraseIdx_split [] R b r hk
      simp only [List.flatten_nil, List.length_nil, Nat.zero_add] at e
      rw [e]
      simp
  · rw [if_neg hfast]
    obtain ⟨b, o, hp1, hp2, hp3⟩ := place_spec s h.len_eq h.index r hr hn
    obtain ⟨d1, -, -, -⟩ := place_data s r
    have hpi := place_inv s h r hr
    obtain ⟨L, bk, R, hl, hL, ho, hps, hgd⟩ := position_split s._list b o hp3
    rcases hP : _place r s with ⟨res, s2⟩
    rw [hP] at hp1 d1 hpi
    simp only at hp1 d1 hpi
    subst hp1
    simp only [d1, hgd]
    have hget : bk.get? o = some bk[o] := by
      rw [List.get?_eq_getElem?, List.getElem?_eq_getElem ho]
    simp only [hget]
    have := delete_spec s2 L R bk o (by rw [d1]; exact hl) ho hpi
    rw [hL] at this
    obtain ⟨e1, e2, e3, e4, e5, -⟩ := this
    have hlen2 : s2._len = s._len := by rw [hpi.len_eq, d1, h.len_eq]
    refine ⟨bk[o], rfl, ?_, ?_, ?_⟩
    · simp only [get_view]
      rw [hl, ← hp2, hps, flatten_getElem?_split L R bk o ho, List.getElem?_eq_getElem ho]
    · simp only [get_view]
      rw [e2, hl, ← hp2, hps, flatten_eraseIdx_split L R bk o ho]
    · simp only [size]
      rw [e3, hlen2]

end ranks

end sortc


namespace sortc

section searching
variable {α : Type} [LinearOrder α]

theorem locate_inv (s : sorted_list α) (h : Inv s) (i j : Nat) (hi : i < s._list.length) :
    Inv (_locate i j s).2 := by
  obtain ⟨d1, d2, d3, d4⟩ := locate_data s i j
  exact h.same_data d1 d2 d3 d4 (locate_index s h.index i j hi)

theorem find_absent (s : sorted_list α) (h : Inv s) (el : α) (hmem : el ∉ get_view s) :
    find el s = (.error .element_not_found, s) := by
  unfold find
  by_cases h0 : s._len = 0
  · rw [if_pos h0]
  · rw [if_neg h0]
    by_cases hi : lower_bound s._max el = s._max.length
    · simp only [hi, if_true]
    · simp only [hi, if_false]
      have hlt : lower_bound s._max el < s._max.length := by
        have := lower_bound_le s._max el
        omega
      obtain ⟨L, b, R, q, hl, hL, hj, hq, -, -, -, hiff⟩ := lower_found s h.buckets el hlt
      have hne : q ≠ el := fun hc => hmem (hiff.mp hc)
      rw [← hL, hl, getD_split, hq]
      simp [hne]

/-- When the value occurs, `find` returns the result of `_locate` on the pair found by the
two lower-bound searches, and that pair addresses the first element not below it. -/
theorem find_present_eq (s : sorted_list α) (h : Inv s) (el : α) (hmem : el ∈ get_view s) :
    ∃ L b R, s._list = L ++ b :: R ∧ lower_bound b el < b.length ∧
      (∀ x ∈ L.flatten ++ b.take (lower_bound b el), x < el) ∧
      b.drop (lower_bound b el) = el :: b.drop (lower_bound b el + 1) ∧
      find el s = (.ok (_locate L.length (lower_bound b el) s).1,
        (_locate L.length (lower_bound b el) s).2) := by
  have hlne : s._list ≠ [] := by
    intro hc
    simp [get_view, hc] at hmem
  have h0 : ¬ s._len = 0 := by
    intro hc
    have := h.len_eq
    rw [hc] at this
    have hnil : s._list.flatten = [] := List.length_eq_zero.mp this.symm
    simp [get_view, hnil] at hmem
  have hi : ¬ lower_bound s._max el = s._max.length := by
    intro hc
    rcases lower_dispatch s h.buckets el with ⟨-, hall⟩ | ⟨hlt, -⟩
    · exact absurd (hall el hmem) (lt_irrefl el)
    · omega
  have hlt : lower_bound s._max el < s._max.length := by
    have := lower_bound_le s._max el
    omega
  obtain ⟨L, b, R, q, hl, hL, hj, hq, hdrop, hA, -, hiff⟩ := lower_found s h.buckets el hlt
  have hqe : q = el := hiff.mpr hmem
  subst hqe
  refine ⟨L, b, R, hl, hj, hA, hdrop, ?_⟩
  unfold find
  rw [if_neg h0]
  simp only [hi, if_false]
  rw [← hL]
  simp only [hl, getD_split, hq, ne_eq, not_true_eq_false, if_false]

theorem find_inv (s : sorted_list α) (h : Inv s) (el : α) : Inv (find el s).2 := by
  by_cases hmem : el ∈ get_view s
  · obtain ⟨L, b, R, hl, -, -, -, heq⟩ := find_present_eq s h el hmem
    rw [heq]
    exact locate_inv s h _ _ (by rw [hl]; simp)
  · rw [find_absent s h el hmem]
    exact h

/-- The rank returned by `find` when the value occurs. -/
theorem find_present (s : sorted_list α) (h : Inv s) (el : α) (hmem : el ∈ get_view s)
    (hn : s._list.length ≤ 2 ^ 63) :
    ∃ r, (find el s).1 = .ok r ∧ (get_view s)[r]? = some el ∧
      ∀ k, k < r → (get_view s)[k]? ≠ some el := by
  obtain ⟨L, b, R, hl, hj, hA, hdrop, heq⟩ := find_present_eq s h el hmem
  have hloc := locate_spec s h.index L.length (lower_bound b el) (by rw [hl]; simp) hn
  have hps : psum (sizes s._list) L.length = L.flatten.length := by
    rw [hl]; exact psum_sizes_append L (b :: R)
  rw [hps] at hloc
  have hAlen : (L.flatten ++ b.take (lower_bound b el)).length
      = L.flatten.length + lower_bound b el := by
    rw [List.length_append, List.length_take]
    omega
  have hview : get_view s = (L.flatten ++ b.take (lower_bound b el))
      ++ (el :: (b.drop (lower_bound b el + 1) ++ R.flatten)) := by
    simp only [get_view]
    rw [hl, flatten_split_take L R b (lower_bound b el), hdrop]
    rfl
  refine ⟨_, by rw [heq], ?_, ?_⟩
  · show (get_view s)[(_locate L.length (lower_bound b el) s).1]? = some el
    rw [hloc, hview, ← hAlen, List.getElem?_append_right (le_refl _)]
    simp
  · intro k hk
    rw [hloc, ← hAlen] at hk
    rw [hview, List.getElem?_append_left hk]
    intro hc
    have hmemA : el ∈ L.flatten ++ b.take (lower_bound b el) := by
      obtain ⟨hk', hke⟩ := List.getElem?_eq_some.mp hc
      have := List.getElem_mem hk'
      rwa [hke] at this
    exact absurd (hA el hmemA) (lt_irrefl el)

/-- Two ways to cut a list around the occurrences of `el` give their number. -/
theorem count_of_splits (el : α) (A : List α) :
    ∀ (B A2 B2 : List α), A ++ B = A2 ++ B2 → (∀ x ∈ A, x < el) → (∀ x ∈ B, el ≤ x) →
      (∀ x ∈ A2, x ≤ el) → (∀ x ∈ B2, el < x) →
      A.length ≤ A2.length ∧ List.count el (A ++ B) = A2.length - A.length := by
  induction A with
  | nil =>
    intro B A2 B2 h _ hB hA2 hB2
    simp only [List.nil_append] at h
    refine ⟨by simp, ?_⟩
    rw [List.nil_append, h, List.count_append]
    have h1 : List.count el A2 = A2.length := by
      rw [List.count_eq_length]
      intro x hx
      exact le_antisymm (hB x (by rw [h]; simp [hx])) (hA2 x hx)
    have h2 : List.count el B2 = 0 := by
      rw [List.count_eq_zero]
      intro hc
      exact absurd (hB2 el hc) (lt_irrefl el)
    rw [h1, h2]
    simp
  | cons a A ih =>
    intro B A2 B2 h hA hB hA2 hB2
    have ha : a < el := hA a (by simp)
    cases A2 with
    | nil =>
      simp only [List.nil_append] at h
      have : a ∈ B2 := by rw [← h]; simp
      exact absurd (hB2 a this) (not_lt.mpr (le_of_lt ha))
    | cons a2 A2 =>
      simp only [List.cons_append, List.cons.injEq] at h
      obtain ⟨h1, h2⟩ := ih B A2 B2 h.2 (fun x hx => hA x (by simp [hx])) hB
        (fun x hx => hA2 x (by simp [hx])) hB2
      refine ⟨by simp only [List.length_cons]; omega, ?_⟩
      rw [List.cons_append, List.count_cons_of_ne (ne_of_gt ha), h2]
      simp only [List.length_cons]
      omega

end searching

end sortc


namespace sortc

section counting
variable {α : Type} [LinearOrder α]

theorem count_inv (s : sorted_list α) (h : Inv s) (el : α) : Inv (count el s).2 := by
  have hmlen : s._max.length = s._list.length := by
    rw [h.buckets.max_eq]; exact maxes_length _ h.buckets.nonempty
  have hlb := lower_bound_le s._max el
  have hub := upper_bound_le s._max el
  unfold count
  by_cases h0 : s._max.length = 0
  · rw [if_pos h0]; exact h
  · rw [if_neg h0]
    by_cases hi : lower_bound s._max el = s._max.length
    · simp only [hi, if_true]; exact h
    · simp only [hi, if_false]
      by_cases hj : upper_bound s._max el = s._max.length
      · simp only [hj, if_true]
        exact locate_inv s h _ _ (by omega)
      · simp only [hj, if_false]
        by_cases hij : lower_bound s._max el = upper_bound s._max el
        · simp only [hij, if_true]; exact h
        · simp only [hij, if_false]
          have h1 := locate_inv s h (upper_bound s._max el)
            (upper_bound (s._list.getD (upper_bound s._max el) []) el) (by omega)
          have hd := locate_data s (upper_bound s._max el)
            (upper_bound (s._list.getD (upper_bound s._max el) []) el)
          exact locate_inv _ h1 _ _ (by rw [hd.1]; omega)

/-- The number returned by `count`. -/
theorem count_spec (s : sorted_list α) (h : Inv s) (el : α) (hn : s._list.length ≤ 2 ^ 63) :
    (count el s).1 = List.count el (get_view s) := by
  have hmlen : s._max.length = s._list.length := by
    rw [h.buckets.max_eq]; exact maxes_length _ h.buckets.nonempty
  unfold count
  by_cases h0 : s._max.length = 0
  · rw [if_pos h0]
    simp [get_view, (max_length_zero_iff s h.buckets).mp h0]
  · rw [if_neg h0]
    rcases lower_dispatch s h.buckets el with ⟨hi, hall⟩ | ⟨hilt, L, b, R, hl, hL, hleft, hA, hB⟩
    · simp only [hi, if_true]
      symm
      rw [List.count_eq_zero]
      intro hc
      exact absurd (hall el hc) (lt_irrefl el)
    · have hi : ¬ lower_bound s._max el = s._max.length := by omega
      simp only [hi, if_false]
      have hview : get_view s = (L.flatten ++ b.take (lower_bound b el))
          ++ (b.drop (lower_bound b el) ++ R.flatten) := by
        simp only [get_view]
        rw [hl, flatten_split_take L R b (lower_bound b el)]
      have hAlen : (L.flatten ++ b.take (lower_bound b el)).length
          = L.flatten.length + lower_bound b el := by
        rw [List.length_append, List.length_take]
        omega
      have hgd : s._list.getD (lower_bound s._max el) [] = b := by
        rw [← hL, hl, getD_split]
      have hlocA : ∀ t : sorted_list α, t._list = s._list → IndexOK t →
          (_locate (lower_bound s._max el) (lower_bound b el) t).1
            = L.flatten.length + lower_bound b el := by
        intro t ht hti
        rw [locate_spec t hti _ _ (by rw [ht]; omega) (by rw [ht]; exact hn), ht, ← hL, hl,
          psum_sizes_append L (b :: R)]
      rw [hgd]
      rcases upper_dispatch s h.buckets el with ⟨hj, hall2⟩ |
        ⟨hjlt, L2, b2, R2, hl2, hL2, hright, hA2, hB2⟩
      · simp only [hj, if_true]
        rw [hlocA s rfl h.index, (locate_data s _ _).2.2.1, h.len_eq]
        have key := count_of_splits el _ _ s._list.flatten [] (by
          rw [List.append_nil, ← hview]; rfl) hA hB hall2 (by simp)
        rw [← hview, hAlen] at key
        unfold len_sub
        rw [if_pos key.1, key.2]
      · have hj : ¬ upper_bound s._max el = s._max.length := by omega
        simp only [hj, if_false]
        have hview2 : get_view s = (L2.flatten ++ b2.take (upper_bound b2 el))
            ++ (b2.drop (upper_bound b2 el) ++ R2.flatten) := by
          simp only [get_view]
          rw [hl2, flatten_split_take L2 R2 b2 (upper_bound b2 el)]
        have hA2len : (L2.flatten ++ b2.take (upper_bound b2 el)).length
            = L2.flatten.length + upper_bound b2 el := by
          rw [List.length_append, List.length_take]
          omega
        have hgd2 : s._list.getD (upper_bound s._max el) [] = b2 := by
          rw [← hL2, hl2, getD_split]
        have key := count_of_splits el _ _ _ _ (by rw [← hview, ← hview2]) hA hB hA2 hB2
        rw [← hview, hAlen, hA2len] at key
        rw [hgd2]
        by_cases hij : lower_bound s._max el = upper_bound s._max el
        · simp only [hij, if_true]
          have hLL : L.length = L2.length := by omega
          have hsame := List.append_inj (hl.symm.trans hl2) hLL
          have hLeq : L = L2 := hsame.1
          have hbeq : b = b2 := (List.cons.inj hsame.2).1
          subst hLeq
          subst hbeq
          unfold len_sub
          rw [if_pos (by omega), key.2]
          omega
        · simp only [hij, if_false]
          have h1 := locate_inv s h (upper_bound s._max el) (upper_bound b2 el) (by omega)
          have hd := locate_data s (upper_bound s._max el) (upper_bound b2 el)
          rw [hlocA _ hd.1 h1.index]
          rw [locate_spec s h.index _ _ (by omega) hn, ← hL2, hl2,
            psum_sizes_append L2 (b2 :: R2)]
          unfold len_sub
          rw [if_pos key.1, key.2]

end counting

end sortc


namespace sortc

section sound
variable {α : Type} [LinearOrder α]

theorem Sound.keep_data {load : Nat} {s s2 : sorted_list α} (h : Sound load s)
    (hl : s2._list = s._list) (hm : s2._max = s._max) (hlen : s2._len = s._len)
    (hload : s2._load = s._load) (hix : IndexOK s2) : Sound load s2 := by
  refine ⟨h.inv.same_data hl hm hlen hload hix, ?_, by rw [hload]; exact h.load_eq,
    by rw [hlen]; exact h.cap⟩
  intro h2 c hc
  rw [hl] at h2 hc
  rw [hload]
  exact h.balanced h2 c hc

theorem with_load_sound (load : Nat) (h : 0 < load) : Sound load (with_load α load) :=
  ⟨with_load_inv load h, fun h2 => by simp [with_load] at h2, rfl,
    by show 0 < 2 ^ 64; exact Nat.two_pow_pos 64⟩

theorem clear_sound {load : Nat} (s : sorted_list α) (h : Sound load s) :
    Sound load (clear s) :=
  ⟨clear_inv s h.inv, fun h2 => by simp [clear] at h2, h.load_eq,
    by show 0 < 2 ^ 64; exact Nat.two_pow_pos 64⟩

theorem add_sound {load : Nat} (s : sorted_list α) (h : Sound load s) (el : α)
    (hcap : size s + 1 < 2 ^ 64) : Sound load (add el s) := by
  refine ⟨add_inv s h.inv el, add_balanced s h.inv.buckets h.balanced el, ?_, ?_⟩
  · rw [add_load s h.inv.buckets el]; exact h.load_eq
  · rw [add_len s h.inv.buckets el]; exact hcap

/-- Erasing a valid position keeps the state sound and takes one off the total length. -/
theorem delete_sound {load : Nat} (s : sorted_list α) (h : Sound load s)
    (L R : List (List α)) (b : List α) (j : Nat) (hl : s._list = L ++ b :: R)
    (hj : j < b.length) :
    Sound load (_delete L.length j s) ∧ (_delete L.length j s)._len + 1 = s._len := by
  obtain ⟨d1, d2, d3, d4, d5, d6⟩ := delete_spec s L R b j hl hj h.inv
  have hlen : s._len = L.flatten.length + b.length + R.flatten.length := by
    rw [h.inv.len_eq, hl]
    simp only [List.flatten_append, List.flatten_cons, List.length_append]
    omega
  have hcap := h.cap
  refine ⟨⟨⟨d1, ?_, d5⟩, d6 h.balanced, by rw [d4]; exact h.load_eq, by rw [d3]; omega⟩,
    by rw [d3]; omega⟩
  rw [d3, d2, hlen]
  have := List.length_eraseIdx_of_lt hj
  simp only [List.length_append, this]
  omega

theorem place_sound {load : Nat} (s : sorted_list α) (h : Sound load s) (r : Nat)
    (hr : r < s._len) : Sound load (_place r s).2 := by
  obtain ⟨d1, d2, d3, d4⟩ := place_data s r
  exact h.keep_data d1 d2 d3 d4 (place_index s h.inv.len_eq h.inv.index r hr)

theorem operator_at_sound {load : Nat} (s : sorted_list α) (h : Sound load s) (r : Nat)
    (hr : r < s._len) : Sound load (operator_at r s).2 := by
  rw [operator_at_state]
  exact place_sound s h r hr

theorem find_sound {load : Nat} (s : sorted_list α) (h : Sound load s) (el : α) :
    Sound load (find el s).2 := by
  by_cases hmem : el ∈ get_view s
  · obtain ⟨L, b, R, hl, -, -, -, heq⟩ := find_present_eq s h.inv el hmem
    rw [heq]
    obtain ⟨d1, d2, d3, d4⟩ := locate_data s L.length (lower_bound b el)
    exact h.keep_data d1 d2 d3 d4 (locate_index s h.inv.index _ _ (by rw [hl]; simp))
  · rw [find_absent s h.inv el hmem]
    exact h

theorem count_data (s : sorted_list α) (el : α) :
    (count el s).2._list = s._list ∧ (count el s).2._max = s._max ∧
      (count el s).2._len = s._len ∧ (count el s).2._load = s._load := by
  unfold count
  by_cases h0 : s._max.length = 0
  · rw [if_pos h0]; exact ⟨rfl, rfl, rfl, rfl⟩
  · rw [if_neg h0]
    by_cases hi : lower_bound s._max el = s._max.length
    · simp only [hi, if_true, and_self]
    · simp only [hi, if_false]
      by_cases hj : upper_bound s._max el = s._max.length
      · simp only [hj, if_true]
        exact locate_data s _ _
      · simp only [hj, if_false]
        by_cases hij : lower_bound s._max el = upper_bound s._max el
        · simp only [hij, if_true, and_self]
        · simp only [hij, if_false]
          obtain ⟨a1, a2, a3, a4⟩ := locate_data s (upper_bound s._max el)
            (upper_bound (s._list.getD (upper_bound s._max el) []) el)
          obtain ⟨b1, b2, b3, b4⟩ := locate_data
            (_locate (upper_bound s._max el)
              (upper_bound (s._list.getD (upper_bound s._max el) []) el) s).2
            (lower_bound s._max el) (lower_bound (s._list.getD (lower_bound s._max el) []) el)
          exact ⟨b1.trans a1, b2.trans a2, b3.trans a3, b4.trans a4⟩

theorem count_sound {load : Nat} (s : sorted_list α) (h : Sound load s) (el : α) :
    Sound load (count el s).2 := by
  obtain ⟨d1, d2, d3, d4⟩ := count_data s el
  exact h.keep_data d1 d2 d3 d4 (count_inv s h.inv el).index

theorem remove_sound {load : Nat} (s : sorted_list α) (h : Sound load s) (el : α) :
    Sound load (remove el s).2 := by
  unfold remove
  by_cases h0 : s._max.length = 0
  · rw [if_pos h0]; exact h
  · rw [if_neg h0]
    by_cases hi : lower_bound s._max el = s._max.length
    · simp only [hi, if_true]; exact h
    · simp only [hi, if_false]
      by_cases hx : (s._list.getD (lower_bound s._max el) []).get?
          (lower_bound (s._list.getD (lower_bound s._max el) []) el) = some el
      · simp only [hx, ne_eq, not_true_eq_false, if_false]
        obtain ⟨L, b, R, hl, hL, hk, -⟩ := valid_position s._list _ _ el hx
        have := (delete_sound s h L R b _ hl hk).1
        rw [hL] at this
        exact this
      · simp only [hx, ne_eq, not_false_eq_true, if_true]; exact h

theorem pop_sound {load : Nat} (s : sorted_list α) (h : Sound load s) :
    Sound load (pop s).2 := by
  unfold pop
  by_cases h0 : s._len = 0
  · rw [if_pos h0]; exact h
  · rw [if_neg h0]
    simp only
    cases hx : (s._list.getD (len_sub s._list.length 1) []).get?
        (len_sub (s._list.getD (len_sub s._list.length 1) []).length 1) with
    | none => exact h
    | some x =>
      obtain ⟨L, b, R, hl, hL, hk, -⟩ := valid_position s._list _ _ x hx
      have := (delete_sound s h L R b _ hl hk).1
      rw [hL] at this
      exact this

theorem remove_at_sound {load : Nat} (s : sorted_list α) (h : Sound load s) (r : Nat)
    (hr : r < s._len) : Sound load (remove_at r s).2 := by
  unfold remove_at
  rw [if_neg (by omega)]
  by_cases hfast : r < (s._list.getD 0 []).length
  · rw [if_pos hfast]
    cases hx : (s._list.getD 0 []).get? r with
    | none => exact h
    | some x =>
      obtain ⟨L, b, R, hl, hL, hk, -⟩ := valid_position s._list 0 r x hx
      have := (delete_sound s h L R b r hl hk).1
      rw [hL] at this
      exact this
  · rw [if_neg hfast]
    have hpi := place_sound s h r hr
    rcases hP : _place r s with ⟨res, s2⟩
    rw [hP] at hpi
    simp only at hpi
    cases res with
    | error e => exact hpi
    | ok p =>
      obtain ⟨j, k⟩ := p
      simp only
      cases hx : (s2._list.getD j []).get? k with
      | none => exact hpi
      | some x =>
        obtain ⟨L, b, R, hl, hL, hk, -⟩ := valid_position s2._list j k x hx
        have := (delete_sound s2 hpi L R b k hl hk).1
        rw [hL] at this
        exact this

/-- Every reachable state satisfies the invariants of the data model. -/
theorem reachable_sound {load : Nat} (hload : 0 < load) {s : sorted_list α}
    (h : Reachable load s) : Sound load s := by
  induction h with
  | init => exact with_load_sound load hload
  | add el _ hcap ih => exact add_sound _ ih el hcap
  | remove el _ ih => exact remove_sound _ ih el
  | remove_at i _ hi ih => exact remove_at_sound _ ih i hi
  | pop _ ih => exact pop_sound _ ih
  | clear _ ih => exact clear_sound _ ih
  | find el _ ih => exact find_sound _ ih el
  | count el _ ih => exact count_sound _ ih el
  | operator_at i _ hi ih => exact operator_at_sound _ ih i hi

omit [LinearOrder α] in
theorem flatten_length_ge (l : List (List α)) (k : Nat) (h : ∀ b ∈ l, k ≤ b.length) :
    k * l.length ≤ l.flatten.length := by
  induction l with
  | nil => simp
  | cons b l ih =>
    have h1 := h b (by simp)
    have h2 := ih (fun c hc => h c (by simp [hc]))
    simp only [List.flatten_cons, List.length_append, List.length_cons, Nat.mul_add, Nat.mul_one]
    omega

/-- With a load factor of at least 2 the number of buckets of a sound state stays within
the range on which the 64-bit `_bit_trick` is exact. -/
theorem Sound.bucket_count {load : Nat} {s : sorted_list α} (h : Sound load s)
    (hload : 2 ≤ load) : s._list.length ≤ 2 ^ 63 := by
  by_cases h2 : 2 ≤ s._list.length
  · have hall := h.balanced h2
    have hge : 2 * s._list.length ≤ s._list.flatten.length := by
      apply flatten_length_ge
      intro b hb
      have := hall b hb
      rw [h.load_eq] at this
      omega
    have hcap := h.cap
    rw [h.inv.len_eq] at hcap
    have e : (2 : Nat) ^ 64 = 2 * 2 ^ 63 := by norm_num
    omega
  · have hp : 0 < 2 ^ 63 := Nat.two_pow_pos 63
    omega

end sound

end sortc


namespace sortc

section reach
variable {α : Type} [LinearOrder α]

theorem reachable_inv {load : Nat} (hload : 0 < load) {s : sorted_list α}
    (h : Reachable load s) : Inv s :=
  (reachable_sound hload h).inv

/-- On a container built with a load factor of at least 2, the bucket count of every
reachable state is in the range on which `_bit_trick` is exact. -/
theorem reachable_bucket_count {load : Nat} (hload : 2 ≤ load) {s : sorted_list α}
    (h : Reachable load s) : s._list.length ≤ 2 ^ 63 :=
  (reachable_sound (by omega) h).bucket_count hload

theorem reachable_add_all {load : Nat} (hload : 0 < load) (xs : List α) {s : sorted_list α}
    (h : Reachable load s) (hcap : size s + xs.length < 2 ^ 64) :
    Reachable load (add_all xs s) := by
  induction xs generalizing s with
  | nil => exact h
  | cons x xs ih =>
    have hlen : size (add x s) = size s + 1 := add_len s (reachable_inv hload h).buckets x
    simp only [List.length_cons] at hcap
    exact ih (Reachable.add x h (by omega)) (by rw [hlen]; omega)

theorem remove_at_above (s : sorted_list α) (h : Inv s) (r : Nat) (hr : s._len < r) :
    remove_at r s = (.error .index_out_of_range, s) := by
  have hb0 : (s._list.getD 0 []).length ≤ s._len := by
    rw [h.len_eq]
    cases hl : s._list with
    | nil => simp
    | cons b0 rest => simp
  unfold remove_at
  by_cases h0 : s._len = 0
  · rw [if_pos h0]
  · rw [if_neg h0, if_neg (by omega)]
    have hp : _place r s = (.error .index_out_of_range, s) := by
      unfold _place
      rw [if_pos hr]
    rw [hp]

end reach

/-- C2: in every reachable state and for every rank below the size, `operator[]` returns
the element at that position of the flattened view, whether the rank falls in bucket 0 or
is resolved by the descent through the index, which is rebuilt first when absent.  Stated
for every load factor of at least 2; the one of the class is 100. -/
theorem operator_at_rank {α : Type} [LinearOrder α] (load : Nat) (s : sorted_list α)
    (hload : 2 ≤ load) (hs : Reachable load s) (r : Nat) (hr : r < size s) :
    ∃ x, (operator_at r s).1 = .ok x ∧ (get_view s)[r]? = some x :=
  operator_at_spec s (reachable_inv (by omega) hs) r hr (reachable_bucket_count hload hs)

theorem operator_at_rank_witness :
    2 ≤ 2 ∧ Reachable 2 scenario_split ∧ 6 < size scenario_split ∧
    ∃ x, (operator_at 6 scenario_split).1 = .ok x ∧ (get_view scenario_split)[6]? = some x :=
  ⟨by decide, reachable_add_all (by decide) _ Reachable.init (by decide), by decide,
    operator_at_rank 2 scenario_split (by decide)
      (reachable_add_all (by decide) _ Reachable.init (by decide)) 6 (by decide)⟩

/-- C3: in every reachable state `find v` fails with NotFound exactly when `v` does not
occur in the flattened view, and otherwise returns the rank of the first occurrence of `v`;
after adding 5, 3, 8, 1, 9, 3 `find 3` is 1, and on [3, 3, 5, 8] `find 100` fails. -/
theorem find_first_rank {α : Type} [LinearOrder α] (load : Nat) (s : sorted_list α)
    (hload : 2 ≤ load) (hs : Reachable load s) (v : α) :
    ((find v s).1 = .error .element_not_found ↔ v ∉ get_view s) ∧
    (v ∈ get_view s → ∃ r, (find v s).1 = .ok r ∧ (get_view s)[r]? = some v ∧
      ∀ k, k < r → (get_view s)[k]? ≠ some v) ∧
    (find 3 (add_all [5, 3, 8, 1, 9, 3] (new Nat))).1 = .ok 1 ∧
    (find 100 (add_all [3, 3, 5, 8] (new Nat))).1 = .error .element_not_found := by
  have hinv := reachable_inv (show 0 < load by omega) hs
  have hcap := reachable_bucket_count hload hs
  refine ⟨⟨?_, ?_⟩, fun hmem => find_present s hinv v hmem hcap, rfl, rfl⟩
  · intro herr hmem
    obtain ⟨r, hr, -, -⟩ := find_present s hinv v hmem hcap
    rw [hr] at herr
    exact absurd herr (by simp)
  · intro hmem
    rw [find_absent s hinv v hmem]

theorem find_first_rank_witness :
    2 ≤ 2 ∧ Reachable 2 scenario_split ∧
    (((find 7 scenario_split).1 = .error .element_not_found ↔ 7 ∉ get_view scenario_split) ∧
    (7 ∈ get_view scenario_split → ∃ r, (find 7 scenario_split).1 = .ok r ∧
      (get_view scenario_split)[r]? = some 7 ∧
      ∀ k, k < r → (get_view scenario_split)[k]? ≠ some 7) ∧
    (find 3 (add_all [5, 3, 8, 1, 9, 3] (new Nat))).1 = .ok 1 ∧
    (find 100 (add_all [3, 3, 5, 8] (new Nat))).1 = .error .element_not_found) :=
  ⟨by decide, reachable_add_all (by decide) _ Reachable.init (by decide),
    find_first_rank 2 scenario_split (by decide)
      (reachable_add_all (by decide) _ Reachable.init (by decide)) 7⟩

/-- C4: in every reachable state `count v` is the number of positions of the flattened
view that hold `v`, also when the run of equal values spans several buckets or ends the
last bucket; after adding 5, 3, 8, 1, 9, 3 `count 3` is 2. -/
theorem count_occurrences {α : Type} [LinearOrder α] (load : Nat) (s : sorted_list α)
    (hload : 2 ≤ load) (hs : Reachable load s) (v : α) :
    (count v s).1 = List.count v (get_view s) ∧
    (count 3 (add_all [5, 3, 8, 1, 9, 3] (new Nat))).1 = 2 :=
  ⟨count_spec s (reachable_inv (by omega) hs) v (reachable_bucket_count hload hs), rfl⟩

theorem count_occurrences_witness :
    2 ≤ 2 ∧ Reachable 2 scenario_run ∧
    ((count 7 scenario_run).1 = List.count 7 (get_view scenario_run) ∧
    (count 3 (add_all [5, 3, 8, 1, 9, 3] (new Nat))).1 = 2) :=
  ⟨by decide, reachable_add_all (by decide) _ Reachable.init (by decide),
    count_occurrences 2 scenario_run (by decide)
      (reachable_add_all (by decide) _ Reachable.init (by decide)) 7⟩

/-- C5: in every reachable state `contains v` is true exactly when `v` occurs in the
flattened view; inspecting the one bucket chosen by the lower-bound search over the maxima
is enough, also when duplicates of `v` span several buckets. -/
theorem contains_iff_mem {α : Type} [LinearOrder α] (load : Nat) (s : sorted_list α)
    (hload : 0 < load) (hs : Reachable load s) (v : α) :
    contains v s = true ↔ v ∈ get_view s :=
  contains_iff s (reachable_inv hload hs).buckets v

theorem contains_iff_mem_witness :
    0 < 2 ∧ Reachable 2 scenario_run ∧
    (contains 7 scenario_run = true ↔ 7 ∈ get_view scenario_run) :=
  ⟨by decide, reachable_add_all (by decide) _ Reachable.init (by decide),
    contains_iff_mem 2 scenario_run (by decide)
      (reachable_add_all (by decide) _ Reachable.init (by decide)) 7⟩

/-- C6: in every reachable state, `remove v` for a value that occurs returns true, leaves
the flattened view with exactly one occurrence of `v` erased and every other element kept
in order, and decreases the size by exactly 1, whichever path `_delete` takes. -/
theorem remove_present_erases {α : Type} [LinearOrder α] (load : Nat) (s : sorted_list α)
    (hload : 0 < load) (hs : Reachable load s) (v : α) (hv : v ∈ get_view s) :
    (remove v s).1 = true ∧ get_view (remove v s).2 = (get_view s).erase v ∧
      size (remove v s).2 + 1 = size s := by
  have hinv := reachable_inv hload hs
  obtain ⟨h1, h2, h3, -⟩ := remove_present s hinv v hv
  refine ⟨h1, h2, ?_⟩
  have hpos : 0 < size s := by
    show 0 < s._len
    rw [hinv.len_eq]
    exact List.length_pos.mpr (List.ne_nil_of_mem hv)
  omega

theorem remove_present_erases_witness :
    0 < 2 ∧ Reachable 2 scenario_split ∧ 5 ∈ get_view scenario_split ∧
    ((remove 5 scenario_split).1 = true ∧
      get_view (remove 5 scenario_split).2 = (get_view scenario_split).erase 5 ∧
      size (remove 5 scenario_split).2 + 1 = size scenario_split) :=
  ⟨by decide, reachable_add_all (by decide) _ Reachable.init (by decide), by decide,
    remove_present_erases 2 scenario_split (by decide)
      (reachable_add_all (by decide) _ Reachable.init (by decide)) 5 (by decide)⟩

/-- C7: in every reachable state, `remove v` for a value that does not occur returns false
and leaves the whole state (buckets, maxima, total length, index, offset) as it was. -/
theorem remove_absent_unchanged {α : Type} [LinearOrder α] (load : Nat) (s : sorted_list α)
    (hload : 0 < load) (hs : Reachable load s) (v : α) (hv : v ∉ get_view s) :
    remove v s = (false, s) :=
  remove_absent s (reachable_inv hload hs) v hv

theorem remove_absent_unchanged_witness :
    0 < 2 ∧ Reachable 2 (find 7 scenario_split).2 ∧ 12 ∉ get_view (find 7 scenario_split).2 ∧
    remove 12 (find 7 scenario_split).2 = (false, (find 7 scenario_split).2) :=
  ⟨by decide, Reachable.find 7 (reachable_add_all (by decide) _ Reachable.init (by decide)),
    by decide,
    remove_absent_unchanged 2 _ (by decide)
      (Reachable.find 7 (reachable_add_all (by decide) _ Reachable.init (by decide))) 12
      (by decide)⟩

/-- C8: in every reachable state and for every rank below the size, `remove_at` returns the
element at that position of the flattened view and leaves the view with that position
deleted and the size one smaller; `remove_at 0` on [1, 3, 3, 5, 8, 9] returns 1 and leaves
[3, 3, 5, 8, 9]. -/
theorem remove_at_rank {α : Type} [LinearOrder α] (load : Nat) (s : sorted_list α)
    (hload : 2 ≤ load) (hs : Reachable load s) (r : Nat) (hr : r < size s) :
    (∃ x, (remove_at r s).1 = .ok x ∧ (get_view s)[r]? = some x ∧
      get_view (remove_at r s).2 = (get_view s).eraseIdx r ∧
      size (remove_at r s).2 + 1 = size s) ∧
    (remove_at 0 (add_all [5, 3, 8, 1, 9, 3] (new Nat))).1 = .ok 1 ∧
    get_view (remove_at 0 (add_all [5, 3, 8, 1, 9, 3] (new Nat))).2 = [3, 3, 5, 8, 9] := by
  refine ⟨?_, rfl, by decide⟩
  obtain ⟨x, h1, h2, h3, h4⟩ :=
    remove_at_spec s (reachable_inv (by omega) hs) r hr (reachable_bucket_count hload hs)
  have hr' : r < s._len := hr
  have h4' : (remove_at r s).2._len = s._len - 1 := h4
  exact ⟨x, h1, h2, h3, by show (remove_at r s).2._len + 1 = s._len; omega⟩

theorem remove_at_rank_witness :
    2 ≤ 2 ∧ Reachable 2 scenario_split ∧ 7 < size scenario_split ∧
    ((∃ x, (remove_at 7 scenario_split).1 = .ok x ∧ (get_view scenario_split)[7]? = some x ∧
      get_view (remove_at 7 scenario_split).2 = (get_view scenario_split).eraseIdx 7 ∧
      size (remove_at 7 scenario_split).2 + 1 = size scenario_split) ∧
    (remove_at 0 (add_all [5, 3, 8, 1, 9, 3] (new Nat))).1 = .ok 1 ∧
    get_view (remove_at 0 (add_all [5, 3, 8, 1, 9, 3] (new Nat))).2 = [3, 3, 5, 8, 9]) :=
  ⟨by decide, reachable_add_all (by decide) _ Reachable.init (by decide), by decide,
    remove_at_rank 2 scenario_split (by decide)
      (reachable_add_all (by decide) _ Reachable.init (by decide)) 7 (by decide)⟩

/-- C9 (the boundary rank): on the four-element container [3, 3, 5, 8], `remove_at 4` does
not fail with IndexOutOfRange: the guard of `_place` lets the rank through and the code
reads position 4 of a bucket of four elements. -/
theorem remove_at_size_reads_past_end :
    size (add_all [3, 3, 5, 8] (new Nat)) = 4 ∧
    (_place 4 (add_all [3, 3, 5, 8] (new Nat))).1 = .ok (0, 4) ∧
    (remove_at 4 (add_all [3, 3, 5, 8] (new Nat))).1 = .error .out_of_bounds_read ∧
    (remove_at 4 (add_all [3, 3, 5, 8] (new Nat))).1 ≠ .error .index_out_of_range :=
  ⟨rfl, rfl, rfl, fun h => by
    have h2 : (remove_at 4 (add_all [3, 3, 5, 8] (new Nat))).1 = .error .out_of_bounds_read :=
      rfl
    rw [h2] at h
    exact absurd h (by simp)⟩

/-- C10: in every reachable state `pop` fails with Empty exactly when the size is 0;
otherwise it returns the last, hence largest, element of the flattened view and leaves
the view without its last element; `pop` on [3, 3, 5, 8, 9] returns 9 and leaves
[3, 3, 5, 8]. -/
theorem pop_largest {α : Type} [LinearOrder α] (load : Nat) (s : sorted_list α)
    (hload : 0 < load) (hs : Reachable load s) :
    ((pop s).1 = .error .list_is_empty ↔ size s = 0) ∧
    (size s ≠ 0 → ∃ x, (pop s).1 = .ok x ∧ (get_view s).getLast? = some x ∧
      (∀ y ∈ get_view s, y ≤ x) ∧ get_view (pop s).2 = (get_view s).dropLast ∧
      size (pop s).2 + 1 = size s) ∧
    (pop (remove_at 0 (add_all [5, 3, 8, 1, 9, 3] (new Nat))).2).1 = .ok 9 ∧
    get_view (pop (remove_at 0 (add_all [5, 3, 8, 1, 9, 3] (new Nat))).2).2 = [3, 3, 5, 8] := by
  have hinv := reachable_inv hload hs
  refine ⟨⟨?_, ?_⟩, ?_, rfl, by decide⟩
  · intro herr
    by_contra h0
    obtain ⟨x, hx, -⟩ := pop_nonempty s hinv h0
    rw [hx] at herr
    exact absurd herr (by simp)
  · intro h0
    rw [pop_empty s h0]
  · intro h0
    obtain ⟨x, h1, h2, h3, h4, -⟩ := pop_nonempty s hinv h0
    have h0' : s._len ≠ 0 := h0
    have h4' : (pop s).2._len = s._len - 1 := h4
    refine ⟨x, h1, h2, le_last _ x hinv.buckets.sorted h2, h3, ?_⟩
    show (pop s).2._len + 1 = s._len
    omega

theorem pop_largest_witness :
    0 < 2 ∧ Reachable 2 scenario_split ∧
    (((pop scenario_split).1 = .error .list_is_empty ↔ size scenario_split = 0) ∧
    (size scenario_split ≠ 0 → ∃ x, (pop scenario_split).1 = .ok x ∧
      (get_view scenario_split).getLast? = some x ∧
      (∀ y ∈ get_view scenario_split, y ≤ x) ∧
      get_view (pop scenario_split).2 = (get_view scenario_split).dropLast ∧
      size (pop scenario_split).2 + 1 = size scenario_split) ∧
    (pop (remove_at 0 (add_all [5, 3, 8, 1, 9, 3] (new Nat))).2).1 = .ok 9 ∧
    get_view (pop (remove_at 0 (add_all [5, 3, 8, 1, 9, 3] (new Nat))).2).2 = [3, 3, 5, 8]) :=
  ⟨by decide, reachable_add_all (by decide) _ Reachable.init (by decide),
    pop_largest 2 scenario_split (by decide)
      (reachable_add_all (by decide) _ Reachable.init (by decide))⟩

end sortc


namespace sortc

section error_paths
variable {α : Type}

theorem place_error_state (s : sorted_list α) (i : Nat) (e : err)
    (h : (_place i s).1 = .error e) : (_place i s).2 = s := by
  unfold _place at h ⊢
  by_cases hgt : i > s._len
  · rw [if_pos hgt]
  · rw [if_neg hgt] at h ⊢
    cases hh : s._list.head? with
    | none => rfl
    | some b0 =>
      rw [hh] at h
      simp only at h
      by_cases hfast : i < b0.length
      · rw [if_pos hfast] at h
        exact absurd h (by simp)
      · rw [if_neg hfast] at h
        exact absurd h (by simp)

theorem find_error_state [LinearOrder α] (s : sorted_list α) (v : α) (e : err)
    (h : (find v s).1 = .error e) : (find v s).2 = s := by
  unfold find at h ⊢
  by_cases h0 : s._len = 0
  · rw [if_pos h0]
  · rw [if_neg h0] at h ⊢
    by_cases hi : lower_bound s._max v = s._max.length
    · simp only [hi, if_true]
    · simp only [hi, if_false] at h ⊢
      by_cases hx : (s._list.getD (lower_bound s._max v) []).get?
          (lower_bound (s._list.getD (lower_bound s._max v) []) v) = some v
      · simp only [hx, ne_eq, not_true_eq_false, if_false] at h
        exact absurd h (by simp)
      · simp only [hx, ne_eq, not_false_eq_true, if_true]

theorem pop_error_state (s : sorted_list α) (e : err) (h : (pop s).1 = .error e) :
    (pop s).2 = s := by
  unfold pop at h ⊢
  by_cases h0 : s._len = 0
  · rw [if_pos h0]
  · rw [if_neg h0] at h ⊢
    simp only at h ⊢
    cases hx : (s._list.getD (len_sub s._list.length 1) []).get?
        (len_sub (s._list.getD (len_sub s._list.length 1) []).length 1) with
    | none => rfl
    | some x =>
      rw [hx] at h
      exact absurd h (by simp)

theorem remove_at_range_error_state (s : sorted_list α) (r : Nat)
    (h : (remove_at r s).1 = .error .index_out_of_range) : (remove_at r s).2 = s := by
  unfold remove_at at h ⊢
  by_cases h0 : s._len = 0
  · rw [if_pos h0]
  · rw [if_neg h0] at h ⊢
    by_cases hfast : r < (s._list.getD 0 []).length
    · rw [if_pos hfast] at h ⊢
      cases hx : (s._list.getD 0 []).get? r with
      | none => rfl
      | some x =>
        rw [hx] at h
        exact absurd h (by simp)
    · rw [if_neg hfast] at h ⊢
      have hpe := place_error_state s r
      rcases hP : _place r s with ⟨res, s2⟩
      rw [hP] at h hpe
      cases res with
      | error e =>
        simp only at h ⊢
        exact hpe e rfl
      | ok p =>
        obtain ⟨j, k⟩ := p
        simp only at h ⊢
        cases hx : (s2._list.getD j []).get? k with
        | none =>
          rw [hx] at h
          exact absurd h (by simp)
        | some x =>
          rw [hx] at h
          exact absurd h (by simp)

end error_paths

/-- C11: a call that signals an error leaves the container as it was: when `find` fails
with NotFound, `pop` with Empty or `remove_at` with IndexOutOfRange, the whole state after
the call (buckets, maxima, total length, index and leaf offset) is the state before it;
in particular the index is neither rebuilt nor modified. -/
theorem errors_leave_state {α : Type} [LinearOrder α] (s : sorted_list α) (v : α) (r : Nat) :
    ((find v s).1 = .error .element_not_found → (find v s).2 = s) ∧
    ((pop s).1 = .error .list_is_empty → (pop s).2 = s) ∧
    ((remove_at r s).1 = .error .index_out_of_range → (remove_at r s).2 = s) :=
  ⟨find_error_state s v _, pop_error_state s _, remove_at_range_error_state s r⟩

theorem errors_leave_state_witness :
    (find 100 scenario_split).1 = .error .element_not_found ∧
    (find 100 scenario_split).2 = scenario_split ∧
    (pop (with_load Nat 2)).1 = .error .list_is_empty ∧
    (pop (with_load Nat 2)).2 = with_load Nat 2 ∧
    (remove_at 10 (add_all [3, 3, 5, 8] (new Nat))).1 = .error .index_out_of_range ∧
    (remove_at 10 (add_all [3, 3, 5, 8] (new Nat))).2 = add_all [3, 3, 5, 8] (new Nat) :=
  ⟨rfl, (errors_leave_state scenario_split 100 0).1 rfl, rfl,
    (errors_leave_state (with_load Nat 2) 0 0).2.1 rfl, rfl,
    (errors_leave_state (add_all [3, 3, 5, 8] (new Nat)) 0 10).2.2 rfl⟩

section shape
variable {α : Type} [LinearOrder α]

omit [LinearOrder α] in
theorem split_pair (l : List (List α)) (i : Nat) (h : i + 1 < l.length) :
    ∃ L b c R, l = L ++ b :: c :: R ∧ L.length = i := by
  obtain ⟨L, b, R, hl, hL⟩ := split_at l i (by omega)
  subst hl
  cases R with
  | nil => simp at h; omega
  | cons c R => exact ⟨L, b, c, R, rfl, hL⟩

omit [LinearOrder α] in
theorem maxes_getElem? (l : List (List α)) (hne : ∀ b ∈ l, b ≠ []) (i : Nat) :
    (maxes l)[i]? = (l.getD i []).getLast? := by
  induction l generalizing i with
  | nil => simp [maxes]
  | cons b l ih =>
    obtain ⟨m, hm⟩ := last_some_of_ne_nil b (hne b (by simp))
    rw [maxes_cons b m l hm]
    cases i with
    | zero => simp [hm]
    | succ i =>
      have := ih (fun c hc => hne c (by simp [hc])) i
      simpa using this

end shape

/-- C13: in every reachable state the flattened view is non-decreasing: every bucket is
sorted, and the last element of a bucket is at most the first element of the next one. -/
theorem view_sorted {α : Type} [LinearOrder α] (load : Nat) (s : sorted_list α)
    (hload : 0 < load) (hs : Reachable load s) :
    List.Sorted (· ≤ ·) (get_view s) ∧
    (∀ b ∈ s._list, List.Sorted (· ≤ ·) b) ∧
    (∀ i x y, (s._list.getD i []).getLast? = some x →
      (s._list.getD (i + 1) []).head? = some y → x ≤ y) := by
  have hb := (reachable_inv hload hs).buckets
  refine ⟨hb.sorted, bucket_sorted s._list hb.sorted, ?_⟩
  intro i x y hx hy
  by_cases hi : i + 1 < s._list.length
  · obtain ⟨L, b, c, R, hl, hL⟩ := split_pair s._list i hi
    have hs' := hb.sorted
    rw [hl] at hx hy hs'
    rw [← hL, getD_split] at hx
    rw [← hL, getD_split_succ] at hy
    have hxb : x ∈ b := by
      obtain ⟨ys, rfl⟩ := List.getLast?_eq_some_iff.mp hx
      simp
    have hyc : y ∈ c := List.mem_of_mem_head? hy
    simp only [List.flatten_append, List.flatten_cons] at hs'
    rw [List.pairwise_append] at hs'
    have h2 := hs'.2.1
    rw [List.pairwise_append] at h2
    exact h2.2.2 x hxb y (by simp [hyc])
  · rw [List.getD_eq_getElem?_getD, List.getElem?_eq_none (by omega)] at hy
    simp at hy

theorem view_sorted_witness :
    0 < 2 ∧ Reachable 2 scenario_split ∧
    (List.Sorted (· ≤ ·) (get_view scenario_split) ∧
    (∀ b ∈ scenario_split._list, List.Sorted (· ≤ ·) b) ∧
    (∀ i x y, (scenario_split._list.getD i []).getLast? = some x →
      (scenario_split._list.getD (i + 1) []).head? = some y → x ≤ y)) :=
  ⟨by decide, reachable_add_all (by decide) _ Reachable.init (by decide),
    view_sorted 2 scenario_split (by decide)
      (reachable_add_all (by decide) _ Reachable.init (by decide))⟩

/-- C16: in every reachable state the max tracker has exactly one entry per bucket, entry
`i` is the last element of bucket `i`, and the entries are non-decreasing. -/
theorem max_tracker {α : Type} [LinearOrder α] (load : Nat) (s : sorted_list α)
    (hload : 0 < load) (hs : Reachable load s) :
    s._max.length = s._list.length ∧
    (∀ i, i < s._list.length →
      ∃ m, s._max[i]? = some m ∧ (s._list.getD i []).getLast? = some m) ∧
    List.Sorted (· ≤ ·) s._max := by
  have hb := (reachable_inv hload hs).buckets
  have hlen : s._max.length = s._list.length := by
    rw [hb.max_eq]; exact maxes_length _ hb.nonempty
  refine ⟨hlen, ?_, by rw [hb.max_eq]; exact maxes_sorted _ hb.sorted⟩
  intro i hi
  have h1 := maxes_getElem? s._list hb.nonempty i
  rw [← hb.max_eq] at h1
  have h2 : i < s._max.length := by omega
  exact ⟨s._max[i], List.getElem?_eq_getElem h2, by rw [← h1, List.getElem?_eq_getElem h2]⟩

theorem max_tracker_witness :
    0 < 2 ∧ Reachable 2 (remove 5 scenario_split).2 ∧
    ((remove 5 scenario_split).2._max.length = (remove 5 scenario_split).2._list.length ∧
    (∀ i, i < (remove 5 scenario_split).2._list.length →
      ∃ m, (remove 5 scenario_split).2._max[i]? = some m ∧
        ((remove 5 scenario_split).2._list.getD i []).getLast? = some m) ∧
    List.Sorted (· ≤ ·) (remove 5 scenario_split).2._max) :=
  ⟨by decide, Reachable.remove 5 (reachable_add_all (by decide) _ Reachable.init (by decide)),
    max_tracker 2 _ (by decide)
      (Reachable.remove 5 (reachable_add_all (by decide) _ Reachable.init (by decide)))⟩

end sortc


namespace sortc

section power_of_two

theorem bit_trick_one : _bit_trick 1 = 0 := by decide

/-- For a count between 1 and `2^63`, `_bit_trick` is one less than `2 ^ ⌈log₂ n⌉`. -/
theorem bit_trick_clog (n : Nat) (h1 : 1 ≤ n) (hn : n ≤ 2 ^ 63) :
    _bit_trick n + 1 = 2 ^ Nat.clog 2 n := by
  by_cases h2 : 2 ≤ n
  · obtain ⟨D, hD1, hD, hle, hlt⟩ := bit_trick_pow n h2 hn
    have hc1 : Nat.clog 2 n ≤ D := (Nat.le_pow_iff_clog_le (by decide)).mp hle
    have hc2 : D ≤ Nat.clog 2 n := by
      by_contra hc
      have hlt' : Nat.clog 2 n ≤ D - 1 := by omega
      have h3 : 2 ^ Nat.clog 2 n ≤ 2 ^ (D - 1) := Nat.pow_le_pow_right (by decide) hlt'
      have h4 : n ≤ 2 ^ Nat.clog 2 n := Nat.le_pow_clog (by decide) n
      have h5 : 2 ^ D = 2 * 2 ^ (D - 1) := by
        obtain ⟨D', rfl⟩ : ∃ D', D = D' + 1 := ⟨D - 1, by omega⟩
        rw [pow_succ, Nat.add_sub_cancel]
        omega
      omega
    rw [hD, le_antisymm hc1 hc2]
  · have : n = 1 := by omega
    subst this
    rw [bit_trick_one]
    simp

end power_of_two

/-- C20: for every 64-bit `n` with `1 ≤ n ≤ 2^63`, `_bit_trick n + 1` is the smallest power
of two that is at least `n`, so `_bit_trick n = 2 ^ ⌈log₂ n⌉ - 1`; a power of two gives
`n - 1`. -/
theorem bit_trick_next_power (n : Nat) (h1 : 1 ≤ n) (hn : n ≤ 2 ^ 63) :
    _bit_trick n = 2 ^ Nat.clog 2 n - 1 ∧
    n ≤ _bit_trick n + 1 ∧
    (∃ D, _bit_trick n + 1 = 2 ^ D) ∧
    (∀ k, n ≤ 2 ^ k → _bit_trick n + 1 ≤ 2 ^ k) ∧
    (∀ k, n = 2 ^ k → _bit_trick n = n - 1) := by
  have hc := bit_trick_clog n h1 hn
  have hle : n ≤ 2 ^ Nat.clog 2 n := Nat.le_pow_clog (by decide) n
  refine ⟨by omega, by omega, ⟨_, hc⟩, ?_, ?_⟩
  · intro k hk
    rw [hc]
    exact Nat.pow_le_pow_right (by decide) ((Nat.le_pow_iff_clog_le (by decide)).mp hk)
  · intro k hk
    have : Nat.clog 2 n = k := by rw [hk]; exact Nat.clog_pow 2 k (by decide)
    rw [this] at hc
    omega

theorem bit_trick_next_power_witness :
    1 ≤ 5 ∧ 5 ≤ 2 ^ 63 ∧
    (_bit_trick 5 = 2 ^ Nat.clog 2 5 - 1 ∧
    5 ≤ _bit_trick 5 + 1 ∧
    (∃ D, _bit_trick 5 + 1 = 2 ^ D) ∧
    (∀ k, 5 ≤ 2 ^ k → _bit_trick 5 + 1 ≤ 2 ^ k) ∧
    (∀ k, 5 = 2 ^ k → _bit_trick 5 = 5 - 1)) :=
  ⟨by decide, by decide, bit_trick_next_power 5 (by decide) (by decide)⟩

section layout
variable {α : Type}

theorem build_index_single (s : sorted_list α) (hix : s._index = [])
    (h1 : s._list.length = 1) :
    (_build_index s)._index = [(s._list.getD 0 []).length] ∧ (_build_index s)._off = 0 := by
  unfold _build_index
  rw [if_pos h1]
  simp [hix]

/-- The layout of the array built by `_build_index` for at least two buckets. -/
theorem build_index_shape (s : sorted_list α) (hix : s._index = [])
    (h2 : 2 ≤ s._list.length) (hcap : s._list.length ≤ 2 ^ 63) :
    (_build_index s)._off + 1 = 2 ^ Nat.clog 2 s._list.length ∧
    TreeOK (sizes s._list) (_build_index s)._index (_build_index s)._off ∧
    (_build_index s)._index.getD 0 0 = s._list.flatten.length := by
  obtain ⟨D, aux, hD, hle, hodd⟩ := bit_trick_shape _ h2 hcap
  have ht := build_index_tree s hix _ aux rfl hodd (by omega) (by omega)
  have hc := bit_trick_clog _ (by omega) hcap
  rw [ht.2]
  refine ⟨hc, ht.1, ?_⟩
  have hr := tree_range (sizes s._list) _ _ D ht.1 hD D 0 (by omega) 0 (by simp)
  simp only [pow_zero, Nat.sub_self, Nat.add_zero, Nat.mul_zero, psum_zero, Nat.zero_add] at hr
  rw [hr]
  exact psum_sizes_total s._list (2 ^ D) hle

end layout

/-- C19: after `_build_index` ran on `b ≥ 2` buckets with an empty index (and `b ≤ 2^63`,
the range of `_bit_trick`), with `m` the smallest power of two that is at least `b`: the
array has `m - 1 + b` entries, the leaf offset is `m - 1`, entry `m - 1 + i` is the length
of bucket `i`, every internal node `k < m - 1` is the sum of its children at `2k + 1` and
`2k + 2` (a child beyond the end counting as 0) and the root is the total element count;
for `b = 1` the index is the single entry holding the size of that bucket. -/
theorem build_index_layout {α : Type} (s : sorted_list α) (hix : s._index = [])
    (hcap : s._list.length ≤ 2 ^ 63) :
    (2 ≤ s._list.length →
      s._list.length ≤ 2 ^ Nat.clog 2 s._list.length ∧
      (∀ k, s._list.length ≤ 2 ^ k → 2 ^ Nat.clog 2 s._list.length ≤ 2 ^ k) ∧
      (_build_index s)._index.length = 2 ^ Nat.clog 2 s._list.length - 1 + s._list.length ∧
      (_build_index s)._off = 2 ^ Nat.clog 2 s._list.length - 1 ∧
      (∀ i, i < s._list.length →
        (_build_index s)._index.getD (2 ^ Nat.clog 2 s._list.length - 1 + i) 0
          = (s._list.getD i []).length) ∧
      (∀ k, k < 2 ^ Nat.clog 2 s._list.length - 1 →
        (_build_index s)._index.getD k 0
          = (_build_index s)._index.getD (2 * k + 1) 0
            + (_build_index s)._index.getD (2 * k + 2) 0) ∧
      (_build_index s)._index.getD 0 0 = (get_view s).length) ∧
    (s._list.length = 1 →
      (_build_index s)._index = [(s._list.getD 0 []).length] ∧ (_build_index s)._off = 0) := by
  refine ⟨fun h2 => ?_, build_index_single s hix⟩
  obtain ⟨hoff, ht, hroot⟩ := build_index_shape s hix h2 hcap
  have hszl := sizes_length s._list
  have hoff' : (_build_index s)._off = 2 ^ Nat.clog 2 s._list.length - 1 := by omega
  refine ⟨Nat.le_pow_clog (by decide) _, ?_, ?_, hoff', ?_, ?_, hroot⟩
  · intro k hk
    exact Nat.pow_le_pow_right (by decide) ((Nat.le_pow_iff_clog_le (by decide)).mp hk)
  · rw [ht.1, hszl, hoff']
  · intro i hi
    rw [← hoff', ht.all]
    simp only [expected, if_neg (show ¬ (_build_index s)._off + i < (_build_index s)._off by omega),
      Nat.add_sub_cancel_left]
    rw [sizes_getD]
  · intro k hk
    rw [← hoff'] at hk
    have := ht.all k
    simp only [expected, if_pos hk] at this
    have e1 : 2 * k + 1 = k * 2 + 1 := by omega
    have e2 : 2 * k + 2 = k * 2 + 2 := by omega
    rw [e1, e2]
    exact this

theorem build_index_layout_witness :
    scenario_split._index = [] ∧ scenario_split._list.length ≤ 2 ^ 63 ∧
    2 ≤ scenario_split._list.length ∧
    (_build_index scenario_split)._index.length
      = 2 ^ Nat.clog 2 scenario_split._list.length - 1 + scenario_split._list.length ∧
    (_build_index scenario_split)._index.getD 0 0 = (get_view scenario_split).length :=
  ⟨by decide, by decide, by decide,
    ((build_index_layout scenario_split (by decide) (by decide)).1 (by decide)).2.2.1,
    ((build_index_layout scenario_split (by decide) (by decide)).1 (by decide)).2.2.2.2.2.2⟩

end sortc


namespace sortc

section consistent
variable {α : Type}

theorem walk_up_length (f : Nat → Nat) :
    ∀ fuel c (ix : List Nat), (walk_up f fuel c ix).length = ix.length := by
  intro fuel
  induction fuel with
  | zero => intro c ix; rfl
  | succ fuel ih =>
    intro c ix
    unfold walk_up
    split
    · rfl
    · rw [ih, List.length_set]

theorem update_path_length (f : Nat → Nat) (c : Nat) (ix : List Nat) :
    (update_path f c ix).length = ix.length := by
  unfold update_path
  simp only [List.length_set, walk_up_length]

/-- An index that reflects the bucket sizes is the one a rebuild produces. -/
theorem index_ok_consistent (s : sorted_list α) (h : IndexOK s)
    (hn : s._list.length ≤ 2 ^ 63) : Consistent s := by
  by_cases h0 : s._index = []
  · exact Or.inl h0
  · obtain ⟨h2, hoff, ht⟩ := h h0
    obtain ⟨D, aux, hD, hle, hodd⟩ := bit_trick_shape _ h2 hn
    have hb := build_index_tree { s with _index := [] } rfl (_bit_trick s._list.length) aux rfl
      hodd (by show s._list.length ≤ _; omega) (by show s._list.length ≠ 1; omega)
    have ht2 := ht hn
    rw [hoff] at ht2
    refine Or.inr ⟨TreeOK.unique ht2 hb.1, ?_⟩
    rw [hoff]
    exact hb.2.symm

/-- On at least two buckets a consistent index reflects the bucket sizes. -/
theorem consistent_index_ok (s : sorted_list α) (h : Consistent s)
    (h2 : 2 ≤ s._list.length) : IndexOK s := by
  intro hne
  rcases h with h0 | ⟨hix, hoff⟩
  · exact absurd h0 hne
  · have hoff2 : s._off = _bit_trick s._list.length := by
      rw [hoff]
      exact build_index_off { s with _index := [] } (by show s._list.length ≠ 1; omega)
    refine ⟨h2, hoff2, fun hn => ?_⟩
    obtain ⟨D, aux, hD, hle, hodd⟩ := bit_trick_shape _ h2 hn
    have hb := build_index_tree { s with _index := [] } rfl (_bit_trick s._list.length) aux rfl
      hodd (by show s._list.length ≤ _; omega) (by show s._list.length ≠ 1; omega)
    rw [hix, hoff2]
    exact hb.1

theorem expand_split_clears (t : sorted_list α) (i : Nat)
    (hbig : t._load * 2 < (t._list.getD i []).length) : (_expand i t)._index = [] := by
  unfold _expand
  simp only [gt_iff_lt, hbig, if_true]
  split
  · rename_i hnone
    rw [List.getLast?_eq_none_iff] at hnone
    rw [hnone] at hbig
    simp at hbig
  · rfl

theorem delete_small_clears (s : sorted_list α) (hix : IndexOK s) (i j : Nat)
    (hsmall : ¬ s._load / 2 < ((s._list.getD i []).eraseIdx j).length) :
    (_delete i j s)._index = [] := by
  unfold _delete
  simp only [gt_iff_lt, hsmall, if_false]
  by_cases hmulti : 1 < (s._list.set i ((s._list.getD i []).eraseIdx j)).length
  · simp only [hmulti, if_true]
    exact expand_index_nil _ _ rfl
  · simp only [hmulti, if_false]
    split
    · rfl
    · show s._index = []
      by_contra hne
      have := (hix hne).1
      rw [List.length_set] at hmulti
      omega

theorem delete_in_place_index (s : sorted_list α) (i j : Nat)
    (hbig : s._load / 2 < ((s._list.getD i []).eraseIdx j).length) (hne : s._index ≠ []) :
    (_delete i j s)._index ≠ [] := by
  unfold _delete
  simp only [gt_iff_lt, hbig, if_true]
  have h0 : s._index.length ≠ 0 := fun hc => hne (List.length_eq_zero.mp hc)
  rw [if_pos h0]
  intro hc
  have := update_path_length (fun c => len_sub c 1) (s._off + i) s._index
  rw [hc] at this
  exact h0 this.symm

end consistent

section consistent_ops
variable {α : Type} [LinearOrder α]

theorem sound_consistent {load : Nat} {s : sorted_list α} (h : Sound load s)
    (hload : 2 ≤ load) : Consistent s :=
  index_ok_consistent s h.inv.index (h.bucket_count hload)

theorem add_in_place_index (s : sorted_list α) (h : BucketsOK s) (el : α)
    (hne : s._index ≠ []) (hsame : (add el s)._list.length = s._list.length) :
    (add el s)._index ≠ [] := by
  rcases add_cases s h el with ⟨hnil, heq⟩ | ⟨L, b, R, b2, hl, -, hpre, -, heq⟩
  · rw [heq]
    exact hne
  · rw [heq] at hsame ⊢
    have hexp := expand_eq (add_pre s L R b2) L R b2 rfl
      (fun c hc => hpre.nonempty c (by simp [add_pre, hc])) hpre.max_eq
      (hpre.nonempty b2 (by simp [add_pre])) hpre.load_pos
    simp only at hsame ⊢
    rw [hexp] at hsame ⊢
    by_cases hbig : b2.length > (add_pre s L R b2)._load * 2
    · rw [if_pos hbig] at hsame
      rw [hl] at hsame
      simp only [List.length_append, List.length_cons] at hsame
      omega
    · rw [if_neg hbig]
      have h0 : (add_pre s L R b2)._index.length ≠ 0 :=
        fun hc => hne (List.length_eq_zero.mp hc)
      rw [if_pos h0]
      intro hc
      have := update_path_length (fun c => c + 1) ((add_pre s L R b2)._off + L.length)
        (add_pre s L R b2)._index
      simp only at hc
      rw [hc] at this
      exact h0 this.symm

end consistent_ops

/-- C17: in every state reachable through the public operations (load factor at least 2,
the code's is 100) the index array is empty or equal to the array a full rebuild would
produce, with the same leaf offset.  After an insert that does not split and after a
delete that does not merge, an index that was present is still present and is exactly the
rebuilt one; a split, and every delete that leaves its bucket at or below half the load
(merge or removal of the bucket), leaves the index empty. -/
theorem index_empty_or_rebuilt {α : Type} [LinearOrder α] (load : Nat) (s : sorted_list α)
    (hload : 2 ≤ load) (hs : Reachable load s) :
    Consistent s ∧
    (∀ el, size s + 1 < 2 ^ 64 → s._index ≠ [] →
      (add el s)._list.length = s._list.length →
      (add el s)._index ≠ [] ∧ (add el s)._index = (rebuild (add el s))._index ∧
        (add el s)._off = (rebuild (add el s))._off) ∧
    (∀ L b R j, s._list = L ++ b :: R → j < b.length →
      s._load / 2 < (b.eraseIdx j).length → s._index ≠ [] →
      (_delete L.length j s)._index ≠ [] ∧
        (_delete L.length j s)._index = (rebuild (_delete L.length j s))._index ∧
        (_delete L.length j s)._off = (rebuild (_delete L.length j s))._off) ∧
    (∀ (t : sorted_list α) i, t._load * 2 < (t._list.getD i []).length →
      (_expand i t)._index = []) ∧
    (∀ i j, ¬ s._load / 2 < ((s._list.getD i []).eraseIdx j).length →
      (_delete i j s)._index = []) := by
  have hsound := reachable_sound (by omega : 0 < load) hs
  refine ⟨sound_consistent hsound hload, ?_, ?_, expand_split_clears,
    delete_small_clears s hsound.inv.index⟩
  · intro el hcap hne hsame
    have hne2 := add_in_place_index s hsound.inv.buckets el hne hsame
    rcases sound_consistent (add_sound s hsound el hcap) hload with h0 | h1
    · exact absurd h0 hne2
    · exact ⟨hne2, h1⟩
  · intro L b R j hl hj hbig hne
    have hne2 : (_delete L.length j s)._index ≠ [] :=
      delete_in_place_index s L.length j (by rw [hl, getD_split]; exact hbig) hne
    rcases sound_consistent (delete_sound s hsound L R b j hl hj).1 hload with h0 | h1
    · exact absurd h0 hne2
    · exact ⟨hne2, h1⟩

theorem index_empty_or_rebuilt_witness :
    2 ≤ 2 ∧ Reachable 2 (find 7 scenario_split).2 ∧
    (find 7 scenario_split).2._index = [12, 8, 4, 4, 4, 4] ∧
    Consistent (find 7 scenario_split).2 :=
  ⟨by decide,
    Reachable.find 7 (reachable_add_all (by decide) _ Reachable.init (by decide)),
    by decide,
    (index_empty_or_rebuilt 2 (find 7 scenario_split).2 (by decide)
      (Reachable.find 7 (reachable_add_all (by decide) _ Reachable.init (by decide)))).1⟩

end sortc


namespace sortc

section inverse
variable {α : Type}

/-- A rank determines its pair (bucket, offset). -/
theorem psum_position_unique (sz : List Nat) (b o i j : Nat) (ho : o < sz.getD b 0)
    (hj : j < sz.getD i 0) (h : psum sz b + o = psum sz i + j) : b = i ∧ o = j := by
  rcases Nat.lt_trichotomy b i with hlt | heq | hgt
  · have h1 := psum_mono sz (b + 1) i (by omega)
    rw [psum_succ] at h1
    omega
  · subst heq
    exact ⟨rfl, by omega⟩
  · have h1 := psum_mono sz (i + 1) b (by omega)
    rw [psum_succ] at h1
    omega

theorem place_first_bucket (s : sorted_list α) (b0 : List α) (rest : List (List α))
    (hl : s._list = b0 :: rest) (r : Nat) (hr : r < b0.length) (hlen : r ≤ s._len) :
    _place r s = (.ok (0, r), s) := by
  unfold _place
  rw [if_neg (by omega), hl]
  simp only [List.head?_cons]
  rw [if_pos hr]

theorem locate_first_bucket (s : sorted_list α) (j : Nat) : _locate 0 j s = (j, s) := by
  unfold _locate
  rw [if_pos rfl]

end inverse

/-- C18: on a well-formed state (no empty bucket, `_len` the total length, index absent or
consistent; at most `2^63` buckets, the range of `_bit_trick`): for every rank `r < size()`
`_place(r)` returns a valid pair and `_locate` of that pair is `r`; for every bucket `i`
and offset `j` inside it `_locate(i, j)` is the sum of the lengths of buckets `0..i-1`
plus `j`, a valid rank, and `_place` of it returns `(i, j)`. -/
theorem locate_place_inverse {α : Type} (s : sorted_list α) (h : WellFormed s)
    (hcap : s._list.length ≤ 2 ^ 63) :
    (∀ r, r < size s → ∃ b o, (_place r s).1 = .ok (b, o) ∧ b < s._list.length ∧
        o < (s._list.getD b []).length ∧ (_locate b o (_place r s).2).1 = r) ∧
    (∀ i j, i < s._list.length → j < (s._list.getD i []).length →
        (_locate i j s).1 = ((s._list.take i).map List.length).sum + j ∧
        (_locate i j s).1 < size s ∧
        (_place (_locate i j s).1 (_locate i j s).2).1 = .ok (i, j)) := by
  obtain ⟨hne, hlen, hcons⟩ := h
  unfold size
  by_cases h2 : 2 ≤ s._list.length
  · have hix := consistent_index_ok s hcons h2
    constructor
    · intro r hr
      obtain ⟨b, o, hp, hsum, ho⟩ := place_spec s hlen hix r hr hcap
      obtain ⟨d1, -, -, -⟩ := place_data s r
      have hix2 := place_index s hlen hix r hr
      have hb : b < s._list.length := by
        by_contra hc
        rw [List.getD_eq_getElem?_getD,
          List.getElem?_eq_none (by rw [sizes_length]; omega)] at ho
        simp at ho
      refine ⟨b, o, hp, hb, by rw [sizes_getD]; exact ho, ?_⟩
      rw [locate_spec _ hix2 b o (by rw [d1]; exact hb) (by rw [d1]; exact hcap), d1]
      exact hsum
    · intro i j hi hj
      have hloc := locate_spec s hix i j hi hcap
      obtain ⟨d1, -, d3, -⟩ := locate_data s i j
      have hix3 := locate_index s hix i j hi
      have hj2 : j < (sizes s._list).getD i 0 := by rw [← sizes_getD]; exact hj
      have hlt : (_locate i j s).1 < s._len := by
        rw [hloc, hlen, ← psum_sizes_total s._list s._list.length (le_refl _)]
        have := psum_mono (sizes s._list) (i + 1) s._list.length (by omega)
        rw [psum_succ] at this
        omega
      refine ⟨?_, hlt, ?_⟩
      · rw [hloc]
        unfold psum sizes
        rw [List.map_take]
      · obtain ⟨b, o, hp, hsum, ho⟩ := place_spec (_locate i j s).2
          (by rw [d3, d1]; exact hlen) hix3 (_locate i j s).1 (by rw [d3]; exact hlt)
          (by rw [d1]; exact hcap)
        rw [d1, hloc] at hsum
        rw [d1] at ho
        obtain ⟨hb, ho2⟩ := psum_position_unique _ b o i j ho hj2 hsum
        rw [hp, hb, ho2]
  · cases hl : s._list with
    | nil =>
      rw [hl] at hlen
      constructor
      · intro r hr
        simp at hlen
        omega
      · intro i j hi
        simp at hi
    | cons b0 rest =>
      have hrest : rest = [] := by
        rw [hl] at h2
        cases rest with
        | nil => rfl
        | cons c rest2 => simp at h2
      subst hrest
      have hlen2 : s._len = b0.length := by rw [hlen, hl]; simp
      constructor
      · intro r hr
        refine ⟨0, r, ?_, by simp, by simpa using by omega, ?_⟩
        · rw [place_first_bucket s b0 [] hl r (by omega) (by omega)]
        · rw [locate_first_bucket]
      · intro i j hi hj
        have hi0 : i = 0 := by simpa using hi
        subst hi0
        have hj2 : j < b0.length := by simpa using hj
        rw [locate_first_bucket]
        refine ⟨by simp, by simp only; omega, ?_⟩
        simp only
        rw [place_first_bucket s b0 [] hl j hj2 (by omega)]

theorem locate_place_inverse_witness :
    WellFormed (find 7 scenario_split).2 ∧ (find 7 scenario_split).2._list.length ≤ 2 ^ 63 ∧
    (∃ b o, (_place 6 (find 7 scenario_split).2).1 = .ok (b, o) ∧
      b < (find 7 scenario_split).2._list.length ∧
      o < ((find 7 scenario_split).2._list.getD b []).length ∧
      (_locate b o (_place 6 (find 7 scenario_split).2).2).1 = 6) ∧
    (_place (_locate 2 1 (find 7 scenario_split).2).1
      (_locate 2 1 (find 7 scenario_split).2).2).1 = .ok (2, 1) :=
  ⟨⟨by decide, by decide, Or.inr ⟨by decide, by decide⟩⟩, by decide,
    (locate_place_inverse (find 7 scenario_split).2
      ⟨by decide, by decide, Or.inr ⟨by decide, by decide⟩⟩ (by decide)).1 6 (by decide),
    ((locate_place_inverse (find 7 scenario_split).2
      ⟨by decide, by decide, Or.inr ⟨by decide, by decide⟩⟩ (by decide)).2 2 1
      (by decide) (by decide)).2.2⟩

/-- C14: in every reachable state (in particular after any sequence of `add` calls; load
factor at least 2, the code's is 100), for every value `v` the container holds, `find(v)`
returns a rank `r < size()` and `operator[](r)`, called on the object as `find` left it,
returns `v`. -/
theorem find_then_index {α : Type} [LinearOrder α] (load : Nat) (s : sorted_list α)
    (hload : 2 ≤ load) (hs : Reachable load s) (v : α) (hv : v ∈ get_view s) :
    ∃ r, (find v s).1 = .ok r ∧ r < size s ∧ (operator_at r (find v s).2).1 = .ok v := by
  have hsound := reachable_sound (by omega : 0 < load) hs
  have hn := hsound.bucket_count hload
  obtain ⟨r, hfind, hget, -⟩ := find_present s hsound.inv v hv hn
  obtain ⟨L, b, R, hl, -, -, -, heq⟩ := find_present_eq s hsound.inv v hv
  obtain ⟨d1, -, d3, -⟩ := locate_data s L.length (lower_bound b v)
  have hs2 : (find v s).2 = (_locate L.length (lower_bound b v) s).2 := by rw [heq]
  have hsound2 := find_sound s hsound v
  have hr : r < s._len := by
    rw [hsound.inv.len_eq]
    obtain ⟨hlt, -⟩ := List.getElem?_eq_some.mp hget
    exact hlt
  obtain ⟨x, hop, hview⟩ := operator_at_spec (find v s).2 hsound2.inv r
    (by rw [hs2, d3]; exact hr) (by rw [hs2, d1]; exact hn)
  have hsame : get_view (find v s).2 = get_view s := by
    unfold get_view
    rw [hs2, d1]
  rw [hsame, hget] at hview
  injection hview with hx
  exact ⟨r, hfind, hr, by rw [hop, hx]⟩

theorem find_then_index_witness :
    2 ≤ 2 ∧ Reachable 2 scenario_split ∧ 7 ∈ get_view scenario_split ∧
    ∃ r, (find 7 scenario_split).1 = .ok r ∧ r < size scenario_split ∧
      (operator_at r (find 7 scenario_split).2).1 = .ok 7 :=
  ⟨by decide, reachable_add_all (by decide) _ Reachable.init (by decide), by decide,
    find_then_index 2 scenario_split (by decide)
      (reachable_add_all (by decide) _ Reachable.init (by decide)) 7 (by decide)⟩

end sortc


namespace sortc

section bounded
variable {α : Type}

/-- The bucket store `_expand` leaves behind. -/
theorem expand_list (s : sorted_list α) (L R : List (List α)) (b : List α)
    (hl : s._list = L ++ b :: R) :
    (_expand L.length s)._load = s._load ∧
    (_expand L.length s)._list =
      if b.length > s._load * 2 then L ++ b.take s._load :: b.drop s._load :: R
      else L ++ b :: R := by
  obtain ⟨len, load, list, mx, ix, off⟩ := s
  simp only at hl
  subst hl
  unfold _expand
  simp only [getD_split]
  by_cases hbig : b.length > load * 2
  · simp only [hbig, if_true]
    cases hlast : b.getLast? with
    | none =>
      rw [List.getLast?_eq_none_iff] at hlast
      rw [hlast] at hbig
      simp at hbig
    | some last =>
      simp only [insertIdx_succ_split, set_split]
      exact ⟨trivial, trivial⟩
  · simp only [hbig, if_false]
    split <;> exact ⟨rfl, rfl⟩

theorem merged_bounded (len load off : Nat) (mx : List α) (ix : List Nat)
    (L2 R2 : List (List α)) (x : List α) (hp : 0 < load)
    (hL : ∀ c ∈ L2, c.length ≤ load * 2) (hR : ∀ c ∈ R2, c.length ≤ load * 2)
    (hx : x.length ≤ load * 3) :
    Bounded (_expand L2.length
      { _len := len, _load := load, _list := L2 ++ x :: R2, _max := mx, _index := ix,
        _off := off }) := by
  obtain ⟨e1, e2⟩ := expand_list
    { _len := len, _load := load, _list := L2 ++ x :: R2, _max := mx, _index := ix,
      _off := off } L2 R2 x rfl
  intro c hc
  rw [e1]
  rw [e2] at hc
  simp only at hc ⊢
  by_cases hbig : x.length > load * 2
  · rw [if_pos hbig] at hc
    simp only [List.mem_append, List.mem_cons] at hc
    rcases hc with hc | rfl | rfl | hc
    · exact hL c hc
    · rw [List.length_take]
      omega
    · rw [List.length_drop]
      omega
    · exact hR c hc
  · rw [if_neg hbig] at hc
    simp only [List.mem_append, List.mem_cons] at hc
    rcases hc with hc | rfl | hc
    · exact hL c hc
    · omega
    · exact hR c hc

/-- Erasing a valid position keeps every bucket within twice the load. -/
theorem delete_bounded (s : sorted_list α) (L R : List (List α)) (b : List α) (j : Nat)
    (hl : s._list = L ++ b :: R) (hj : j < b.length) (hp : 0 < s._load) (hb : Bounded s) :
    Bounded (_delete L.length j s) := by
  obtain ⟨len, load, list, mx, ix, off⟩ := s
  unfold Bounded at hb
  simp only at hl hp hb
  subst hl
  have hLb : ∀ c ∈ L, c.length ≤ load * 2 := fun c hc => hb c (by simp [hc])
  have hRb : ∀ c ∈ R, c.length ≤ load * 2 := fun c hc => hb c (by simp [hc])
  have hbb : b.length ≤ load * 2 := hb b (by simp)
  have hb2len : (b.eraseIdx j).length = b.length - 1 := List.length_eraseIdx_of_lt hj
  unfold _delete
  simp only [getD_split, set_split]
  by_cases hbig : (b.eraseIdx j).length > load / 2
  · rw [if_pos hbig]
    intro c hc
    simp only [List.mem_append, List.mem_cons] at hc
    rcases hc with hc | rfl | hc
    · exact hLb c hc
    · show (b.eraseIdx j).length ≤ load * 2
      omega
    · exact hRb c hc
  · rw [if_neg hbig]
    by_cases hmulti : (L ++ b.eraseIdx j :: R).length > 1
    · rw [if_pos hmulti]
      by_cases hL0 : L.length = 0
      · have hLnil : L = [] := List.length_eq_zero.mp hL0
        subst hLnil
        obtain ⟨c, R2, rfl⟩ : ∃ c R2, R = c :: R2 := by
          cases R with
          | nil => simp at hmulti
          | cons c R2 => exact ⟨c, R2, rfl⟩
        have hlist : (([] ++ b.eraseIdx j :: c :: R2).set 0
            (([] ++ b.eraseIdx j :: c :: R2).getD 0 [] ++
              ([] ++ b.eraseIdx j :: c :: R2).getD 1 [])).eraseIdx 1
            = [] ++ (b.eraseIdx j ++ c) :: R2 := by
          simp
        simp only [List.length_nil, if_true, Nat.zero_add, Nat.add_sub_cancel]
        rw [hlist]
        have hc := hRb c (by simp)
        exact merged_bounded _ _ _ _ _ [] R2 _ hp (by simp)
          (fun d hd => hRb d (by simp [hd]))
          (by rw [List.length_append]; omega)
      · obtain ⟨L2, a, rfl⟩ : ∃ L2 a, L = L2 ++ [a] := by
          rcases List.eq_nil_or_concat L with hnil | ⟨L2, a, hLa⟩
          · rw [hnil] at hL0; simp at hL0
          · exact ⟨L2, a, by rw [hLa, List.concat_eq_append]⟩
        have hidx : (L2 ++ [a]).length = L2.length + 1 := by simp
        have hlst : (L2 ++ [a]) ++ b.eraseIdx j :: R = L2 ++ a :: b.eraseIdx j :: R := by simp
        have hi2 : (if L2.length + 1 = 0 then L2.length + 1 + 1 else L2.length + 1)
            = L2.length + 1 := by rw [if_neg (by omega)]
        rw [hidx, hlst, hi2]
        simp only [Nat.add_sub_cancel, getD_split, getD_split_succ, merge_lists]
        have ha := hLb a (by simp)
        exact merged_bounded _ _ _ _ _ L2 R _ hp (fun d hd => hLb d (by simp [hd])) hRb
          (by rw [List.length_append]; omega)
    · rw [if_neg hmulti]
      have hLnil : L = [] := by
        cases L with
        | nil => rfl
        | cons c L2 => simp at hmulti
      subst hLnil
      have hRnil : R = [] := by
        cases R with
        | nil => rfl
        | cons c R2 => simp at hmulti
      subst hRnil
      by_cases hzero : (b.eraseIdx j).length = 0
      · rw [if_pos hzero]
        intro c hc
        simp at hc
      · rw [if_neg hzero]
        intro c hc
        simp only [List.nil_append, List.mem_singleton] at hc
        subst hc
        show (b.eraseIdx j).length ≤ load * 2
        omega

theorem Bounded.same_store {s s2 : sorted_list α} (h : Bounded s) (hl : s2._list = s._list)
    (hload : s2._load = s._load) : Bounded s2 := by
  intro c hc
  rw [hl] at hc
  rw [hload]
  exact h c hc

end bounded

section bounded_ops
variable {α : Type} [LinearOrder α]

theorem add_bounded (s : sorted_list α) (h : BucketsOK s) (hb : Bounded s) (el : α) :
    Bounded (add el s) := by
  have hp := h.load_pos
  rcases add_cases s h el with ⟨hnil, heq⟩ | ⟨L, b, R, b2, hl, hins, hpre, -, heq⟩
  · rw [heq]
    intro c hc
    simp only [List.mem_singleton] at hc
    subst hc
    simp only [List.length_singleton]
    omega
  · rw [heq]
    obtain ⟨len, load, list, mx, ix, off⟩ := s
    simp only at hl hp
    unfold Bounded at hb
    simp only at hb
    subst hl
    have hb2 : b2.length = b.length + 1 := hins.length
    have hbb := hb b (by simp)
    have key := merged_bounded len load off (maxes (L ++ b2 :: R)) ix L R b2 hp
      (fun d hd => hb d (by simp [hd])) (fun d hd => hb d (by simp [hd])) (by omega)
    intro c hc
    exact key c hc

theorem remove_bounded (s : sorted_list α) (hp : 0 < s._load) (hb : Bounded s) (el : α) :
    Bounded (remove el s).2 := by
  unfold remove
  by_cases h0 : s._max.length = 0
  · rw [if_pos h0]; exact hb
  · rw [if_neg h0]
    by_cases hi : lower_bound s._max el = s._max.length
    · simp only [hi, if_true]; exact hb
    · simp only [hi, if_false]
      by_cases hx : (s._list.getD (lower_bound s._max el) []).get?
          (lower_bound (s._list.getD (lower_bound s._max el) []) el) = some el
      · simp only [hx, ne_eq, not_true_eq_false, if_false]
        obtain ⟨L, b, R, hl, hL, hk, -⟩ := valid_position s._list _ _ el hx
        have := delete_bounded s L R b _ hl hk hp hb
        rw [hL] at this
        exact this
      · simp only [hx, ne_eq, not_false_eq_true, if_true]; exact hb

omit [LinearOrder α] in
theorem pop_bounded (s : sorted_list α) (hp : 0 < s._load) (hb : Bounded s) :
    Bounded (pop s).2 := by
  unfold pop
  by_cases h0 : s._len = 0
  · rw [if_pos h0]; exact hb
  · rw [if_neg h0]
    simp only
    cases hx : (s._list.getD (len_sub s._list.length 1) []).get?
        (len_sub (s._list.getD (len_sub s._list.length 1) []).length 1) with
    | none => exact hb
    | some x =>
      obtain ⟨L, b, R, hl, hL, hk, -⟩ := valid_position s._list _ _ x hx
      have := delete_bounded s L R b _ hl hk hp hb
      rw [hL] at this
      exact this

omit [LinearOrder α] in
theorem remove_at_bounded (s : sorted_list α) (hp : 0 < s._load) (hb : Bounded s) (r : Nat) :
    Bounded (remove_at r s).2 := by
  unfold remove_at
  by_cases h0 : s._len = 0
  · rw [if_pos h0]; exact hb
  · rw [if_neg h0]
    by_cases hfast : r < (s._list.getD 0 []).length
    · rw [if_pos hfast]
      cases hx : (s._list.getD 0 []).get? r with
      | none => exact hb
      | some x =>
        obtain ⟨L, b, R, hl, hL, hk, -⟩ := valid_position s._list 0 r x hx
        have := delete_bounded s L R b r hl hk hp hb
        rw [hL] at this
        exact this
    · rw [if_neg hfast]
      obtain ⟨d1, -, -, d4⟩ := place_data s r
      have hpi : Bounded (_place r s).2 := hb.same_store d1 d4
      rcases hP : _place r s with ⟨res, s2⟩
      rw [hP] at hpi d4
      simp only at hpi d4
      cases res with
      | error e => exact hpi
      | ok p =>
        obtain ⟨j, k⟩ := p
        simp only
        cases hx : (s2._list.getD j []).get? k with
        | none => exact hpi
        | some x =>
          obtain ⟨L, b, R, hl, hL, hk, -⟩ := valid_position s2._list j k x hx
          have := delete_bounded s2 L R b k hl hk (by rw [d4]; exact hp) hpi
          rw [hL] at this
          exact this

theorem find_data (s : sorted_list α) (el : α) :
    (find el s).2._list = s._list ∧ (find el s).2._max = s._max ∧
      (find el s).2._len = s._len ∧ (find el s).2._load = s._load := by
  unfold find
  by_cases h0 : s._len = 0
  · rw [if_pos h0]; exact ⟨rfl, rfl, rfl, rfl⟩
  · rw [if_neg h0]
    by_cases hi : lower_bound s._max el = s._max.length
    · simp only [hi, if_true, and_self]
    · simp only [hi, if_false]
      split
      · exact ⟨rfl, rfl, rfl, rfl⟩
      · exact locate_data s _ _

/-- In every reachable state no bucket holds more than twice the load. -/
theorem reachable_bounded {load : Nat} (hload : 0 < load) {s : sorted_list α}
    (h : Reachable load s) : Bounded s := by
  induction h with
  | init =>
    intro c hc
    simp [with_load] at hc
  | add el hs _ ih => exact add_bounded _ (reachable_inv hload hs).buckets ih el
  | remove el hs ih => exact remove_bounded _ (reachable_inv hload hs).buckets.load_pos ih el
  | remove_at i hs _ ih =>
    exact remove_at_bounded _ (reachable_inv hload hs).buckets.load_pos ih i
  | pop hs ih => exact pop_bounded _ (reachable_inv hload hs).buckets.load_pos ih
  | clear _ _ =>
    intro c hc
    simp [clear] at hc
  | find el _ ih =>
    obtain ⟨d1, -, -, d4⟩ := find_data _ el
    exact ih.same_store d1 d4
  | count el _ ih =>
    obtain ⟨d1, -, -, d4⟩ := count_data _ el
    exact ih.same_store d1 d4
  | operator_at i _ _ ih =>
    rw [operator_at_state]
    obtain ⟨d1, -, -, d4⟩ := place_data _ i
    exact ih.same_store d1 d4

end bounded_ops

/-- C15: with load factor `L` (positive; 100 in the code, `L / 2` rounded down as the
lower threshold), in every state reachable through the public operations (`add`,
`remove`, `remove_at` with a rank below the size, `pop`, and the others): no bucket is
empty, no bucket is longer than `2 * L`, and as soon as there is more than one bucket
every bucket is longer than `L / 2`, so only a sole bucket can be at or below `L / 2`.
For `L = 2`, adding 1, 2, 3, 4 leaves one bucket of four elements, and adding 5 splits it
into buckets of two and three elements. -/
theorem bucket_balance {α : Type} [LinearOrder α] (load : Nat) (s : sorted_list α)
    (hload : 0 < load) (hs : Reachable load s) :
    s._load = load ∧
    (∀ b ∈ s._list, b ≠ []) ∧
    (∀ b ∈ s._list, b.length ≤ 2 * load) ∧
    (1 < s._list.length → ∀ b ∈ s._list, load / 2 < b.length) ∧
    (∀ b ∈ s._list, b.length ≤ load / 2 → s._list = [b]) ∧
    (add_all [1, 2, 3, 4] (with_load Nat 2))._list = [[1, 2, 3, 4]] ∧
    scenario_five._list = [[1, 2], [3, 4, 5]] := by
  have hsound := reachable_sound hload hs
  have hb := reachable_bounded hload hs
  have hle := hsound.load_eq
  have hbal := hsound.balanced
  unfold Balanced at hbal
  rw [hle] at hbal
  refine ⟨hle, hsound.inv.buckets.nonempty, ?_, fun h2 => hbal h2, ?_, by decide, by decide⟩
  · intro b hbm
    have := hb b hbm
    rw [hle] at this
    omega
  · intro b hbm hsmall
    have h1 : ¬ 2 ≤ s._list.length := by
      intro h2
      have := hbal h2 b hbm
      omega
    cases hl : s._list with
    | nil => rw [hl] at hbm; simp at hbm
    | cons c rest =>
      rw [hl] at hbm h1
      cases rest with
      | nil =>
        simp only [List.mem_singleton] at hbm
        rw [hbm]
      | cons d rest2 => simp at h1

theorem bucket_balance_witness :
    0 < 2 ∧ Reachable 2 scenario_five ∧
    (∀ b ∈ scenario_five._list, b ≠ []) ∧
    (∀ b ∈ scenario_five._list, b.length ≤ 2 * 2) ∧
    (1 < scenario_five._list.length → ∀ b ∈ scenario_five._list, 2 / 2 < b.length) :=
  ⟨by decide, reachable_add_all (by decide) _ Reachable.init (by decide),
    (bucket_balance 2 scenario_five (by decide)
      (reachable_add_all (by decide) _ Reachable.init (by decide))).2.1,
    (bucket_balance 2 scenario_five (by decide)
      (reachable_add_all (by decide) _ Reachable.init (by decide))).2.2.1,
    (bucket_balance 2 scenario_five (by decide)
      (reachable_add_all (by decide) _ Reachable.init (by decide))).2.2.2.1⟩

end sortc


namespace sortc

section ledger
variable {α : Type} [LinearOrder α]

end ledger

end sortc
